import Mathlib

/-!
# Verification of the AquaLang compiler front-end

Shallow embedding of the AquaLang compiler pipeline
(`Lexer/lexer.py`, `Parser/parser.py`, `Semantic/semantic.py`,
`Semantic/symbol_table.py`, `CodeGen/codegeneration.py`) together with
theorems settling the specification claims.

Source text is modelled as `List Char`; machine strings as `String`.
The PLY lexer is embedded as an explicit position-advancing step function
whose rule order matches PLY's master-regex construction (function rules
in definition order, then string rules by decreasing pattern length).
-/

namespace Aqua

/-! ## Decimal rendering of naturals

Models Python's `str(int)` / f-string interpolation of the counters.
Implemented via `Nat.digits` so that injectivity is provable.
-/

/-- The decimal digit character for `d < 10`. -/
def digitCh (d : Nat) : Char :=
  Char.ofNat (48 + d)

/-- Decimal digit characters of `n`, most significant first; the fuel
argument (any value `≥ n + 1`) only makes the recursion structural. -/
def natChars : Nat → Nat → List Char
  | 0, _ => []
  | fuel + 1, n => if n < 10 then [digitCh n] else natChars fuel (n / 10) ++ [digitCh (n % 10)]

/-- Decimal rendering of a natural number.
Models Python `str(n)` for `n : Nat`. -/
def natStr (n : Nat) : String := ⟨natChars (n + 1) n⟩

theorem natChars_eq_digits :
    ∀ (fuel n : Nat), n ≠ 0 → n + 1 ≤ fuel →
      natChars fuel n = ((Nat.digits 10 n).map digitCh).reverse := by
  intro fuel
  induction fuel using Nat.strong_induction_on with
  | _ fuel ih =>
    intro n hn hle
    match fuel with
    | 0 => omega
    | f + 1 =>
      unfold natChars
      by_cases h10 : n < 10
      · simp only [if_pos h10]
        rw [Nat.digits_def' (b := 10) (by norm_num) (Nat.pos_of_ne_zero hn)]
        have : n / 10 = 0 := Nat.div_eq_of_lt h10
        rw [this]
        simp [Nat.mod_eq_of_lt h10]
      · simp only [if_neg h10]
        have hq : n / 10 ≠ 0 := by
          intro h
          have := Nat.div_eq_of_lt (by omega : n < 10)
          omega
        have hqlt : n / 10 + 1 ≤ f := by
          have h1 : n / 10 < n := Nat.div_lt_self (by omega) (by norm_num)
          omega
        rw [ih f (by omega) (n / 10) hq hqlt]
        rw [Nat.digits_def' (b := 10) (by norm_num) (Nat.pos_of_ne_zero hn)]
        simp

theorem natStr_zero : natStr 0 = "0" := rfl

theorem natStr_eq_digits {n : Nat} (hn : n ≠ 0) :
    natStr n = ⟨((Nat.digits 10 n).map digitCh).reverse⟩ := by
  unfold natStr
  rw [natChars_eq_digits (n + 1) n hn (le_refl _)]

theorem digitCh_inj_all : ∀ a, a < 10 → ∀ b, b < 10 → digitCh a = digitCh b → a = b := by
  decide

theorem digitCh_inj {a b : Nat} (ha : a < 10) (hb : b < 10) (h : digitCh a = digitCh b) :
    a = b :=
  digitCh_inj_all a ha b hb h

theorem natStr_inj : Function.Injective natStr := by
  intro m n h
  by_cases hm : m = 0 <;> by_cases hn : n = 0
  · omega
  · -- m = 0, n ≠ 0 : "0" = rendering of n forces digits n = [0], impossible
    rw [hm, natStr_zero, natStr_eq_digits hn] at h
    exfalso
    have hne : Nat.digits 10 n ≠ [] := Nat.digits_ne_nil_iff_ne_zero.mpr hn
    have hchars : ['0'] = ((Nat.digits 10 n).map digitCh).reverse := by
      have := congrArg String.data h
      simpa using this
    have hlen : (Nat.digits 10 n).length = 1 := by
      have := congrArg List.length hchars
      simpa using this.symm
    obtain ⟨d, hd⟩ : ∃ d, Nat.digits 10 n = [d] := by
      cases hdig : Nat.digits 10 n with
      | nil => simp [hdig] at hlen
      | cons a l =>
        cases l with
        | nil => exact ⟨a, rfl⟩
        | cons b l' => simp [hdig] at hlen
    have hdlt : d < 10 := by
      have := Nat.digits_lt_base (by norm_num) (hd ▸ List.mem_cons_self d [])
      exact this
    have hz : digitCh d = '0' := by
      have := hchars
      rw [hd] at this
      simpa using this.symm
    have : d = 0 := by
      have h0 : digitCh 0 = '0' := rfl
      exact digitCh_inj hdlt (by norm_num) (hz.trans h0.symm)
    subst this
    have := Nat.ofDigits_digits 10 n
    rw [hd] at this
    simp [Nat.ofDigits] at this
    exact hn this.symm
  · -- symmetric case
    rw [hn, natStr_zero, natStr_eq_digits hm] at h
    exfalso
    have hne : Nat.digits 10 m ≠ [] := Nat.digits_ne_nil_iff_ne_zero.mpr hm
    have hchars : ((Nat.digits 10 m).map digitCh).reverse = ['0'] := by
      have := congrArg String.data h
      simpa using this
    have hlen : (Nat.digits 10 m).length = 1 := by
      have := congrArg List.length hchars
      simpa using this
    obtain ⟨d, hd⟩ : ∃ d, Nat.digits 10 m = [d] := by
      cases hdig : Nat.digits 10 m with
      | nil => simp [hdig] at hlen
      | cons a l =>
        cases l with
        | nil => exact ⟨a, rfl⟩
        | cons b l' => simp [hdig] at hlen
    have hdlt : d < 10 := by
      have := Nat.digits_lt_base (by norm_num) (hd ▸ List.mem_cons_self d [])
      exact this
    have hz : digitCh d = '0' := by
      have := hchars
      rw [hd] at this
      simpa using this
    have : d = 0 := by
      have h0 : digitCh 0 = '0' := rfl
      exact digitCh_inj hdlt (by norm_num) (hz.trans h0.symm)
    subst this
    have := Nat.ofDigits_digits 10 m
    rw [hd] at this
    simp [Nat.ofDigits] at this
    exact hm this.symm
  · -- both nonzero
    rw [natStr_eq_digits hm, natStr_eq_digits hn] at h
    have hchars : ((Nat.digits 10 m).map digitCh).reverse
        = ((Nat.digits 10 n).map digitCh).reverse := by
      have := congrArg String.data h
      simpa using this
    have hmap : (Nat.digits 10 m).map digitCh = (Nat.digits 10 n).map digitCh := by
      have := congrArg List.reverse hchars
      simpa using this
    have hdig : Nat.digits 10 m = Nat.digits 10 n := by
      have hlen : (Nat.digits 10 m).length = (Nat.digits 10 n).length := by
        have := congrArg List.length hmap
        simpa using this
      apply List.ext_get hlen
      intro i h1 h2
      have hm10 : (Nat.digits 10 m).get ⟨i, h1⟩ < 10 :=
        Nat.digits_lt_base (by norm_num) (List.get_mem _ _ _)
      have hn10 : (Nat.digits 10 n).get ⟨i, h2⟩ < 10 :=
        Nat.digits_lt_base (by norm_num) (List.get_mem _ _ _)
      apply digitCh_inj hm10 hn10
      have h3 := congrArg (fun l => l.get? i) hmap
      simp only [List.get?_eq_getElem?, List.getElem?_map] at h3
      simp only [← List.get?_eq_getElem?] at h3
      rw [List.get?_eq_get h1, List.get?_eq_get h2] at h3
      simpa using h3
    calc m = Nat.ofDigits 10 (Nat.digits 10 m) := (Nat.ofDigits_digits 10 m).symm
      _ = Nat.ofDigits 10 (Nat.digits 10 n) := by rw [hdig]
      _ = n := Nat.ofDigits_digits 10 n

/-! ## Lexer (`Lexer/lexer.py`)

PLY builds one master regular expression: function rules in the order of
their definition in the file (multi-line comment, single-line comment,
float literal, int literal, char literal, string literal, identifier,
newline), then the string rules sorted by decreasing pattern length (so
every two-character operator is tried before any one-character one).
`t_ignore = ' \t'` characters are skipped before each match attempt.
All rule patterns are compiled with `re.VERBOSE`, so inline spaces in the
pattern sources are insignificant.
-/

/-- Token kinds of the lexer (`tokens` list plus the reserved keywords). -/
inductive TokKind where
  | INT_LITERAL | FLOAT_LITERAL | CHAR_LITERAL | STRING_LITERAL
  | ID
  | PLUS | MINUS | TIMES | DIVIDE | MOD
  | LT | GT | LE | GE | EQ | NE
  | NOT | OR | AND
  | LPAREN | RPAREN | LBRACKET | RBRACKET | LBRACE | RBRACE
  | COMMA | SEMI | ASSIGN
  | INVALID
  | FUNC | IF | ELIF | ELSE | WHILE | FOR | BREAK | CONTINUE
  | INT | FLOAT | BOOL | CHAR | STRING
  | RETURN | PRINT | INPUT | FALSE | TRUE
deriving DecidableEq, Repr

/-- A produced token: kind, captured value, line number and the absolute
position (`lexpos`) at which the match started. -/
structure Tok where
  kind : TokKind
  value : String
  line : Nat
  lexpos : Nat
deriving DecidableEq, Repr

/-- The reserved-keyword table (the `reserved` dict). -/
def reservedList : List (String × TokKind) :=
  [("func", .FUNC), ("if", .IF), ("elif", .ELIF), ("else", .ELSE),
   ("while", .WHILE), ("for", .FOR), ("break", .BREAK),
   ("continue", .CONTINUE), ("int", .INT), ("float", .FLOAT),
   ("bool", .BOOL), ("char", .CHAR), ("string", .STRING),
   ("return", .RETURN), ("print", .PRINT), ("input", .INPUT),
   ("false", .FALSE), ("true", .TRUE)]

/-- `reserved.get(t.value, 'ID')`: identifiers are reclassified after
matching. -/
def reservedKind (s : String) : TokKind :=
  match reservedList.find? (fun p => p.1 = s) with
  | some p => p.2
  | none => .ID

def isDigitCh (c : Char) : Bool := '0' ≤ c ∧ c ≤ '9'

def isHexDigitCh (c : Char) : Bool :=
  isDigitCh c ∨ ('a' ≤ c ∧ c ≤ 'f') ∨ ('A' ≤ c ∧ c ≤ 'F')

def isAlphaCh (c : Char) : Bool :=
  ('a' ≤ c ∧ c ≤ 'z') ∨ ('A' ≤ c ∧ c ≤ 'Z')

/-- First character of `t_ID`: `[a-zA-Z_]`. -/
def isIdStartCh (c : Char) : Bool := isAlphaCh c ∨ c = '_'

/-- Continuation character of `t_ID`: `[a-zA-Z0-9_]`. -/
def isIdCh (c : Char) : Bool := isAlphaCh c ∨ isDigitCh c ∨ c = '_'

/-- Length matched by the exponent group `([eE][+-]?[0-9]+)`, or `0` when
the group does not match (it is optional in the first float alternative). -/
def matchExpPart (l : List Char) : Nat :=
  match l with
  | c :: r =>
    if c = 'e' ∨ c = 'E' then
      match r with
      | c2 :: r2 =>
        if c2 = '+' ∨ c2 = '-' then
          let d := (r2.takeWhile isDigitCh).length
          if d = 0 then 0 else 2 + d
        else
          let d := (r.takeWhile isDigitCh).length
          if d = 0 then 0 else 1 + d
      | [] => 0
    else 0
  | [] => 0

/-- `t_FLOAT_LITERAL`: `[0-9]+\.[0-9]+([eE][+-]?[0-9]+)? | [0-9]+[eE][+-]?[0-9]+`.
Returns the matched length. -/
def matchFloat (l : List Char) : Option Nat :=
  let d1 := (l.takeWhile isDigitCh).length
  if d1 = 0 then none
  else
    match l.drop d1 with
    | '.' :: r2 =>
      let d2 := (r2.takeWhile isDigitCh).length
      if d2 = 0 then none
      else some (d1 + 1 + d2 + matchExpPart (r2.drop d2))
    | r1 =>
      let e := matchExpPart r1
      if e = 0 then none else some (d1 + e)

/-- `t_INT_LITERAL`: `0x[0-9a-fA-F]+ | [0-9]+`. Returns the matched length. -/
def matchInt (l : List Char) : Option Nat :=
  match l with
  | '0' :: 'x' :: r =>
    let h := (r.takeWhile isHexDigitCh).length
    if h = 0 then some 1 else some (2 + h)
  | _ =>
    let d := (l.takeWhile isDigitCh).length
    if d = 0 then none else some d

/-- `t_CHAR_LITERAL`: `\'([^'\\] | \\.)\'`; the stored value has the quotes
stripped (`t.value = t.value[1:-1]`). Returns matched length and value. -/
def matchChar (l : List Char) : Option (Nat × List Char) :=
  match l with
  | '\'' :: '\\' :: c :: '\'' :: _ =>
    if c ≠ '\n' then some (4, ['\\', c]) else none
  | '\'' :: c :: '\'' :: _ =>
    if c ≠ '\'' ∧ c ≠ '\\' then some (3, [c]) else none
  | _ => none

/-- The starred group of `t_STRING_LITERAL`: consumes `([^"\\] | \\.)*`
units up to (and including) the closing quote; returns the length consumed
including the closing quote. -/
def strUnits : List Char → Option Nat
  | '"' :: _ => some 1
  | '\\' :: c :: r => if c ≠ '\n' then (strUnits r).map (· + 2) else none
  | c :: r => if c ≠ '"' ∧ c ≠ '\\' then (strUnits r).map (· + 1) else none
  | [] => none

/-- `t_STRING_LITERAL`: `\"([^"\\] | \\.)*\"`; value quotes-stripped. -/
def matchString (l : List Char) : Option (Nat × List Char) :=
  match l with
  | '"' :: r =>
    match strUnits r with
    | some n => some (1 + n, r.take (n - 1))
    | none => none
  | _ => none

/-- `t_ignore_COMMENT_MULTI`: `/\*(.|\n)*?\*/` (non-greedy: shortest
closing). Returns the distance from the start of the inner text to the
closing `*/`. -/
def findClose : List Char → Option Nat
  | '*' :: '/' :: _ => some 0
  | _ :: r => (findClose r).map (· + 1)
  | [] => none

/-- Matched length of a multi-line comment, together with the number of
newlines inside it (`t.lexer.lineno += t.value.count('\n')`). -/
def matchCommentMulti (l : List Char) : Option (Nat × Nat) :=
  match l with
  | '/' :: '*' :: r =>
    match findClose r with
    | some k => some (4 + k, ((r.take (k + 2)).filter (· = '\n')).length)
    | none => none
  | _ => none

/-- `t_ignore_COMMENT_SINGLE`: `//.*` (stops before the newline). -/
def matchCommentSingle (l : List Char) : Option Nat :=
  match l with
  | '/' :: '/' :: r => some (2 + (r.takeWhile (· ≠ '\n')).length)
  | _ => none

/-- `t_ID`: `[a-zA-Z_][a-zA-Z0-9_]*`. -/
def matchId (l : List Char) : Option Nat :=
  match l with
  | c :: r => if isIdStartCh c then some (1 + (r.takeWhile isIdCh).length) else none
  | [] => none

/-- The two-character operator rules; they come first among the string
rules because PLY sorts string rules by decreasing pattern length. -/
def matchOp2 (l : List Char) : Option (TokKind × Char × Char) :=
  match l with
  | a :: b :: _ =>
    if a = '<' ∧ b = '=' then some (.LE, a, b)
    else if a = '>' ∧ b = '=' then some (.GE, a, b)
    else if a = '=' ∧ b = '=' then some (.EQ, a, b)
    else if a = '!' ∧ b = '=' then some (.NE, a, b)
    else if a = '|' ∧ b = '|' then some (.OR, a, b)
    else if a = '&' ∧ b = '&' then some (.AND, a, b)
    else none
  | _ => none

/-- The one-character operator/separator rules (the characters are
pairwise distinct, so their relative order is immaterial). -/
def op1List : List (Char × TokKind) :=
  [('+', .PLUS), ('-', .MINUS), ('*', .TIMES), ('/', .DIVIDE),
   ('%', .MOD), ('<', .LT), ('>', .GT), ('!', .NOT),
   ('(', .LPAREN), (')', .RPAREN), ('[', .LBRACKET), (']', .RBRACKET),
   ('{', .LBRACE), ('}', .RBRACE), (',', .COMMA), (';', .SEMI),
   ('=', .ASSIGN)]

def matchOp1 (c : Char) : Option TokKind :=
  (op1List.find? (fun p => p.1 = c)).map (fun p => p.2)

/-- Start index of the line containing `pos`:
`t.lexer.lexdata.rfind('\n', 0, t.lexpos) + 1` (0 when there is none). -/
def lineStartOf (s : List Char) (pos : Nat) : Nat :=
  pos - (((s.take pos).reverse).takeWhile (· ≠ '\n')).length

/-- End index of the line containing `pos`: the index of the next `'\n'`
at or after `pos`, or `s.length` (`find` returning `-1`). -/
def lineEndOf (s : List Char) (pos : Nat) : Nat :=
  pos + ((s.drop pos).takeWhile (· ≠ '\n')).length

/-- The captured content of the whole line containing `pos`
(`lexdata[line_start_pos:line_end_pos]`). -/
def lineSliceOf (s : List Char) (pos : Nat) : List Char :=
  (s.take (lineEndOf s pos)).drop (lineStartOf s pos)

/-- One attempt of PLY's `token()` at position `pos`: skip one ignored
character, or match one master-regex rule, or run `t_error`. Returns the
emitted token (if the rule emits one), the new position and line number. -/
def lexStep (s : List Char) (pos : Nat) (line : Nat) : Option Tok × Nat × Nat :=
  let l := s.drop pos
  match l with
  | [] => (none, pos, line)
  | c :: r =>
    -- t_ignore = ' \t'
    if c = ' ' ∨ c = '\t' then (none, pos + 1, line)
    else match matchCommentMulti l with
    | some (len, nl) => (none, pos + len, line + nl)
    | none =>
    match matchCommentSingle l with
    | some len => (none, pos + len, line)
    | none =>
    match matchFloat l with
    | some len => (some ⟨.FLOAT_LITERAL, ⟨l.take len⟩, line, pos⟩, pos + len, line)
    | none =>
    match matchInt l with
    | some len => (some ⟨.INT_LITERAL, ⟨l.take len⟩, line, pos⟩, pos + len, line)
    | none =>
    match matchChar l with
    | some (len, v) => (some ⟨.CHAR_LITERAL, ⟨v⟩, line, pos⟩, pos + len, line)
    | none =>
    match matchString l with
    | some (len, v) => (some ⟨.STRING_LITERAL, ⟨v⟩, line, pos⟩, pos + len, line)
    | none =>
    match matchId l with
    | some len => (some ⟨reservedKind ⟨l.take len⟩, ⟨l.take len⟩, line, pos⟩, pos + len, line)
    | none =>
    -- t_newline : r'\n+'
    if c = '\n' then
      let n := (l.takeWhile (· = '\n')).length
      (none, pos + n, line + n)
    else match matchOp2 l with
    | some (k, a, b) => (some ⟨k, ⟨[a, b]⟩, line, pos⟩, pos + 2, line)
    | none =>
    match matchOp1 c with
    | some k => (some ⟨k, ⟨[c]⟩, line, pos⟩, pos + 1, line)
    | none =>
      -- t_error: capture the whole current line as one INVALID token and
      -- skip to the end of the line.
      (some ⟨.INVALID, ⟨lineSliceOf s pos⟩, line, pos⟩, lineEndOf s pos, line)

theorem matchCommentMulti_pos {l : List Char} {len nl : Nat}
    (h : matchCommentMulti l = some (len, nl)) : 1 ≤ len := by
  unfold matchCommentMulti at h
  split at h
  · split at h
    · simp at h; omega
    · simp at h
  · simp at h

theorem matchCommentSingle_pos {l : List Char} {len : Nat}
    (h : matchCommentSingle l = some len) : 1 ≤ len := by
  unfold matchCommentSingle at h
  split at h
  · simp at h; omega
  · simp at h

theorem matchFloat_pos {l : List Char} {len : Nat}
    (h : matchFloat l = some len) : 1 ≤ len := by
  unfold matchFloat at h
  dsimp only at h
  split at h
  · simp at h
  · split at h
    · split at h
      · simp at h
      · simp at h; omega
    · split at h
      · simp at h
      · simp at h; omega

theorem matchInt_pos {l : List Char} {len : Nat}
    (h : matchInt l = some len) : 1 ≤ len := by
  unfold matchInt at h
  dsimp only at h
  split at h
  · split at h <;> (simp at h; omega)
  · split at h
    · simp at h
    · simp at h; omega

theorem matchChar_pos {l : List Char} {len : Nat} {v : List Char}
    (h : matchChar l = some (len, v)) : 1 ≤ len := by
  unfold matchChar at h
  split at h
  · split at h
    · simp at h; omega
    · simp at h
  · split at h
    · simp at h; omega
    · simp at h
  · simp at h

theorem matchString_pos {l : List Char} {len : Nat} {v : List Char}
    (h : matchString l = some (len, v)) : 1 ≤ len := by
  unfold matchString at h
  split at h
  · split at h
    · simp at h; omega
    · simp at h
  · simp at h

theorem matchId_pos {l : List Char} {len : Nat}
    (h : matchId l = some len) : 1 ≤ len := by
  unfold matchId at h
  split at h
  · split at h
    · simp at h; omega
    · simp at h
  · simp at h

theorem lexStep_pos_lt (s : List Char) (pos line : Nat) (h : pos < s.length) :
    pos < (lexStep s pos line).2.1 := by
  unfold lexStep
  have hl : s.drop pos ≠ [] := by
    intro hnil
    have := List.length_drop pos s
    rw [hnil] at this
    simp at this
    omega
  cases hdrop : s.drop pos with
  | nil => exact absurd hdrop hl
  | cons c r =>
    simp only
    by_cases hig : c = ' ' ∨ c = '\t'
    · simp [hig]
    · simp only [hig, if_false]
      cases hcm : matchCommentMulti (c :: r) with
      | some p =>
        obtain ⟨len, nl⟩ := p
        have := matchCommentMulti_pos hcm
        simp only
        omega
      | none =>
      simp only
      cases hcs : matchCommentSingle (c :: r) with
      | some len =>
        have := matchCommentSingle_pos hcs
        simp only
        omega
      | none =>
      simp only
      cases hf : matchFloat (c :: r) with
      | some len =>
        have := matchFloat_pos hf
        simp only
        omega
      | none =>
      simp only
      cases hi : matchInt (c :: r) with
      | some len =>
        have := matchInt_pos hi
        simp only
        omega
      | none =>
      simp only
      cases hc : matchChar (c :: r) with
      | some p =>
        obtain ⟨len, v⟩ := p
        have := matchChar_pos hc
        simp only
        omega
      | none =>
      simp only
      cases hs2 : matchString (c :: r) with
      | some p =>
        obtain ⟨len, v⟩ := p
        have := matchString_pos hs2
        simp only
        omega
      | none =>
      simp only
      cases hid : matchId (c :: r) with
      | some len =>
        have := matchId_pos hid
        simp only
        omega
      | none =>
      simp only
      by_cases hnl : c = '\n'
      · subst hnl
        have : 1 ≤ ((('\n' : Char) :: r).takeWhile (· = '\n')).length := by
          simp [List.takeWhile]
        simp
      · simp only [hnl, if_false]
        cases hop2 : matchOp2 (c :: r) with
        | some p =>
          obtain ⟨k, a, b⟩ := p
          simp only
          omega
        | none =>
        simp only
        cases hop1 : matchOp1 c with
        | some k =>
          simp only
          omega
        | none =>
        simp only
        -- error branch: the current character is not '\n', so the distance
        -- to the end of the line is at least one.
        have : 1 ≤ ((s.drop pos).takeWhile (· ≠ '\n')).length := by
          rw [hdrop]
          simp [List.takeWhile, hnl]
        unfold lineEndOf
        omega

/-- The PLY `token()` loop: repeatedly apply `lexStep` until the input is
exhausted, collecting emitted tokens. The `fuel` argument bounds the
number of loop iterations; since every iteration strictly advances the
position (`lexStep_pos_lt`), `s.length` iterations always suffice
(`lexGoF_fuel_adequate`), so the fuel is not a semantic restriction. -/
def lexGoF : Nat → List Char → Nat → Nat → List Tok
  | 0, _, _, _ => []
  | fuel + 1, s, pos, line =>
    if pos < s.length then
      match lexStep s pos line with
      | (some t, pos', line') => t :: lexGoF fuel s pos' line'
      | (none, pos', line') => lexGoF fuel s pos' line'
    else []

/-- Any two sufficient fuels give the same token list: the lexer loop
terminates within `s.length - pos` iterations on every input. -/
theorem lexGoF_fuel_adequate :
    ∀ (fuel fuel' : Nat) (s : List Char) (pos line : Nat),
      s.length - pos ≤ fuel → s.length - pos ≤ fuel' →
      lexGoF fuel s pos line = lexGoF fuel' s pos line := by
  intro fuel
  induction fuel using Nat.strong_induction_on with
  | _ fuel ih =>
    intro fuel' s pos line hf hf'
    match fuel, fuel' with
    | 0, 0 => rfl
    | 0, f' + 1 =>
      have : ¬ pos < s.length := by omega
      simp [lexGoF, this]
    | f + 1, 0 =>
      have : ¬ pos < s.length := by omega
      simp [lexGoF, this]
    | f + 1, f' + 1 =>
      by_cases h : pos < s.length
      · have hadv := lexStep_pos_lt s pos line h
        unfold lexGoF
        simp only [if_pos h]
        cases hstep : lexStep s pos line with
        | mk t? p =>
          obtain ⟨pos', line'⟩ := p
          rw [hstep] at hadv
          simp only at hadv
          have h1 : s.length - pos' ≤ f := by omega
          have h2 : s.length - pos' ≤ f' := by omega
          cases t? with
          | some t => simp [ih f (by omega) f' s pos' line' h1 h2]
          | none => simp [ih f (by omega) f' s pos' line' h1 h2]
      · simp [lexGoF, h]

/-- `tokenize`: run the lexer on a whole input string, starting at
position 0, line 1 (PLY's initial `lineno`). -/
def tokenizeL (s : List Char) : List Tok := lexGoF s.length s 0 1

def tokenize (s : String) : List Tok := tokenizeL s.data

/-! ## AST (`Parser/ast.py`)

`Node(type, children, leaf)`: a tag, an ordered list of child nodes and an
optional scalar payload. All leaves produced by the parser are token-value
strings, so the payload is modelled as `Option String`. -/

inductive Node where
  | mk (kind : String) (children : List Node) (leaf : Option String)
deriving Repr

def Node.kind : Node → String
  | .mk k _ _ => k

def Node.children : Node → List Node
  | .mk _ cs _ => cs

def Node.leaf : Node → Option String
  | .mk _ _ l => l

mutual

def Node.beq : Node → Node → Bool
  | .mk k1 c1 l1, .mk k2 c2 l2 => k1 == k2 && Node.beqList c1 c2 && l1 == l2

def Node.beqList : List Node → List Node → Bool
  | [], [] => true
  | a :: as, b :: bs => Node.beq a b && Node.beqList as bs
  | _, _ => false

end

mutual

theorem Node.beq_iff : ∀ a b : Node, Node.beq a b = true ↔ a = b
  | .mk k1 c1 l1, .mk k2 c2 l2 => by
    simp [Node.beq, Node.beqList_iff c1 c2]
    tauto

theorem Node.beqList_iff : ∀ a b : List Node, Node.beqList a b = true ↔ a = b
  | [], [] => by simp [Node.beqList]
  | a :: as, b :: bs => by
    simp [Node.beqList, Node.beq_iff a b, Node.beqList_iff as bs]
  | [], _ :: _ => by simp [Node.beqList]
  | _ :: _, [] => by simp [Node.beqList]

end

instance : DecidableEq Node := fun a b => decidable_of_iff _ (Node.beq_iff a b)

/-- The closed set of node tags, as an enumeration. Dispatch functions
classify a node's string tag once (`nKind`) and branch on the result:
this models Python's by-tag method lookup (`'gen_' + node.type`,
`iterate`'s elif chain) with `other` standing for "no handler". -/
inductive NKind where
  | program | var_decl | var_decl_array | func_decl | params | param
  | block | assign | id | array_access | ifK | elifK | elseK
  | whileK | forK | printK | inputK | returnK | breakK | continueK
  | bin_op | unary_op | literal | call | args | typeK | size | other
deriving DecidableEq, Repr

def nKind (kind : String) : NKind :=
  if kind = "program" then .program
  else if kind = "var_decl" then .var_decl
  else if kind = "var_decl_array" then .var_decl_array
  else if kind = "func_decl" then .func_decl
  else if kind = "params" then .params
  else if kind = "param" then .param
  else if kind = "block" then .block
  else if kind = "assign" then .assign
  else if kind = "id" then .id
  else if kind = "array_access" then .array_access
  else if kind = "if" then .ifK
  else if kind = "elif" then .elifK
  else if kind = "else" then .elseK
  else if kind = "while" then .whileK
  else if kind = "for" then .forK
  else if kind = "print" then .printK
  else if kind = "input" then .inputK
  else if kind = "return" then .returnK
  else if kind = "break" then .breakK
  else if kind = "continue" then .continueK
  else if kind = "bin_op" then .bin_op
  else if kind = "unary_op" then .unary_op
  else if kind = "literal" then .literal
  else if kind = "call" then .call
  else if kind = "args" then .args
  else if kind = "type" then .typeK
  else if kind = "size" then .size
  else .other

/-! ## Parser (`Parser/parser.py`)

The yacc grammar, embedded as a recursive-descent parser over the token
list. Grammar rules map one-to-one to parse functions; the precedence
table (`precedence`) is realized by precedence climbing with the same
levels: `||` < `&&` < `==`/`!=` < relational (nonassociative) <
additive < multiplicative < unary (`!`, unary minus). A `fuel` argument
bounds recursion depth; every use in this file supplies ample fuel. -/

/-- Is this token kind one of the `type` terminals? -/
def isTypeTok (k : TokKind) : Bool :=
  k = .INT ∨ k = .FLOAT ∨ k = .BOOL ∨ k = .CHAR ∨ k = .STRING

/-- Consume one token of exactly kind `k`. -/
def eat (k : TokKind) : List Tok → Option (Tok × List Tok)
  | t :: ts => if t.kind = k then some (t, ts) else none
  | [] => none

def binOpLevel (k : TokKind) : Option Nat :=
  match k with
  | .OR => some 1
  | .AND => some 2
  | .EQ | .NE => some 3
  | .LT | .GT | .LE | .GE => some 4
  | .PLUS | .MINUS => some 5
  | .TIMES | .DIVIDE | .MOD => some 6
  | _ => none

mutual

/-- `expr` at a binary-precedence level (`p_expr_binop` with the
`precedence` table). Level 4 (relational) is nonassociative: a second
relational operator at the same level is a syntax error. -/
def pBin (fuel : Nat) (lvl : Nat) (ts : List Tok) : Option (Node × List Tok) :=
  match fuel with
  | 0 => none
  | fuel + 1 =>
    if lvl ≥ 7 then pUnary fuel ts
    else do
      let (l, ts) ← pBin fuel (lvl + 1) ts
      if lvl = 4 then
        -- nonassoc: at most one relational operator
        match ts with
        | t :: ts' =>
          if binOpLevel t.kind = some 4 then do
            let (r, ts'') ← pBin fuel 5 ts'
            match ts'' with
            | t2 :: _ => if binOpLevel t2.kind = some 4 then none
                         else some (.mk "bin_op" [l, r] (some t.value), ts'')
            | [] => some (.mk "bin_op" [l, r] (some t.value), ts'')
          else some (l, ts)
        | [] => some (l, ts)
      else pBinLoop fuel lvl l ts

/-- Left-associative iteration at one precedence level. -/
def pBinLoop (fuel : Nat) (lvl : Nat) (l : Node) (ts : List Tok) :
    Option (Node × List Tok) :=
  match fuel with
  | 0 => none
  | fuel + 1 =>
    match ts with
    | t :: ts' =>
      if binOpLevel t.kind = some lvl then do
        let (r, ts'') ← pBin fuel (lvl + 1) ts'
        pBinLoop fuel lvl (.mk "bin_op" [l, r] (some t.value)) ts''
      else some (l, ts)
    | [] => some (l, ts)

/-- `p_expr_unary`: `MINUS expr %prec UMINUS | NOT expr` (right, tightest). -/
def pUnary (fuel : Nat) (ts : List Tok) : Option (Node × List Tok) :=
  match fuel with
  | 0 => none
  | fuel + 1 =>
    match ts with
    | t :: ts' =>
      if t.kind = .MINUS ∨ t.kind = .NOT then do
        let (e, ts'') ← pUnary fuel ts'
        some (.mk "unary_op" [e] (some t.value), ts'')
      else pPrimary fuel ts
    | [] => none

/-- Grouping, literals, locations and calls
(`p_expr_group`, `p_expr_literal`, `p_expr_location`, `p_expr_call`,
`p_location_id`, `p_location_array`, `p_func_call`, `p_literal`). -/
def pPrimary (fuel : Nat) (ts : List Tok) : Option (Node × List Tok) :=
  match fuel with
  | 0 => none
  | fuel + 1 =>
    match ts with
    | t :: ts' =>
      match t.kind with
      | .LPAREN => do
        let (e, ts₁) ← pExpr fuel ts'
        let (_, ts₂) ← eat .RPAREN ts₁
        some (e, ts₂)
      | .INT_LITERAL | .FLOAT_LITERAL | .CHAR_LITERAL | .STRING_LITERAL
      | .TRUE | .FALSE =>
        some (.mk "literal" [] (some t.value), ts')
      | .ID =>
        match ts' with
        | t2 :: ts₂ =>
          if t2.kind = .LPAREN then do
            let (args, ts₃) ← pArgsOpt fuel ts₂
            let (_, ts₄) ← eat .RPAREN ts₃
            some (.mk "call" [args] (some t.value), ts₄)
          else if t2.kind = .LBRACKET then do
            let (e, ts₃) ← pExpr fuel ts₂
            let (_, ts₄) ← eat .RBRACKET ts₃
            some (.mk "array_access" [e] (some t.value), ts₄)
          else some (.mk "id" [] (some t.value), ts')
        | [] => some (.mk "id" [] (some t.value), ts')
      | _ => none
    | [] => none

/-- `p_arg_list_opt` / `p_arg_list`. -/
def pArgsOpt (fuel : Nat) (ts : List Tok) : Option (Node × List Tok) :=
  match fuel with
  | 0 => none
  | fuel + 1 =>
    match ts with
    | t :: _ =>
      if t.kind = .RPAREN then some (.mk "args" [] none, ts)
      else do
        let (e, ts₁) ← pExpr fuel ts
        let (es, ts₂) ← pArgsRest fuel ts₁
        some (.mk "args" (e :: es) none, ts₂)
    | [] => none

def pArgsRest (fuel : Nat) (ts : List Tok) : Option (List Node × List Tok) :=
  match fuel with
  | 0 => none
  | fuel + 1 =>
    match ts with
    | t :: ts' =>
      if t.kind = .COMMA then do
        let (e, ts₁) ← pExpr fuel ts'
        let (es, ts₂) ← pArgsRest fuel ts₁
        some (e :: es, ts₂)
      else some ([], ts)
    | [] => some ([], ts)

/-- `expr` (all binary levels then unary then primary). -/
def pExpr (fuel : Nat) (ts : List Tok) : Option (Node × List Tok) :=
  match fuel with
  | 0 => none
  | fuel + 1 => pBin fuel 1 ts

end

mutual

/-- `p_type`. -/
def pType (ts : List Tok) : Option (Node × List Tok) :=
  match ts with
  | t :: ts' =>
    if isTypeTok t.kind then some (.mk "type" [] (some t.value), ts') else none
  | [] => none

/-- `p_var_decl_scalar` / `p_var_decl_array`. -/
def pVarDecl (fuel : Nat) (ts : List Tok) : Option (Node × List Tok) :=
  match fuel with
  | 0 => none
  | _fuel + 1 => do
    let (ty, ts₁) ← pType ts
    let (idt, ts₂) ← eat .ID ts₁
    match ts₂ with
    | t :: ts₃ =>
      if t.kind = .SEMI then
        some (.mk "var_decl" [ty] (some idt.value), ts₃)
      else if t.kind = .LBRACKET then do
        let (sz, ts₄) ← eat .INT_LITERAL ts₃
        let (_, ts₅) ← eat .RBRACKET ts₄
        let (_, ts₆) ← eat .SEMI ts₅
        some (.mk "var_decl_array" [ty, .mk "size" [] (some sz.value)]
          (some idt.value), ts₆)
      else none
    | [] => none

/-- `p_param_list_opt` / `p_param_list` / `p_param`. -/
def pParamsOpt (fuel : Nat) (ts : List Tok) : Option (Node × List Tok) :=
  match fuel with
  | 0 => none
  | fuel + 1 =>
    match ts with
    | t :: _ =>
      if isTypeTok t.kind then do
        let (p, ts₁) ← pParam ts
        let (ps, ts₂) ← pParamsRest fuel ts₁
        some (.mk "params" (p :: ps) none, ts₂)
      else some (.mk "params" [] none, ts)
    | [] => some (.mk "params" [] none, ts)

def pParam (ts : List Tok) : Option (Node × List Tok) := do
  let (ty, ts₁) ← pType ts
  let (idt, ts₂) ← eat .ID ts₁
  some (.mk "param" [ty] (some idt.value), ts₂)

def pParamsRest (fuel : Nat) (ts : List Tok) : Option (List Node × List Tok) :=
  match fuel with
  | 0 => none
  | fuel + 1 =>
    match ts with
    | t :: ts' =>
      if t.kind = .COMMA then do
        let (p, ts₁) ← pParam ts'
        let (ps, ts₂) ← pParamsRest fuel ts₁
        some (p :: ps, ts₂)
      else some ([], ts)
    | [] => some ([], ts)

/-- `p_block`. -/
def pBlock (fuel : Nat) (ts : List Tok) : Option (Node × List Tok) :=
  match fuel with
  | 0 => none
  | fuel + 1 => do
    let (_, ts₁) ← eat .LBRACE ts
    let (sts, ts₂) ← pStmtList fuel ts₁
    let (_, ts₃) ← eat .RBRACE ts₂
    some (.mk "block" sts none, ts₃)

/-- First set of `statement`. -/
def pStmtList (fuel : Nat) (ts : List Tok) : Option (List Node × List Tok) :=
  match fuel with
  | 0 => none
  | fuel + 1 =>
    match ts with
    | t :: _ =>
      match t.kind with
      | .ID | .IF | .WHILE | .FOR | .PRINT | .INPUT | .RETURN
      | .BREAK | .CONTINUE | .LBRACE => do
        let (st, ts₁) ← pStatement fuel ts
        let (sts, ts₂) ← pStmtList fuel ts₁
        some (st :: sts, ts₂)
      | _ => some ([], ts)
    | [] => some ([], ts)

/-- `p_assignment` / `p_location_id` / `p_location_array`. -/
def pAssignment (fuel : Nat) (ts : List Tok) : Option (Node × List Tok) :=
  match fuel with
  | 0 => none
  | fuel + 1 => do
    let (idt, ts₁) ← eat .ID ts
    match ts₁ with
    | t :: ts₂ =>
      if t.kind = .LBRACKET then do
        let (e, ts₃) ← pExpr fuel ts₂
        let (_, ts₄) ← eat .RBRACKET ts₃
        let (_, ts₅) ← eat .ASSIGN ts₄
        let (rhs, ts₆) ← pExpr fuel ts₅
        some (.mk "assign" [.mk "array_access" [e] (some idt.value), rhs] none, ts₆)
      else do
        let (_, ts₃) ← eat .ASSIGN ts₁
        let (rhs, ts₄) ← pExpr fuel ts₃
        some (.mk "assign" [.mk "id" [] (some idt.value), rhs] none, ts₄)
    | [] => none

/-- `p_elif_part` (right-nested chain). Returns `none` for the empty
production. -/
def pElifPart (fuel : Nat) (ts : List Tok) : Option (Option Node × List Tok) :=
  match fuel with
  | 0 => none
  | fuel + 1 =>
    match ts with
    | t :: ts' =>
      if t.kind = .ELIF then do
        let (_, ts₁) ← eat .LPAREN ts'
        let (cond, ts₂) ← pExpr fuel ts₁
        let (_, ts₃) ← eat .RPAREN ts₂
        let (blk, ts₄) ← pBlock fuel ts₃
        let (nested, ts₅) ← pElifPart fuel ts₄
        match nested with
        | some n => some (some (.mk "elif" [cond, blk, n] none), ts₅)
        | none => some (some (.mk "elif" [cond, blk] none), ts₅)
      else some (none, ts)
    | [] => some (none, ts)

/-- `p_else_part_opt`. -/
def pElsePart (fuel : Nat) (ts : List Tok) : Option (Option Node × List Tok) :=
  match fuel with
  | 0 => none
  | fuel + 1 =>
    match ts with
    | t :: ts' =>
      if t.kind = .ELSE then do
        let (blk, ts₁) ← pBlock fuel ts'
        some (some (.mk "else" [blk] none), ts₁)
      else some (none, ts)
    | [] => some (none, ts)

/-- `p_statement` dispatch: assignment, if, while, for, io, return,
break, continue or nested block. -/
def pStatement (fuel : Nat) (ts : List Tok) : Option (Node × List Tok) :=
  match fuel with
  | 0 => none
  | fuel + 1 =>
    match ts with
    | t :: ts' =>
      match t.kind with
      | .ID => do
        let (a, ts₁) ← pAssignment fuel ts
        let (_, ts₂) ← eat .SEMI ts₁
        some (a, ts₂)
      | .IF => do
        let (_, ts₁) ← eat .LPAREN ts'
        let (cond, ts₂) ← pExpr fuel ts₁
        let (_, ts₃) ← eat .RPAREN ts₂
        let (blk, ts₄) ← pBlock fuel ts₃
        let (elifPart, ts₅) ← pElifPart fuel ts₄
        let (elsePart, ts₆) ← pElsePart fuel ts₅
        let cs := [cond, blk] ++ elifPart.toList ++ elsePart.toList
        some (.mk "if" cs none, ts₆)
      | .WHILE => do
        let (_, ts₁) ← eat .LPAREN ts'
        let (cond, ts₂) ← pExpr fuel ts₁
        let (_, ts₃) ← eat .RPAREN ts₂
        let (blk, ts₄) ← pBlock fuel ts₃
        some (.mk "while" [cond, blk] none, ts₄)
      | .FOR => do
        let (_, ts₁) ← eat .LPAREN ts'
        let (a1, ts₂) ← pAssignment fuel ts₁
        let (_, ts₃) ← eat .SEMI ts₂
        let (cond, ts₄) ← pExpr fuel ts₃
        let (_, ts₅) ← eat .SEMI ts₄
        let (a2, ts₆) ← pAssignment fuel ts₅
        let (_, ts₇) ← eat .RPAREN ts₆
        let (blk, ts₈) ← pBlock fuel ts₇
        some (.mk "for" [a1, cond, a2, blk] none, ts₈)
      | .PRINT => do
        let (_, ts₁) ← eat .LPAREN ts'
        let (e, ts₂) ← pExpr fuel ts₁
        let (_, ts₃) ← eat .RPAREN ts₂
        let (_, ts₄) ← eat .SEMI ts₃
        some (.mk "print" [e] none, ts₄)
      | .INPUT => do
        let (_, ts₁) ← eat .LPAREN ts'
        let (idt, ts₂) ← eat .ID ts₁
        let (_, ts₃) ← eat .RPAREN ts₂
        let (_, ts₄) ← eat .SEMI ts₃
        some (.mk "input" [] (some idt.value), ts₄)
      | .RETURN =>
        (match ts' with
        | t2 :: _ =>
          if t2.kind = .SEMI then do
            let (_, ts₁) ← eat .SEMI ts'
            some (.mk "return" [] none, ts₁)
          else do
            let (e, ts₁) ← pExpr fuel ts'
            let (_, ts₂) ← eat .SEMI ts₁
            some (.mk "return" [e] none, ts₂)
        | [] => none)
      | .BREAK => do
        let (_, ts₁) ← eat .SEMI ts'
        some (.mk "break" [] none, ts₁)
      | .CONTINUE => do
        let (_, ts₁) ← eat .SEMI ts'
        some (.mk "continue" [] none, ts₁)
      | .LBRACE => pBlock fuel ts
      | _ => none
    | [] => none

/-- `p_func_decl`. -/
def pFuncDecl (fuel : Nat) (ts : List Tok) : Option (Node × List Tok) :=
  match fuel with
  | 0 => none
  | fuel + 1 => do
    let (_, ts₁) ← eat .FUNC ts
    let (idt, ts₂) ← eat .ID ts₁
    let (_, ts₃) ← eat .LPAREN ts₂
    let (params, ts₄) ← pParamsOpt fuel ts₃
    let (_, ts₅) ← eat .RPAREN ts₄
    let (blk, ts₆) ← pBlock fuel ts₅
    some (.mk "func_decl" [params, blk] (some idt.value), ts₆)

/-- `p_declaration`. -/
def pDeclaration (fuel : Nat) (ts : List Tok) : Option (Node × List Tok) :=
  match fuel with
  | 0 => none
  | fuel + 1 =>
    match ts with
    | t :: _ =>
      if t.kind = .FUNC then pFuncDecl fuel ts
      else if isTypeTok t.kind then pVarDecl fuel ts
      else none
    | [] => none

/-- `p_declaration_list` (one or more declarations). -/
def pDeclList (fuel : Nat) (ts : List Tok) : Option (List Node × List Tok) :=
  match fuel with
  | 0 => none
  | fuel + 1 => do
    let (d, ts₁) ← pDeclaration fuel ts
    match ts₁ with
    | t :: _ =>
      if t.kind = .FUNC ∨ isTypeTok t.kind then do
        let (ds, ts₂) ← pDeclList fuel ts₁
        some (d :: ds, ts₂)
      else some ([d], ts₁)
    | [] => some ([d], ts₁)

end

/-- `p_program`: a whole token stream must reduce to `program`;
any leftover token is a syntax error and yields no AST. -/
def parseToks (ts : List Tok) : Option Node :=
  match pDeclList (ts.length + 100) ts with
  | some (ds, []) => some (.mk "program" ds none)
  | _ => none

/-- Lex then parse a source string (the `main.py` pipeline order). -/
def parse (src : String) : Option Node := parseToks (tokenize src)

/-! ## Symbol table (`Semantic/symbol_table.py`) and
semantic analyzer (`Semantic/semantic.py`)

The scope stack is modelled with the innermost scope at the HEAD of the
list (the reverse of the Python list, whose innermost scope is `[-1]`);
so Python's `scopes[-1]` is the head, `scopes[-2]` the second element,
`reversed(scopes)` is head-to-tail order, and the global scope is the
last element. Each scope is an association list standing for the Python
dict (keys are unique because `define` refuses duplicates). -/

/-- A symbol-table entry: `{"type": ..., "category": ..., "value": None}`
plus the `param_types` key added for functions. -/
structure Entry where
  type : String
  category : String
  paramTypes : List String := []
deriving DecidableEq, Repr

abbrev Scope := List (String × Entry)

def scopeFind (sc : Scope) (name : String) : Option Entry :=
  match sc.find? (fun p => p.1 = name) with
  | some p => some p.2
  | none => none

/-- One diagnostic per `error_list.append` site of `semantic.py`,
in structured form (the Python code stores the formatted message). -/
inductive Diag where
  | varRedecl (name : String)
  | arrayRedecl (name : String)
  | funcRedecl (name : String)
  | varNotDecl (name : String)
  | indexNotInt (ty : String)
  | assignMismatch (lhs rhs : String)
  | ifCondNotBool (ty : String)
  | whileCondNotBool
  | forCondNotBool
  | returnOutside
  | returnMismatch (expected got : String)
  | funcNotDef (name : String)
  | notAFunc (name : String)
  | argCount (name : String) (expected got : Nat)
  | argMismatch (i : Nat) (expected got : String)
  | usedBeforeDecl (name : String)
  | invalidOperands (op l r : String)
  | cannotCompare (l r : String)
  | logicalNotBool
deriving DecidableEq, Repr

/-- Analyzer state: scope stack, accumulated `error_list` and the
`current_func_ret_type` global. -/
structure SemSt where
  scopes : List Scope
  errors : List Diag
  curRet : Option String
deriving DecidableEq, Repr

def SemSt.addErr (s : SemSt) (d : Diag) : SemSt :=
  { s with errors := s.errors ++ [d] }

/-- `SymbolTable.define`: fails (returning the state unchanged and
`false`) when the name already exists in the innermost scope. -/
def SemSt.define (s : SemSt) (name : String) (ty cat : String) : SemSt × Bool :=
  match s.scopes with
  | sc :: rest =>
    if (scopeFind sc name).isSome then (s, false)
    else ({ s with scopes := (sc ++ [(name, ⟨ty, cat, []⟩)]) :: rest }, true)
  | [] => (s, false)

/-- `SymbolTable.lookup` over a scope stack: innermost scope first
(`for scope in reversed(self.scopes)`). -/
def lookupScopes : List Scope → String → Option Entry
  | [], _ => none
  | sc :: rest, name =>
    match scopeFind sc name with
    | some e => some e
    | none => lookupScopes rest name

def SemSt.lookup (s : SemSt) (name : String) : Option Entry :=
  lookupScopes s.scopes name

def SemSt.enterScope (s : SemSt) : SemSt := { s with scopes := [] :: s.scopes }

def SemSt.exitScope (s : SemSt) : SemSt := { s with scopes := s.scopes.tail }

/-- `func_entry['param_types'] = param_types` on `scopes[-2]`
(the second element of our head-innermost stack). -/
def SemSt.setParamTypes (s : SemSt) (name : String) (pts : List String) : SemSt :=
  match s.scopes with
  | sc :: sc2 :: rest =>
    let sc2' := sc2.map (fun p => if p.1 = name then (p.1, { p.2 with paramTypes := pts }) else p)
    { s with scopes := sc :: sc2' :: rest }
  | _ => s

/-- `val.startswith(c)` on a one-character prefix, via the character
list (kernel-reducible, unlike `String.startsWith`). -/
def strHeadIs (v : String) (c : Char) : Bool :=
  match v.data with
  | c' :: _ => c' = c
  | [] => false

/-- `'.' in val`, via the character list. -/
def strHasDot (v : String) : Bool := v.data.contains '.'

/-- `check_type_compatibility`. -/
def checkTypeCompatibility (target source : String) : Bool :=
  if target = source then true
  else if target = "float" ∧ source = "int" then true
  else false

/-- Parameter nodes: `(param.children[0].leaf, param.leaf)`. -/
def paramInfo (p : Node) : String × String :=
  (match p.children with
   | ty :: _ => ty.leaf.getD ""
   | [] => "", p.leaf.getD "")

/-- Define every parameter as an ordinary variable in the current scope
(the `define` result is ignored, as in the source). -/
def defineParams (ps : List Node) (s : SemSt) : SemSt :=
  match ps with
  | [] => s
  | p :: rest =>
    let (pty, pname) := paramInfo p
    defineParams rest (SemSt.define s pname pty "var").1

/-- The define-or-report pattern of the three declaration handlers:
`define`, and on failure append the given redeclaration diagnostic. -/
def defineOrReport (s : SemSt) (name ty cat : String) (d : Diag) : SemSt :=
  let (s1, ok) := SemSt.define s name ty cat
  if ok then s1 else s1.addErr d

def arithOps : List String := ["+", "-", "*", "/", "%"]
def relOps : List String := ["<", ">", "<=", ">=", "==", "!="]
def logicOps : List String := ["&&", "||"]

/-- The literal branch of `get_expr_type`: all leaves are strings, so of
the Python `isinstance` tests only the string branch is reachable. -/
def literalType (val : String) : String :=
  if val = "true" ∨ val = "false" then "bool"
  else if strHeadIs val '\'' then "char"
  else if strHeadIs val '"' then "string"
  else if strHasDot val then "float"
  else "int"

/-- The identifier branch of `get_expr_type`. -/
def exprIdType (name : String) (s : SemSt) : String × SemSt :=
  match SemSt.lookup s name with
  | none => ("error", s.addErr (.usedBeforeDecl name))
  | some sym => (sym.type, s)

/-- The `array_access` branch of `get_expr_type` (no diagnostic on a
missing symbol). -/
def exprArrType (name : String) (s : SemSt) : String × SemSt :=
  match SemSt.lookup s name with
  | none => ("error", s)
  | some sym => (sym.type, s)

/-- The `call` branch of `get_expr_type`: `'void'` when the callee
resolves, otherwise the function's final `return 'unknown'`. -/
def exprCallType (name : String) (s : SemSt) : String × SemSt :=
  match SemSt.lookup s name with
  | some _ => ("void", s)
  | none => ("unknown", s)

/-- The result type of a binary operation, together with the diagnostic
the `bin_op` branch appends (at most one), following the source's branch
order: error propagation first, then arithmetic, relational, logical,
else `'unknown'`. -/
def binOpResult (op l r : String) : String × Option Diag :=
  if l = "error" ∨ r = "error" then ("error", none)
  else if op ∈ arithOps then
    if l = "int" ∧ r = "int" then ("int", none)
    else if (l = "float" ∨ r = "float") ∧
        ((l = "int" ∨ l = "float") ∧ (r = "int" ∨ r = "float")) then ("float", none)
    else ("error", some (.invalidOperands op l r))
  else if op ∈ relOps then
    if checkTypeCompatibility l r ∨ checkTypeCompatibility r l then ("bool", none)
    else ("error", some (.cannotCompare l r))
  else if op ∈ logicOps then
    if l = "bool" ∧ r = "bool" then ("bool", none)
    else ("error", some .logicalNotBool)
  else ("unknown", none)

/-- The result type of a unary operation (`!` needs `bool`, `-` needs a
numeric operand and preserves it; anything else is `'error'`; no
diagnostic is appended). -/
def unaryResult (op child : String) : String :=
  if op = "!" then (if child = "bool" then "bool" else "error")
  else if op = "-" then (if child = "int" ∨ child = "float" then child else "error")
  else "error"

mutual

/-- `iterate`: dispatch on the node type, then (for every node type other
than `block`, which returns early) fall through to the default traversal
of all children. -/
def iterate (n : Node) (s : SemSt) : SemSt :=
  match n with
  | .mk kind cs leaf =>
    match nKind kind with
    | .block =>
      -- enter scope, iterate children, exit scope, early return
      SemSt.exitScope (iterList cs (SemSt.enterScope s))
    | .var_decl => iterList cs (handleVarDecl cs leaf s)
    | .var_decl_array => iterList cs (handleArrayDecl cs leaf s)
    | .func_decl => iterList cs (handleFuncDecl cs leaf s)
    | .assign => iterList cs (handleAssignment cs s)
    | .ifK => iterList cs (handleIf cs s)
    | .whileK => iterList cs (handleWhile cs s)
    | .forK => iterList cs (handleFor cs s)
    | .returnK => iterList cs (handleReturn cs s)
    | .call => iterList cs (handleFuncCall cs leaf s)
    | _ => iterList cs s


def iterList (ns : List Node) (s : SemSt) : SemSt :=
  match ns with
  | [] => s
  | n :: rest => iterList rest (iterate n s)

/-- `handle_var_decl` (handlers take the node componentwise: they use
only its children list and leaf). -/
def handleVarDecl (cs : List Node) (leaf : Option String) (s : SemSt) : SemSt :=
    let varType := (match cs with | ty :: _ => ty.leaf.getD "" | [] => "")
    let varName := leaf.getD ""
    defineOrReport s varName varType "var" (.varRedecl varName)

/-- `handle_array_decl`. -/
def handleArrayDecl (cs : List Node) (leaf : Option String) (s : SemSt) : SemSt :=
    let arrType := (match cs with | ty :: _ => ty.leaf.getD "" | [] => "")
    let arrName := leaf.getD ""
    defineOrReport s arrName arrType "array" (.arrayRedecl arrName)

/-- `handle_func_decl`: define the function (return type fixed `'void'`)
in the current scope, enter the function scope, define the parameters,
record the parameter types on the function's entry in the enclosing
scope, iterate the body's statements directly (no extra scope), then
exit the scope and clear `current_func_ret_type`. -/
def handleFuncDecl (cs : List Node) (leaf : Option String) (s : SemSt) : SemSt :=
    let funcName := leaf.getD ""
    let s2 := defineOrReport s funcName "void" "func" (.funcRedecl funcName)
    let s3 := { SemSt.enterScope s2 with curRet := some "void" }
    match cs with
    | params :: .mk _ bodyCs _ :: _ =>
      let s4 := defineParams params.children s3
      let pts := params.children.map (fun p => (paramInfo p).1)
      let s5 := SemSt.setParamTypes s4 funcName pts
      let s6 := iterList bodyCs s5
      { SemSt.exitScope s6 with curRet := none }
    | _ => { SemSt.exitScope s3 with curRet := none }

/-- The array-index check of `handle_assignment` (runs only when the
target is an `array_access` node). -/
def checkArrayIndex (loc : Node) (s : SemSt) : SemSt :=
  if nKind loc.kind = .array_access then
    match loc.children with
    | idx :: _ =>
      let (idxTy, s') := getExprType idx s
      if idxTy ≠ "int" then s'.addErr (.indexNotInt idxTy) else s'
    | [] => s
  else s

/-- `handle_assignment`. -/
def handleAssignment (cs : List Node) (s : SemSt) : SemSt :=
    match cs with
    | loc :: expr :: _ =>
      let lhsName := loc.leaf.getD ""
      match SemSt.lookup s lhsName with
      | none => s.addErr (.varNotDecl lhsName)
      | some lhsSym =>
        let s1 := checkArrayIndex loc s
        let (rhsType, s2) := getExprType expr s1
        if ¬ checkTypeCompatibility lhsSym.type rhsType then
          s2.addErr (.assignMismatch lhsSym.type rhsType)
        else s2
    | _ => s

/-- `handle_if_stmt`: condition must be `bool`; then iterate
`children[1:]`. -/
def handleIf (cs : List Node) (s : SemSt) : SemSt :=
    match cs with
    | cond :: rest =>
      let (condTy, s1) := getExprType cond s
      let s2 := if condTy ≠ "bool" then s1.addErr (.ifCondNotBool condTy) else s1
      iterList rest s2
    | [] => s

/-- `handle_while_stmt`. -/
def handleWhile (cs : List Node) (s : SemSt) : SemSt :=
    match cs with
    | cond :: blk :: _ =>
      let (condTy, s1) := getExprType cond s
      let s2 := if condTy ≠ "bool" then s1.addErr .whileCondNotBool else s1
      iterate blk s2
    | _ => s

/-- `handle_for_stmt`. -/
def handleFor (cs : List Node) (s : SemSt) : SemSt :=
    match cs with
    | a1 :: cond :: a2 :: blk :: _ =>
      let s1 := iterate a1 s
      let (condTy, s2) := getExprType cond s1
      let s3 := if condTy ≠ "bool" then s2.addErr .forCondNotBool else s2
      let s4 := iterate a2 s3
      iterate blk s4
    | _ => s

/-- `handle_return`. -/
def handleReturn (cs : List Node) (s : SemSt) : SemSt :=
    match s.curRet with
    | none => s.addErr .returnOutside
    | some retTy =>
      match cs with
      | e :: _ =>
        let (eTy, s1) := getExprType e s
        if ¬ checkTypeCompatibility retTy eTy then
          s1.addErr (.returnMismatch retTy eTy)
        else s1
      | [] =>
        if retTy ≠ "void" then s.addErr (.returnMismatch retTy "void") else s

/-- `handle_func_call`. -/
def handleFuncCall (cs : List Node) (leaf : Option String) (s : SemSt) : SemSt :=
    let funcName := leaf.getD ""
    match SemSt.lookup s funcName with
    | none => s.addErr (.funcNotDef funcName)
    | some sym =>
      if sym.category ≠ "func" then s.addErr (.notAFunc funcName)
      else
        let definedParams := sym.paramTypes
        match cs with
        | args :: _ =>
          if definedParams.length ≠ args.children.length then
            s.addErr (.argCount funcName definedParams.length args.children.length)
          else checkArgs definedParams args.children 1 s
        | [] =>
          if definedParams.length ≠ 0 then
            s.addErr (.argCount funcName definedParams.length 0)
          else s

/-- The per-argument compatibility loop of `handle_func_call`
(`for i, (def_type, arg_expr) in enumerate(zip(...))`, messages are
1-based). -/
def checkArgs (defTypes : List String) (args : List Node) (i : Nat) (s : SemSt) : SemSt :=
  match args, defTypes with
  | a :: as, dt :: dts =>
    let (argTy, s1) := getExprType a s
    let s2 :=
      if ¬ checkTypeCompatibility dt argTy then s1.addErr (.argMismatch i dt argTy)
      else s1
    checkArgs dts as (i + 1) s2
  | _, _ => s

/-- `get_expr_type`: recursively infer an expression's type, appending
diagnostics; the branch bodies live in the `literalType`, `exprIdType`,
`exprArrType`, `exprBinType`, `exprUnaryType` and `exprCallType`
helpers. -/
def getExprType (n : Node) (s : SemSt) : String × SemSt :=
  match n with
  | .mk kind cs leaf =>
    match nKind kind with
    | .literal => (literalType (leaf.getD ""), s)
    | .id => exprIdType (leaf.getD "") s
    | .array_access => exprArrType (leaf.getD "") s
    | .bin_op => exprBinType cs leaf s
    | .unary_op => exprUnaryType cs leaf s
    | .call => exprCallType (leaf.getD "") s
    | _ => ("unknown", s)

/-- The `bin_op` branch of `get_expr_type`: infer both operand types,
then classify via `binOpResult`. -/
def exprBinType (cs : List Node) (leaf : Option String) (s : SemSt) : String × SemSt :=
  match cs with
  | a :: b :: _ =>
    let (l, s1) := getExprType a s
    let (r, s2) := getExprType b s1
    (match binOpResult (leaf.getD "") l r with
    | (ty, some d) => (ty, s2.addErr d)
    | (ty, none) => (ty, s2))
  | _ => ("unknown", s)

/-- The `unary_op` branch of `get_expr_type`. -/
def exprUnaryType (cs : List Node) (leaf : Option String) (s : SemSt) : String × SemSt :=
  match cs with
  | a :: _ =>
    let (c, s1) := getExprType a s
    (unaryResult (leaf.getD "") c, s1)
  | [] => ("error", s)

end

/-- `semantic_analysis`: reset the global state, traverse, report. -/
def analyze (ast : Node) : SemSt :=
  iterate ast ⟨[[]], [], none⟩

/-- The boolean result of `semantic_analysis` (`len(error_list) == 0`). -/
def semanticAnalysis (ast : Node) : Bool :=
  (analyze ast).errors.isEmpty

/-! ## Code generator (`CodeGen/codegeneration.py`)

The source stores each emitted line as a formatted string
(`"\t{op}\t{arg1}, {arg2}, {result}"` for instructions, `"{label}:"` for
labels) and notes the format is `(OP, ARG1, ARG2, RES)`; the embedding
keeps the lines structured (`CodeLine`), with `renderLine` producing the
exact source format. Data-section entries `"\t{name}\t{size}\t?"` are
kept as `(name, size)` pairs likewise. -/

inductive CodeLine where
  | label (l : String)
  | instr (op arg1 arg2 res : String)
deriving DecidableEq, Repr

/-- The exact string the source appends to `code_section`. -/
def renderLine : CodeLine → String
  | .label l => l ++ ":"
  | .instr op a1 a2 res => "\t" ++ op ++ "\t" ++ a1 ++ ", " ++ a2 ++ ", " ++ res

/-- Generator state: the two counters and the two output sections. -/
structure CGSt where
  tempCounter : Nat
  labelCounter : Nat
  data : List (String × String)
  code : List CodeLine
deriving DecidableEq, Repr

def CGSt.init : CGSt := ⟨0, 0, [], []⟩

/-- `new_temp`: allocates `t<N>` (counter incremented first). -/
def newTemp (s : CGSt) : String × CGSt :=
  ("t" ++ natStr (s.tempCounter + 1), { s with tempCounter := s.tempCounter + 1 })

/-- `new_label`: allocates `L<N>` (counter incremented first). -/
def newLabel (s : CGSt) : String × CGSt :=
  ("L" ++ natStr (s.labelCounter + 1), { s with labelCounter := s.labelCounter + 1 })

/-- `emit`. -/
def CGSt.emit (s : CGSt) (op a1 a2 res : String) : CGSt :=
  { s with code := s.code ++ [.instr op a1 a2 res] }

/-- `emit_label`. -/
def CGSt.emitLabel (s : CGSt) (l : String) : CGSt :=
  { s with code := s.code ++ [.label l] }

/-- `add_var_decl`: `DW` for `int`, `DB` for everything else. -/
def CGSt.addVarDecl (s : CGSt) (name ty : String) : CGSt :=
  { s with data := s.data ++ [(name, if ty = "int" then "DW" else "DB")] }

/-- The `op_map` of `gen_expr` (`.get(node.leaf, 'UNKNOWN')`). -/
def opMap (op : String) : String :=
  if op = "+" then "ADD" else if op = "-" then "SUB"
  else if op = "*" then "MUL" else if op = "/" then "DIV"
  else if op = "%" then "MOD" else if op = "<" then "LT"
  else if op = ">" then "GT" else if op = "<=" then "LE"
  else if op = ">=" then "GE" else if op = "==" then "EQ"
  else if op = "!=" then "NE" else if op = "&&" then "AND"
  else if op = "||" then "OR" else "UNKNOWN"

/-- `node.children[0].leaf` of a declaration (the declared type). -/
def varTypeOf (cs : List Node) : String :=
  match cs with
  | ty :: _ => ty.leaf.getD ""
  | [] => ""

/-- `emit('PARAM', t, '', '')` for each evaluated argument, in order. -/
def emitParams (ts : List String) (s : CGSt) : CGSt :=
  match ts with
  | [] => s
  | t :: rest => emitParams rest (s.emit "PARAM" t "" "")

mutual

/-- `generate`: dynamic dispatch to `gen_<type>` when such a handler
exists, else the generic `gen_children` traversal (this is how `break`,
`continue`, `var_decl_array`, `elif`, `else` and all expression kinds
reaching statement position fall through). -/
def genNode (n : Node) (s : CGSt) : CGSt :=
  match n with
  | .mk kind cs leaf =>
    match nKind kind with
    | .program => genList cs s
    | .var_decl => s.addVarDecl (leaf.getD "") (varTypeOf cs)
    | .func_decl => genFuncDecl cs leaf s
    | .block => genList cs s
    | .assign => genAssign cs s
    | .ifK => genIf cs s
    | .whileK => genWhile cs s
    | .forK => genFor cs s
    | .printK => genPrint cs s
    | .inputK => s.emit "READ" "" "" (leaf.getD "")
    | _ => genList cs s

/-- `gen_children` / the statement-list loops. -/
def genList (ns : List Node) (s : CGSt) : CGSt :=
  match ns with
  | [] => s
  | n :: rest => genList rest (genNode n s)

/-- `gen_func_decl`: `FUNC_<name>` label, body, implicit `RET`. -/
def genFuncDecl (cs : List Node) (leaf : Option String) (s : CGSt) : CGSt :=
  match cs with
  | _ :: body :: _ =>
    let s1 := s.emitLabel ("FUNC_" ++ leaf.getD "")
    let s2 := genNode body s1
    s2.emit "RET" "" "" ""
  | _ =>
    let s1 := s.emitLabel ("FUNC_" ++ leaf.getD "")
    s1.emit "RET" "" "" ""

/-- `gen_assign`: evaluate the right-hand side first, then emit an
`ASTORE` (array target) or a `MOV`. -/
def genAssign (cs : List Node) (s : CGSt) : CGSt :=
  match cs with
  | target :: expr :: _ =>
    let (resultTemp, s1) := genExpr expr s
    genAssignTarget target resultTemp s1
  | _ => s

/-- The target half of `gen_assign`. -/
def genAssignTarget (target : Node) (resultTemp : String) (s : CGSt) : CGSt :=
  match target with
  | .mk tkind tcs tleaf =>
    if nKind tkind = .array_access then genAStore tcs tleaf resultTemp s
    else s.emit "MOV" resultTemp "" (tleaf.getD "")

/-- The array-target case of `gen_assign` (`ASTORE value, index, name`). -/
def genAStore (tcs : List Node) (tleaf : Option String) (resultTemp : String)
    (s : CGSt) : CGSt :=
  match tcs with
  | idx :: _ =>
    let (idxV, s2) := genExpr idx s
    s2.emit "ASTORE" resultTemp idxV (tleaf.getD "")
  | [] => s

/-- `gen_if`: allocate the false and exit labels up front, lower the
condition and true block, then walk `children[2:]` (`gen_if`'s while
loop) handling `elif` and `else` children. -/
def genIf (cs : List Node) (s : CGSt) : CGSt :=
  match cs with
  | cond :: trueBlock :: rest =>
    let (labelFalse, s1) := newLabel s
    let (labelExit, s2) := newLabel s1
    let (condT, s3) := genExpr cond s2
    let s4 := s3.emit "JPF" condT labelFalse ""
    let s5 := genNode trueBlock s4
    let s6 := s5.emit "JMP" labelExit "" ""
    let s7 := s6.emitLabel labelFalse
    let s8 := genIfRest rest labelExit s7
    s8.emitLabel labelExit
  | _ => s

/-- The `while current_child_idx < len(node.children)` loop of `gen_if`:
an `elif` child contributes its own next-label, condition, body and jump
to the shared exit; the nested chain in the elif's third child is NOT
visited. An `else` child contributes its body in place. -/
def genIfRest (rest : List Node) (labelExit : String) (s : CGSt) : CGSt :=
  match rest with
  | [] => s
  | child :: rest' => genIfRest rest' labelExit (genIfChild child labelExit s)

/-- One iteration of `gen_if`'s loop body. -/
def genIfChild (child : Node) (labelExit : String) (s : CGSt) : CGSt :=
  match child with
  | .mk ckind ccs _ =>
    match nKind ckind with
    | .elifK => genElifArm ccs labelExit s
    | .elseK => genElseArm ccs s
    | _ => s

/-- The `else` case of `gen_if`'s loop: the body block in place. -/
def genElseArm (ccs : List Node) (s : CGSt) : CGSt :=
  match ccs with
  | ebody :: _ => genNode ebody s
  | [] => s

/-- The `elif` case of `gen_if`'s loop: next label, condition, jump-if-
false, body, jump to the shared exit, next label emission. Only the
elif's first two children are used. -/
def genElifArm (ccs : List Node) (labelExit : String) (s : CGSt) : CGSt :=
  match ccs with
  | econd :: ebody :: _ =>
    let (nextElif, s1) := newLabel s
    let (elifCond, s2) := genExpr econd s1
    let s3 := s2.emit "JPF" elifCond nextElif ""
    let s4 := genNode ebody s3
    let s5 := s4.emit "JMP" labelExit "" ""
    s5.emitLabel nextElif
  | _ => s

/-- `gen_while`. -/
def genWhile (cs : List Node) (s : CGSt) : CGSt :=
  match cs with
  | cond :: body :: _ =>
    let (labelStart, s1) := newLabel s
    let (labelEnd, s2) := newLabel s1
    let s3 := s2.emitLabel labelStart
    let (condT, s4) := genExpr cond s3
    let s5 := s4.emit "JPF" condT labelEnd ""
    let s6 := genNode body s5
    let s7 := s6.emit "JMP" labelStart "" ""
    s7.emitLabel labelEnd
  | _ => s

/-- `gen_for`: init, start label, condition, body, update, back jump,
end label. -/
def genFor (cs : List Node) (s : CGSt) : CGSt :=
  match cs with
  | a1 :: cond :: a2 :: body :: _ =>
    let (labelStart, s1) := newLabel s
    let (labelEnd, s2) := newLabel s1
    let s3 := genNode a1 s2
    let s4 := s3.emitLabel labelStart
    let (condT, s5) := genExpr cond s4
    let s6 := s5.emit "JPF" condT labelEnd ""
    let s7 := genNode body s6
    let s8 := genNode a2 s7
    let s9 := s8.emit "JMP" labelStart "" ""
    s9.emitLabel labelEnd
  | _ => s

/-- `gen_print`. -/
def genPrint (cs : List Node) (s : CGSt) : CGSt :=
  match cs with
  | e :: _ =>
    let (v, s1) := genExpr e s
    s1.emit "PRINT" v "" ""
  | [] => s

/-- `gen_expr`: returns the value reference (literal text, variable name
or fresh temporary) and the updated state. -/
def genExpr (n : Node) (s : CGSt) : String × CGSt :=
  match n with
  | .mk kind cs leaf =>
    match nKind kind with
    | .literal => (leaf.getD "", s)
    | .id => (leaf.getD "", s)
    | .array_access => genExprArr cs leaf s
    | .bin_op => genExprBin cs leaf s
    | .unary_op => genExprUnary cs leaf s
    | .call => genExprCall cs leaf s
    | _ => ("", s)

/-- The `array_access` case of `gen_expr` (`ALOAD` into a fresh
temporary). -/
def genExprArr (cs : List Node) (leaf : Option String) (s : CGSt) : String × CGSt :=
  match cs with
  | idx :: _ =>
    let (idxT, s1) := genExpr idx s
    let (resTemp, s2) := newTemp s1
    (resTemp, s2.emit "ALOAD" (leaf.getD "") idxT resTemp)
  | [] => ("", s)

/-- The `bin_op` case of `gen_expr`. -/
def genExprBin (cs : List Node) (leaf : Option String) (s : CGSt) : String × CGSt :=
  match cs with
  | a :: b :: _ =>
    let (t1, s1) := genExpr a s
    let (t2, s2) := genExpr b s1
    let (res, s3) := newTemp s2
    (res, s3.emit (opMap (leaf.getD "")) t1 t2 res)
  | _ => ("", s)

/-- The `unary_op` case of `gen_expr` (note: an unknown operator still
allocates and returns the temporary, emitting nothing). -/
def genExprUnary (cs : List Node) (leaf : Option String) (s : CGSt) : String × CGSt :=
  match cs with
  | a :: _ =>
    let (t1, s1) := genExpr a s
    let (res, s2) := newTemp s1
    if leaf.getD "" = "-" then (res, s2.emit "NEG" t1 "" res)
    else if leaf.getD "" = "!" then (res, s2.emit "NOT" t1 "" res)
    else (res, s2)
  | [] => ("", s)

/-- The `call` case of `gen_expr`: arguments left to right, `PARAM` per
argument, then `CALL name, <argc>, <fresh temp>`. -/
def genExprCall (cs : List Node) (leaf : Option String) (s : CGSt) : String × CGSt :=
  match cs with
  | .mk _ argCs _ :: _ =>
    let (argTemps, s1) := genExprList argCs s
    let s2 := emitParams argTemps s1
    let (res, s3) := newTemp s2
    (res, s3.emit "CALL" (leaf.getD "") (natStr argTemps.length) res)
  | [] =>
    let (res, s1) := newTemp s
    (res, s1.emit "CALL" (leaf.getD "") (natStr 0) res)

/-- Left-to-right evaluation of call arguments. -/
def genExprList (ns : List Node) (s : CGSt) : List String × CGSt :=
  match ns with
  | [] => ([], s)
  | a :: rest =>
    let (t, s1) := genExpr a s
    let (ts, s2) := genExprList rest s1
    (t :: ts, s2)
end

/-- `CodeGenerator(ast)`: fresh counters and sections, then `generate`. -/
def codeGen (ast : Node) : CGSt := genNode ast CGSt.init

/-! ## Claim C7 -/

/-- C7 (counterexample): `"123abc"` does NOT lex to an `Invalid` token:
the master regex matches `[0-9]+` first (`IntLiteral "123"`), then the
identifier rule matches `"abc"`; no rule treats a digit run with trailing
letters as a lexical error. -/
theorem C7_trailing_letters_counterexample :
    (tokenize "123abc").map (fun t => (t.kind, t.value))
      = [(.INT_LITERAL, "123"), (.ID, "abc")] ∧
    ∀ t ∈ tokenize "123abc", t.kind ≠ TokKind.INVALID := by
  constructor
  · rfl
  · decide

/-- C7 (amended): `"123"` lexes to a single `IntLiteral "123"`, `"0x1F"`
to a single `IntLiteral "0x1F"`, `"3.14"` to a single `FloatLiteral`,
and `"123abc"` to `IntLiteral "123"` followed by `ID "abc"` (two valid
tokens, not an `Invalid` token). -/
theorem C7_numeric_lexing :
    (tokenize "123").map (fun t => (t.kind, t.value)) = [(.INT_LITERAL, "123")] ∧
    (tokenize "0x1F").map (fun t => (t.kind, t.value)) = [(.INT_LITERAL, "0x1F")] ∧
    (tokenize "3.14").map (fun t => (t.kind, t.value)) = [(.FLOAT_LITERAL, "3.14")] ∧
    (tokenize "123abc").map (fun t => (t.kind, t.value))
      = [(.INT_LITERAL, "123"), (.ID, "abc")] := by
  refine ⟨rfl, rfl, rfl, rfl⟩

/-! ## Claim C1 -/

/-- C1 (counterexample): the spec's end-to-end source
`func main(){ int x; x = 2 + 3; print(x); }` does not even parse:
the grammar has no production deriving a variable declaration inside a
`statement` list (`p_statement` lists assignment, if, while, for, io,
return, break, continue and block only), so `int x;` inside the function
body is a syntax error and no AST is produced. -/
theorem C1_end_to_end_counterexample :
    parse "func main(){ int x; x = 2 + 3; print(x); }" = none := by
  decide

/-- The AST of the amended end-to-end program (declaration at top level). -/
def c1Ast : Node :=
  .mk "program"
    [.mk "var_decl" [.mk "type" [] (some "int")] (some "x"),
     .mk "func_decl"
       [.mk "params" [] none,
        .mk "block"
          [.mk "assign"
            [.mk "id" [] (some "x"),
             .mk "bin_op"
               [.mk "literal" [] (some "2"), .mk "literal" [] (some "3")]
               (some "+")] none,
           .mk "print" [.mk "id" [] (some "x")] none] none]
       (some "main")] none

/-- C1 (amended): moving the declaration to the global scope — the only
place the grammar admits one — the pipeline behaves as the claim states:
`int x; func main(){ x = 2 + 3; print(x); }` parses, semantic analysis
reports zero diagnostics, and the code section is exactly a function
label, an `ADD` of `2` and `3` into the fresh temporary `t1`, a `MOV` of
`t1` into `x`, a `PRINT` of `x`, and a trailing `RET`. -/
theorem C1_end_to_end_amended :
    parse "int x; func main(){ x = 2 + 3; print(x); }" = some c1Ast ∧
    (analyze c1Ast).errors = [] ∧
    (codeGen c1Ast).code =
      [.label "FUNC_main",
       .instr "ADD" "2" "3" "t1",
       .instr "MOV" "t1" "" "x",
       .instr "PRINT" "x" "" "",
       .instr "RET" "" "" ""] := by
  refine ⟨by decide, by decide, by decide⟩

/-! ## Claim C2 -/

/-- The AST of `func f(int a){ a = 1; }`. -/
def c2Ast : Node :=
  .mk "program"
    [.mk "func_decl"
      [.mk "params" [.mk "param" [.mk "type" [] (some "int")] (some "a")] none,
       .mk "block"
         [.mk "assign"
           [.mk "id" [] (some "a"), .mk "literal" [] (some "1")] none] none]
      (some "f")] none

/-- C2: the program `func f(int a){ a = 1; }` — whose body refers only to
the function's own parameter — does NOT analyze with zero diagnostics.
`handle_func_decl` itself checks the body with the parameter in scope,
but `iterate` then falls through to its default child traversal (only the
`block` branch returns early), re-visiting the function's block AFTER the
parameter scope has been popped; the re-visit reports
`Semantic Error: Variable 'a' not declared.` So semantic analysis returns
false with exactly that one diagnostic. -/
theorem C2_param_scope_bug :
    parse "func f(int a){ a = 1; }" = some c2Ast ∧
    (analyze c2Ast).errors = [.varNotDecl "a"] ∧
    semanticAnalysis c2Ast = false := by
  refine ⟨by decide, by decide, by decide⟩

/-! ## Claim C3 -/

/-- The AST of an `if` with two `elif` arms (as the parser nests them:
the second arm is the third child of the first `elif` node). -/
def c3Ast : Node :=
  .mk "program"
    [.mk "func_decl"
      [.mk "params" [] none,
       .mk "block"
         [.mk "if"
           [.mk "literal" [] (some "true"),
            .mk "block" [.mk "print" [.mk "literal" [] (some "1")] none] none,
            .mk "elif"
              [.mk "literal" [] (some "false"),
               .mk "block" [.mk "print" [.mk "literal" [] (some "22")] none] none,
               .mk "elif"
                 [.mk "literal" [] (some "true"),
                  .mk "block" [.mk "print" [.mk "literal" [] (some "33")] none] none]
                 none]
              none]
           none] none]
      (some "m")] none

/-- C3: lowering an `if` with N = 2 elif arms. The claim predicts 2+N = 4
labels and both arms lowered. The code allocates only 3 labels and drops
the second arm entirely: `p_elif_part` nests the second `elif` inside the
first one's third child, but `gen_if`'s loop walks only `children[2:]` of
the `if` node and never visits an `elif` node's own third child. The
generated code contains no trace of the second arm (no `PRINT 33`, no
jump on its condition), while the claim requires that arm's condition,
body and `next` label to be emitted. -/
theorem C3_elif_chain_dropped :
    parse "func m(){ if(true){ print(1); } elif(false){ print(22); } elif(true){ print(33); } }"
      = some c3Ast ∧
    (codeGen c3Ast).labelCounter = 3 ∧
    (codeGen c3Ast).code =
      [.label "FUNC_m",
       .instr "JPF" "true" "L1" "",
       .instr "PRINT" "1" "" "",
       .instr "JMP" "L2" "" "",
       .label "L1",
       .instr "JPF" "false" "L3" "",
       .instr "PRINT" "22" "" "",
       .instr "JMP" "L2" "" "",
       .label "L3",
       .label "L2",
       .instr "RET" "" "" ""] ∧
    CodeLine.instr "PRINT" "33" "" "" ∉ (codeGen c3Ast).code := by
  refine ⟨by decide, by decide, by decide, by decide⟩

/-! ## Claim C4 -/

/-- C4: `break` and `continue` statements generate nothing. The
`generate` dispatcher has no `gen_break`/`gen_continue` method, so it
falls back to `gen_children`, and `p_break_stmt`/`p_continue_stmt`
build leaf nodes with no children — the generator state (both sections
and both counters) is completely unchanged, so a loop body containing
the statement lowers exactly as if it were absent. -/
theorem C4_break_continue_noop :
    ∀ (leaf : Option String) (s : CGSt),
      genNode (.mk "break" [] leaf) s = s ∧
      genNode (.mk "continue" [] leaf) s = s ∧
      (∀ (pre post : List Node),
        genList (pre ++ .mk "break" [] leaf :: post) s = genList (pre ++ post) s) ∧
      (∀ (pre post : List Node),
        genList (pre ++ .mk "continue" [] leaf :: post) s = genList (pre ++ post) s) := by
  have hb : ∀ (leaf : Option String) (s : CGSt), genNode (.mk "break" [] leaf) s = s := by
    intro leaf s
    rfl
  have hc : ∀ (leaf : Option String) (s : CGSt), genNode (.mk "continue" [] leaf) s = s := by
    intro leaf s
    rfl
  intro leaf s
  refine ⟨hb leaf s, hc leaf s, ?_, ?_⟩
  · intro pre
    induction pre generalizing s with
    | nil => intro post; simp [genList, hb]
    | cons p ps ih => intro post; simp [genList, ih]
  · intro pre
    induction pre generalizing s with
    | nil => intro post; simp [genList, hc]
    | cons p ps ih => intro post; simp [genList, ih]

/-! ## Claim C8 -/

/-- C8 (counterexample): an array declaration `int a[5];` emits NO
data-section entry: `generate` looks up `gen_var_decl_array`, finds no
such method, and falls back to the generic child traversal, which visits
the `type` and `size` nodes and emits nothing. -/
theorem C8_array_decl_counterexample :
    parse "int a[5];"
      = some (.mk "program"
          [.mk "var_decl_array"
            [.mk "type" [] (some "int"), .mk "size" [] (some "5")] (some "a")] none) ∧
    (codeGen (.mk "program"
          [.mk "var_decl_array"
            [.mk "type" [] (some "int"), .mk "size" [] (some "5")] (some "a")] none)).data
      = [] := by
  refine ⟨by decide, by decide⟩

/-- C8 (amended): only SCALAR declarations emit a data-section entry —
exactly one per declaration, with marker `DW` when the declared type is
`int` and `DB` otherwise; array declarations emit none (and change the
generator state not at all). -/
theorem C8_data_section :
    (∀ (name ty : String) (s : CGSt),
      genNode (.mk "var_decl" [.mk "type" [] (some ty)] (some name)) s
        = { s with data := s.data ++ [(name, if ty = "int" then "DW" else "DB")] }) ∧
    (∀ (name ty sz : String) (s : CGSt),
      genNode (.mk "var_decl_array"
        [.mk "type" [] (some ty), .mk "size" [] (some sz)] (some name)) s = s) := by
  constructor
  · intro name ty s
    rfl
  · intro name ty sz s
    rfl

/-! ## Claim C5 -/

theorem matchChar_single {c : Char} (h1 : c ≠ '\'') (h2 : c ≠ '\\') :
    matchChar ['\'', c, '\''] = some (3, [c]) := by
  unfold matchChar
  split
  · simp_all
  · simp_all
  · simp_all

/-- Lexing a single-character char literal `'c'` yields one
`CharLiteral` token whose stored value is the bare character — the
quotes are stripped (`t.value = t.value[1:-1]`). -/
theorem tokenize_char_lit {c : Char} (h1 : c ≠ '\'') (h2 : c ≠ '\\') :
    tokenizeL ['\'', c, '\''] = [⟨.CHAR_LITERAL, ⟨[c]⟩, 1, 0⟩] := by
  show lexGoF 3 ['\'', c, '\''] 0 1 = _
  rw [lexGoF]
  have hstep : lexStep ['\'', c, '\''] 0 1
      = (some ⟨.CHAR_LITERAL, ⟨[c]⟩, 1, 0⟩, 3, 1) := by
    unfold lexStep
    simp only [List.drop]
    rw [matchChar_single h1 h2]
    simp [matchCommentMulti, matchCommentSingle, matchFloat, matchInt,
      isDigitCh, List.takeWhile]
  rw [hstep]
  simp [lexGoF]

/-- Type inference on a literal node holding a bare one-character value
(as the lexer stores char literals): the single-quote branch of
`get_expr_type` cannot fire, so the result is decided by the dot test. -/
theorem getExprType_single_char {c : Char} (h1 : c ≠ '\'') (st : SemSt) :
    (getExprType (.mk "literal" [] (some ⟨[c]⟩)) st).1
      = if c = '"' then "string" else if c = '.' then "float" else "int" := by
  have htrue : (⟨[c]⟩ : String) ≠ "true" := by
    intro h
    have := congrArg (fun v => v.data.length) h
    simp at this
  have hfalse : (⟨[c]⟩ : String) ≠ "false" := by
    intro h
    have := congrArg (fun v => v.data.length) h
    simp at this
  have hk : nKind "literal" = NKind.literal := by decide
  simp only [getExprType, hk]
  unfold literalType
  simp [htrue, hfalse, strHeadIs, strHasDot, h1]
  by_cases hq : c = '"' <;> by_cases hd : c = '.' <;>
    simp [hq, hd, eq_comm]

/-- C5 (counterexample): the char literal `'a'` does NOT infer type
`char`. The lexer strips the quotes (the token value is `a`), so the
analyzer's `val.startswith("'")` test fails and the literal falls
through to the integer branch: the inferred type is `int`. -/
theorem C5_char_literal_counterexample :
    tokenize "'a'" = [⟨.CHAR_LITERAL, "a", 1, 0⟩] ∧
    (∀ st : SemSt, (getExprType (.mk "literal" [] (some "a")) st).1 = "int") ∧
    "int" ≠ "char" := by
  refine ⟨by decide, ?_, by decide⟩
  intro st
  rfl

/-- C5 (amended): literal type inference follows the STORED text, on
which the quote branches are dead because the lexer strips quotes:
`true`/`false` infer `bool`; decimal and hex integer text infers `int`;
text containing a dot infers `float`, but exponent-only float text such
as `1e5` infers `int` (the code tests only for `'.'`); a char literal
`'c'` infers `int` — except `'.'`, which infers `float`, and `'"'`,
whose stored value starts with a double quote and so infers `string`;
a string literal likewise infers by the dot test (e.g. `"hi"` infers
`int` and `"3.14"` infers `float`), never `string`. -/
theorem C5_literal_inference :
    (∀ (c : Char), c ≠ '\'' → c ≠ '\\' →
      tokenizeL ['\'', c, '\''] = [⟨.CHAR_LITERAL, ⟨[c]⟩, 1, 0⟩] ∧
      ∀ st : SemSt,
        (getExprType (.mk "literal" [] (some ⟨[c]⟩)) st).1
          = if c = '"' then "string" else if c = '.' then "float" else "int") ∧
    (∀ st : SemSt,
      (getExprType (.mk "literal" [] (some "true")) st).1 = "bool" ∧
      (getExprType (.mk "literal" [] (some "false")) st).1 = "bool" ∧
      (getExprType (.mk "literal" [] (some "123")) st).1 = "int" ∧
      (getExprType (.mk "literal" [] (some "0x1F")) st).1 = "int" ∧
      (getExprType (.mk "literal" [] (some "3.14")) st).1 = "float" ∧
      (getExprType (.mk "literal" [] (some "1e5")) st).1 = "int") ∧
    tokenize "\"hi\"" = [⟨.STRING_LITERAL, "hi", 1, 0⟩] ∧
    (∀ st : SemSt, (getExprType (.mk "literal" [] (some "hi")) st).1 = "int") ∧
    (∀ st : SemSt, (getExprType (.mk "literal" [] (some "3.14")) st).1 = "float") := by
  refine ⟨?_, ?_, by decide, ?_, ?_⟩
  · intro c h1 h2
    exact ⟨tokenize_char_lit h1 h2, fun st => getExprType_single_char h1 st⟩
  · intro st
    refine ⟨rfl, rfl, rfl, rfl, rfl, rfl⟩
  · intro st
    rfl
  · intro st
    rfl

/-- Witness for the hypotheses of `C5_literal_inference`: instantiated at
the concrete character `a`. -/
theorem C5_literal_inference_witness :
    tokenizeL ['\'', 'a', '\''] = [⟨.CHAR_LITERAL, ⟨['a']⟩, 1, 0⟩] ∧
    (getExprType (.mk "literal" [] (some ⟨['a']⟩)) ⟨[[]], [], none⟩).1 = "int" := by
  have h := (C5_literal_inference.1 'a' (by decide) (by decide))
  refine ⟨h.1, ?_⟩
  have h2 := h.2 ⟨[[]], [], none⟩
  simpa using h2

/-! ## Claim C10 -/

/-- Each loop iteration emits at most one token and strictly advances,
so the token count is bounded by the remaining input length. -/
theorem lexGoF_length_le :
    ∀ (fuel : Nat) (s : List Char) (pos line : Nat),
      (lexGoF fuel s pos line).length ≤ s.length - pos := by
  intro fuel
  induction fuel with
  | zero => intro s pos line; simp [lexGoF]
  | succ f ih =>
    intro s pos line
    unfold lexGoF
    by_cases h : pos < s.length
    · simp only [if_pos h]
      have hadv := lexStep_pos_lt s pos line h
      cases hstep : lexStep s pos line with
      | mk t? p =>
        obtain ⟨pos', line'⟩ := p
        rw [hstep] at hadv
        simp only at hadv
        cases t? with
        | some t =>
          dsimp only
          simp only [List.length_cons]
          have := ih s pos' line'
          omega
        | none =>
          dsimp only
          have := ih s pos' line'
          omega
    · simp [h]

/-- C10: tokenization terminates on every input with a finite token
sequence. The loop is fuel-indexed, and (1) any fuel of at least
`s.length - pos` iterations yields the same, stable result — every
iteration, including the `t_error` recovery, strictly advances the
position, so the loop needs at most `s.length` steps; (2) the number of
tokens produced is bounded by the input length; (3) the single-step
advance is strict also on the error path (the error skip length
`line_end_pos - t.lexpos` is at least one). -/
theorem C10_lexer_terminates :
    (∀ (fuel fuel' : Nat) (s : List Char) (pos line : Nat),
      s.length - pos ≤ fuel → s.length - pos ≤ fuel' →
      lexGoF fuel s pos line = lexGoF fuel' s pos line) ∧
    (∀ s : List Char, (tokenizeL s).length ≤ s.length) ∧
    (∀ (s : List Char) (pos line : Nat), pos < s.length →
      pos < (lexStep s pos line).2.1) := by
  refine ⟨lexGoF_fuel_adequate, ?_, lexStep_pos_lt⟩
  intro s
  have := lexGoF_length_le s.length s 0 1
  simpa [tokenizeL] using this

/-- Witness for `C10_lexer_terminates` at a concrete malformed input. -/
theorem C10_lexer_terminates_witness :
    lexGoF 3 ['@', '%'] 0 1 = lexGoF 7 ['@', '%'] 0 1 ∧
    (tokenizeL ['@', '%']).length ≤ 2 ∧
    0 < (lexStep ['@', '%'] 0 1).2.1 :=
  ⟨C10_lexer_terminates.1 3 7 ['@', '%'] 0 1 (by decide) (by decide),
   C10_lexer_terminates.2.1 ['@', '%'],
   C10_lexer_terminates.2.2 ['@', '%'] 0 1 (by decide)⟩

/-! ## Claim C6 -/

/-- The physical line index of a position: the number of newline
characters strictly before it. -/
def physLine (s : List Char) (p : Nat) : Nat := (s.take p).count '\n'

theorem physLine_mono {s : List Char} {p q : Nat} (h : p ≤ q) :
    physLine s p ≤ physLine s q := by
  unfold physLine
  have h1 : s.take p = (s.take q).take p := by
    rw [List.take_take, Nat.min_eq_left h]
  rw [h1]
  exact List.Sublist.count_le (List.take_sublist p (s.take q)) '\n'

theorem physLine_succ_of_newline {s : List Char} {p : Nat}
    (h : s.get? p = some '\n') : physLine s (p + 1) = physLine s p + 1 := by
  unfold physLine
  rw [List.get?_eq_getElem?] at h
  rw [List.take_succ, h]
  simp

/-- The character right after the run matched by `takeWhile` fails the
predicate. -/
theorem get_after_takeWhile {p : Char → Bool} :
    ∀ (l : List Char) {c : Char}, l.get? (l.takeWhile p).length = some c →
      p c = false := by
  intro l
  induction l with
  | nil => intro c h; simp at h
  | cons x xs ih =>
    intro c h
    by_cases hx : p x
    · rw [List.takeWhile_cons_of_pos hx] at h
      simp only [List.length_cons, List.get?_cons_succ] at h
      exact ih h
    · rw [List.takeWhile_cons_of_neg hx] at h
      simp only [List.length_nil, List.get?_cons_zero, Option.some.injEq] at h
      rw [← h]
      exact Bool.of_not_eq_true hx

/-- The position at the end of the offending line holds a newline (when
it is not the end of the input). -/
theorem lineEndOf_char {s : List Char} {pos : Nat}
    (h : lineEndOf s pos < s.length) : s.get? (lineEndOf s pos) = some '\n' := by
  unfold lineEndOf at h ⊢
  set k := ((s.drop pos).takeWhile (· ≠ '\n')).length with hk
  have hlt : k < (s.drop pos).length := by
    rw [List.length_drop] at *
    omega
  have hget : s.get? (pos + k) = (s.drop pos).get? k := by
    rw [List.get?_drop]
  rw [hget]
  cases hc : (s.drop pos).get? k with
  | none =>
    exfalso
    rw [List.get?_eq_none] at hc
    omega
  | some c =>
    have := get_after_takeWhile (p := (· ≠ '\n')) (s.drop pos) hc
    simp at this
    rw [this]

theorem reservedKind_ne_invalid (v : String) : reservedKind v ≠ .INVALID := by
  unfold reservedKind
  cases hf : reservedList.find? (fun p => p.1 = v) with
  | none => simp
  | some p =>
    have hmem : p ∈ reservedList := List.mem_of_find?_eq_some hf
    have hall : ∀ q ∈ reservedList, q.2 ≠ TokKind.INVALID := by decide
    simpa using hall p hmem

theorem matchOp2_kind {l : List Char} {k : TokKind} {a b : Char}
    (h : matchOp2 l = some (k, a, b)) : k ≠ .INVALID := by
  unfold matchOp2 at h
  split at h
  · repeat' split at h
    all_goals first
      | exact Option.noConfusion h
      | (simp only [Option.some.injEq, Prod.mk.injEq] at h; obtain ⟨h1, h2⟩ := h; rw [← h1]; decide)
  · simp at h

theorem matchOp1_kind {c : Char} {k : TokKind}
    (h : matchOp1 c = some k) : k ≠ .INVALID := by
  unfold matchOp1 at h
  obtain ⟨p, hp, heq⟩ := Option.map_eq_some'.mp h
  have hmem : p ∈ op1List := List.mem_of_find?_eq_some hp
  have hall : ∀ q ∈ op1List, q.2 ≠ TokKind.INVALID := by decide
  rw [← heq]
  exact hall p hmem

/-- What `lexStep` guarantees about an emitted token: it starts at the
current position inside the input, and if it is the `Invalid` error
token then its text is the whole current line, the lexer resumes at the
end of that line, and the offending character is not a newline. -/
theorem lexStep_tok_facts (s : List Char) (pos line : Nat) {t : Tok}
    {pos' line' : Nat} (h : lexStep s pos line = (some t, pos', line')) :
    t.lexpos = pos ∧ pos < s.length ∧
    (t.kind = .INVALID →
      t.value = ⟨lineSliceOf s pos⟩ ∧ pos' = lineEndOf s pos ∧
      (∃ c r, s.drop pos = c :: r ∧ c ≠ '\n')) := by
  unfold lexStep at h
  cases hdrop : s.drop pos with
  | nil =>
    rw [hdrop] at h
    simp at h
  | cons c r =>
    rw [hdrop] at h
    have hlen : pos < s.length := by
      by_contra hge
      have : s.drop pos = [] := List.drop_eq_nil_of_le (by omega)
      rw [this] at hdrop
      exact absurd hdrop (by simp)
    simp only at h
    by_cases hig : c = ' ' ∨ c = '\t'
    · simp [hig] at h
    · simp only [hig, if_false] at h
      cases hcm : matchCommentMulti (c :: r) with
      | some p => obtain ⟨len, nl⟩ := p; rw [hcm] at h; simp at h
      | none =>
      rw [hcm] at h
      cases hcs : matchCommentSingle (c :: r) with
      | some len => rw [hcs] at h; simp at h
      | none =>
      rw [hcs] at h
      cases hf : matchFloat (c :: r) with
      | some len =>
        rw [hf] at h
        simp only [Prod.mk.injEq, Option.some.injEq] at h
        obtain ⟨ht, _⟩ := h
        rw [← ht]
        exact ⟨rfl, hlen, by intro hk; simp at hk⟩
      | none =>
      rw [hf] at h
      cases hi : matchInt (c :: r) with
      | some len =>
        rw [hi] at h
        simp only [Prod.mk.injEq, Option.some.injEq] at h
        obtain ⟨ht, _⟩ := h
        rw [← ht]
        exact ⟨rfl, hlen, by intro hk; simp at hk⟩
      | none =>
      rw [hi] at h
      cases hch : matchChar (c :: r) with
      | some p =>
        obtain ⟨len, v⟩ := p
        rw [hch] at h
        simp only [Prod.mk.injEq, Option.some.injEq] at h
        obtain ⟨ht, _⟩ := h
        rw [← ht]
        exact ⟨rfl, hlen, by intro hk; simp at hk⟩
      | none =>
      rw [hch] at h
      cases hst : matchString (c :: r) with
      | some p =>
        obtain ⟨len, v⟩ := p
        rw [hst] at h
        simp only [Prod.mk.injEq, Option.some.injEq] at h
        obtain ⟨ht, _⟩ := h
        rw [← ht]
        exact ⟨rfl, hlen, by intro hk; simp at hk⟩
      | none =>
      rw [hst] at h
      cases hid : matchId (c :: r) with
      | some len =>
        rw [hid] at h
        simp only [Prod.mk.injEq, Option.some.injEq] at h
        obtain ⟨ht, _⟩ := h
        rw [← ht]
        refine ⟨rfl, hlen, ?_⟩
        intro hk
        exact absurd hk (reservedKind_ne_invalid _)
      | none =>
      rw [hid] at h
      by_cases hnl : c = '\n'
      · simp only [hnl, if_pos rfl] at h
        simp at h
      · simp only [hnl, if_false] at h
        cases hop2 : matchOp2 (c :: r) with
        | some p =>
          obtain ⟨k, a, b⟩ := p
          rw [hop2] at h
          simp only [Prod.mk.injEq, Option.some.injEq] at h
          obtain ⟨ht, _⟩ := h
          rw [← ht]
          refine ⟨rfl, hlen, ?_⟩
          intro hk
          exact absurd hk (matchOp2_kind hop2)
        | none =>
        rw [hop2] at h
        cases hop1 : matchOp1 c with
        | some k =>
          rw [hop1] at h
          simp only [Prod.mk.injEq, Option.some.injEq] at h
          obtain ⟨ht, _⟩ := h
          rw [← ht]
          refine ⟨rfl, hlen, ?_⟩
          intro hk
          exact absurd hk (matchOp1_kind hop1)
        | none =>
        rw [hop1] at h
        -- the error branch
        simp only [Prod.mk.injEq, Option.some.injEq] at h
        obtain ⟨ht, hp, _⟩ := h
        rw [← ht]
        exact ⟨rfl, hlen, fun _ => ⟨rfl, hp.symm, c, r, rfl, hnl⟩⟩

/-- Position and error-shape facts for every token in the lexer output. -/
theorem lexGoF_tok_facts :
    ∀ (fuel : Nat) (s : List Char) (pos line : Nat),
      ∀ t ∈ lexGoF fuel s pos line,
        pos ≤ t.lexpos ∧ t.lexpos < s.length ∧
        (t.kind = .INVALID →
          t.value = ⟨lineSliceOf s t.lexpos⟩ ∧
          (∃ c r, s.drop t.lexpos = c :: r ∧ c ≠ '\n')) := by
  intro fuel
  induction fuel with
  | zero => intro s pos line t ht; simp [lexGoF] at ht
  | succ f ih =>
    intro s pos line t ht
    unfold lexGoF at ht
    by_cases h : pos < s.length
    · simp only [if_pos h] at ht
      have hadv := lexStep_pos_lt s pos line h
      cases hstep : lexStep s pos line with
      | mk t? p =>
        obtain ⟨pos', line'⟩ := p
        rw [hstep] at ht hadv
        simp only at hadv
        cases t? with
        | some t0 =>
          simp only at ht
          cases ht with
          | head =>
            have hfacts := lexStep_tok_facts s pos line hstep
            obtain ⟨hlp, hlen, hinv⟩ := hfacts
            refine ⟨by omega, by rw [hlp]; exact hlen, ?_⟩
            intro hk
            rw [hlp]
            exact ⟨(hinv hk).1, (hinv hk).2.2⟩
          | tail _ hmem =>
            have := ih s pos' line' t hmem
            exact ⟨by omega, this.2.1, this.2.2⟩
        | none =>
          simp only at ht
          have := ih s pos' line' t ht
          exact ⟨by omega, this.2.1, this.2.2⟩
    · simp [h] at ht

/-- Invalid tokens lie on strictly increasing physical lines: after an
`Invalid` token the lexer resumes at the line's newline (or end of
input), so any later `Invalid` token's offending character is on a
strictly later line. -/
theorem lexGoF_invalid_pairwise :
    ∀ (fuel : Nat) (s : List Char) (pos line : Nat),
      ((lexGoF fuel s pos line).filter (fun t => t.kind == .INVALID)).Pairwise
        (fun a b => physLine s a.lexpos < physLine s b.lexpos) := by
  intro fuel
  induction fuel with
  | zero => intro s pos line; simp [lexGoF]
  | succ f ih =>
    intro s pos line
    unfold lexGoF
    by_cases h : pos < s.length
    · simp only [if_pos h]
      cases hstep : lexStep s pos line with
      | mk t? p =>
        obtain ⟨pos', line'⟩ := p
        cases t? with
        | none => exact ih s pos' line'
        | some t =>
          simp only
          by_cases hk : t.kind = .INVALID
          · rw [List.filter_cons_of_pos (by simp [hk])]
            refine List.Pairwise.cons ?_ (ih s pos' line')
            intro u hu
            have humem : u ∈ lexGoF f s pos' line' := List.mem_of_mem_filter hu
            have hukind : u.kind = .INVALID := by
              have := List.of_mem_filter hu
              simpa using this
            have hufacts := lexGoF_tok_facts f s pos' line' u humem
            obtain ⟨hup, hulen, huinv⟩ := hufacts
            obtain ⟨_, hU⟩ := huinv hukind
            obtain ⟨c, r, hudrop, hune⟩ := hU
            have htfacts := lexStep_tok_facts s pos line hstep
            obtain ⟨htp, htlen, htinv⟩ := htfacts
            obtain ⟨_, hpos', _⟩ := htinv hk
            -- the line end sits strictly between the two failure points
            have hle : lineEndOf s pos < s.length := by omega
            have hnl := lineEndOf_char hle
            have hne : u.lexpos ≠ lineEndOf s pos := by
              intro heq
              have h0 : (s.drop u.lexpos).get? 0 = some c := by rw [hudrop]; rfl
              rw [List.get?_drop] at h0
              have hget : s.get? u.lexpos = some c := by simpa using h0
              rw [heq, hnl] at hget
              have : c = '\n' := by simpa using hget.symm
              exact hune this
            have hgt : lineEndOf s pos + 1 ≤ u.lexpos := by omega
            have h1 : physLine s (lineEndOf s pos + 1)
                = physLine s (lineEndOf s pos) + 1 := physLine_succ_of_newline hnl
            have h2 : physLine s pos ≤ physLine s (lineEndOf s pos) := by
              apply physLine_mono
              unfold lineEndOf
              omega
            have h3 : physLine s (lineEndOf s pos + 1) ≤ physLine s u.lexpos :=
              physLine_mono hgt
            rw [htp]
            omega
          · rw [List.filter_cons_of_neg (by simp [hk])]
            exact ih s pos' line'
    · simp [h]

/-- C6 (counterexample): on the input `a @` the offending character is
`@` at position 2, so the claimed captured text (failure point to end of
input) would be `@`; the emitted `Invalid` token instead carries the
whole line `a @`, captured from the START of the line
(`rfind('\n', 0, lexpos) + 1`). -/
theorem C6_invalid_span_counterexample :
    tokenize "a @" = [⟨.ID, "a", 1, 0⟩, ⟨.INVALID, "a @", 1, 2⟩] ∧
    ("a @" : String) ≠ "@" := by
  refine ⟨by decide, by decide⟩

/-- C6 (amended): every `Invalid` token's text is exactly the substring
from the START of the offending character's line (not from the failure
point) to the next newline or end of input; at most one `Invalid` token
is produced per line — the physical lines of successive `Invalid`
tokens are strictly increasing — and tokenization resumes after the
offending line. -/
theorem C6_invalid_line_capture :
    (∀ (s : List Char), ∀ t ∈ tokenizeL s, t.kind = .INVALID →
      t.value = ⟨lineSliceOf s t.lexpos⟩) ∧
    (∀ s : List Char,
      ((tokenizeL s).filter (fun t => t.kind == .INVALID)).Pairwise
        (fun a b => physLine s a.lexpos < physLine s b.lexpos)) := by
  constructor
  · intro s t ht hk
    exact ((lexGoF_tok_facts s.length s 0 1 t ht).2.2 hk).1
  · intro s
    exact lexGoF_invalid_pairwise s.length s 0 1

/-- Witness for `C6_invalid_line_capture` at the concrete input
`a @\n$ x` and its first `Invalid` token. -/
theorem C6_invalid_line_capture_witness :
    (⟨.INVALID, "a @", 1, 2⟩ : Tok) ∈ tokenizeL ("a @\n$ x".data) ∧
    (⟨.INVALID, "a @", 1, 2⟩ : Tok).value
      = ⟨lineSliceOf ("a @\n$ x".data) 2⟩ := by
  refine ⟨by decide, ?_⟩
  exact C6_invalid_line_capture.1 ("a @\n$ x".data) ⟨.INVALID, "a @", 1, 2⟩
    (by decide) (by decide)

/-! ## Claim C9

Freshness of temporaries and labels, and distinctness of emitted label
lines, for a full generator run on a parser-shaped AST that passed
semantic analysis. -/

/-- The label lines of a code section, in order. -/
def labelLines (code : List CodeLine) : List String :=
  code.filterMap (fun l => match l with | .label s => some s | .instr _ _ _ _ => none)

/-- The name `new_label` builds for counter value `i`. -/
def lNm (i : Nat) : String := "L" ++ natStr i

/-- The label `gen_func_decl` emits for function `f`. -/
def fNm (f : String) : String := "FUNC_" ++ f

theorem string_data_inj {a b : String} (h : a.data = b.data) : a = b := by
  cases a
  cases b
  simp_all

theorem string_append_data (a b : String) : (a ++ b).data = a.data ++ b.data := rfl

theorem lNm_inj {i j : Nat} (h : lNm i = lNm j) : i = j := by
  unfold lNm at h
  have hd := congrArg String.data h
  rw [string_append_data, string_append_data] at hd
  simp only [List.cons_append, List.nil_append] at hd
  apply natStr_inj
  apply string_data_inj
  simpa using hd

theorem fNm_inj {f g : String} (h : fNm f = fNm g) : f = g := by
  unfold fNm at h
  have hd := congrArg String.data h
  rw [string_append_data, string_append_data] at hd
  apply string_data_inj
  exact List.append_cancel_left hd

theorem lNm_ne_fNm (i : Nat) (f : String) : lNm i ≠ fNm f := by
  intro h
  unfold lNm fNm at h
  have hd := congrArg String.data h
  rw [string_append_data, string_append_data] at hd
  simp at hd

theorem labelLines_append (c1 c2 : List CodeLine) :
    labelLines (c1 ++ c2) = labelLines c1 ++ labelLines c2 := by
  unfold labelLines
  rw [List.filterMap_append]

theorem labelLines_instr (op a1 a2 res : String) :
    labelLines [.instr op a1 a2 res] = [] := rfl

theorem labelLines_label (l : String) : labelLines [.label l] = [l] := rfl

theorem labelLines_nil : labelLines [] = [] := rfl

theorem labelLines_cons_label (l : String) (Δ : List CodeLine) :
    labelLines (.label l :: Δ) = l :: labelLines Δ := rfl

theorem labelLines_cons_instr (op a1 a2 res : String) (Δ : List CodeLine) :
    labelLines (.instr op a1 a2 res :: Δ) = labelLines Δ := rfl

mutual

/-- The functions declared in a subtree, in traversal order (leaf names
of `func_decl` nodes). -/
def funcLeaves : Node → List String
  | .mk kind cs leaf =>
    (if nKind kind = .func_decl then [leaf.getD ""] else []) ++ funcLeavesList cs

/-- `funcLeaves` over a list of nodes. -/
def funcLeavesList : List Node → List String
  | [] => []
  | n :: rest => funcLeaves n ++ funcLeavesList rest

end

/-- Specification of one generator call spanning `s → s'`: the code
section only grows; every label line added is either a fresh `L<i>`
allocated within the span or a `FUNC_<f>` for a declared function `f`;
no `L<i>` line is added twice; `FUNC_<f>` lines are added at most as
often as `f` is declared; and both counters are monotone. -/
def GenSpec (funcs : List String) (s s' : CGSt) : Prop :=
  s.tempCounter ≤ s'.tempCounter ∧
  s.labelCounter ≤ s'.labelCounter ∧
  ∃ Δ : List CodeLine, s'.code = s.code ++ Δ ∧
    (∀ l ∈ labelLines Δ,
      (∃ i, l = lNm i ∧ s.labelCounter < i ∧ i ≤ s'.labelCounter) ∨
      (∃ f, f ∈ funcs ∧ l = fNm f)) ∧
    (∀ i, (labelLines Δ).count (lNm i) ≤ 1) ∧
    (∀ f, (labelLines Δ).count (fNm f) ≤ funcs.count f)

theorem GenSpec.reflGen (funcs : List String) (s : CGSt) : GenSpec funcs s s := by
  refine ⟨le_refl _, le_refl _, [], by simp, by simp [labelLines], ?_, ?_⟩ <;>
    simp [labelLines]

/-- A membership bound transfers to this span's counts. -/
theorem GenSpec.weakenGen {f1 f2 : List String} {s s' : CGSt}
    (h : GenSpec f1 s s') (hc : ∀ f, f1.count f ≤ f2.count f) :
    GenSpec f2 s s' := by
  obtain ⟨ht, hl, Δ, hcode, hmem, hcl, hcf⟩ := h
  refine ⟨ht, hl, Δ, hcode, ?_, hcl, ?_⟩
  · intro l hm
    rcases hmem l hm with hL | ⟨f, hf, hfe⟩
    · exact Or.inl hL
    · refine Or.inr ⟨f, ?_, hfe⟩
      have h1 : 0 < f1.count f := List.count_pos_iff.mpr hf
      have := hc f
      exact List.count_pos_iff.mp (by omega)
  · intro f
    exact le_trans (hcf f) (hc f)

/-- Sequential composition: the two spans' fresh-label ranges are
disjoint, so per-label counts stay at most one. -/
theorem GenSpec.compGen {f1 f2 : List String} {s s1 s2 : CGSt}
    (h1 : GenSpec f1 s s1) (h2 : GenSpec f2 s1 s2) :
    GenSpec (f1 ++ f2) s s2 := by
  obtain ⟨ht1, hl1, Δ1, hc1, hm1, hcl1, hcf1⟩ := h1
  obtain ⟨ht2, hl2, Δ2, hc2, hm2, hcl2, hcf2⟩ := h2
  refine ⟨le_trans ht1 ht2, le_trans hl1 hl2, Δ1 ++ Δ2, ?_, ?_, ?_, ?_⟩
  · rw [hc2, hc1, List.append_assoc]
  · intro l hm
    rw [labelLines_append, List.mem_append] at hm
    rcases hm with hm | hm
    · rcases hm1 l hm with ⟨i, he, hlo, hhi⟩ | ⟨f, hf, hfe⟩
      · exact Or.inl ⟨i, he, hlo, le_trans hhi hl2⟩
      · exact Or.inr ⟨f, List.mem_append_left _ hf, hfe⟩
    · rcases hm2 l hm with ⟨i, he, hlo, hhi⟩ | ⟨f, hf, hfe⟩
      · exact Or.inl ⟨i, he, by omega, hhi⟩
      · exact Or.inr ⟨f, List.mem_append_right _ hf, hfe⟩
  · intro i
    rw [labelLines_append, List.count_append]
    have hone : (labelLines Δ1).count (lNm i) ≤ 1 := hcl1 i
    have htwo : (labelLines Δ2).count (lNm i) ≤ 1 := hcl2 i
    by_cases hin1 : 1 ≤ (labelLines Δ1).count (lNm i)
    · -- the label was emitted in the first span, so its index is at most
      -- s1's counter and it cannot also appear in the second span
      have hm : lNm i ∈ labelLines Δ1 := List.count_pos_iff.mp (by omega)
      rcases hm1 _ hm with ⟨i', he, hlo, hhi⟩ | ⟨f, _, hfe⟩
      · have : i = i' := lNm_inj he
        subst this
        by_cases hin2 : 1 ≤ (labelLines Δ2).count (lNm i)
        · have hm2' : lNm i ∈ labelLines Δ2 := List.count_pos_iff.mp (by omega)
          rcases hm2 _ hm2' with ⟨i'', he2, hlo2, _⟩ | ⟨f, _, hfe⟩
          · have : i = i'' := lNm_inj he2
            omega
          · exact absurd hfe (lNm_ne_fNm _ _)
        · omega
      · exact absurd hfe (lNm_ne_fNm _ _)
    · omega
  · intro f
    rw [labelLines_append, List.count_append, List.count_append]
    have := hcf1 f
    have := hcf2 f
    omega

/-- Steps that add no label line: emitting an instruction, allocating a
temporary or a label, adding a data entry. -/
theorem GenSpec.emitGen (funcs : List String) (s : CGSt) (op a1 a2 res : String) :
    GenSpec funcs s (s.emit op a1 a2 res) := by
  refine ⟨le_refl _, le_refl _, [.instr op a1 a2 res], rfl, ?_, ?_, ?_⟩ <;>
    simp [labelLines_instr]

theorem GenSpec.newTemp (funcs : List String) (s : CGSt) :
    GenSpec funcs s (Aqua.newTemp s).2 := by
  refine ⟨by simp [Aqua.newTemp], by simp [Aqua.newTemp], [], by simp [Aqua.newTemp], ?_, ?_, ?_⟩ <;>
    simp [labelLines]

theorem GenSpec.newLabel (funcs : List String) (s : CGSt) :
    GenSpec funcs s (Aqua.newLabel s).2 := by
  refine ⟨by simp [Aqua.newLabel], by simp [Aqua.newLabel], [], by simp [Aqua.newLabel], ?_, ?_, ?_⟩ <;>
    simp [labelLines]

theorem GenSpec.addVarDecl (funcs : List String) (s : CGSt) (name ty : String) :
    GenSpec funcs s (s.addVarDecl name ty) := by
  refine ⟨le_refl _, le_refl _, [], by simp [CGSt.addVarDecl], ?_, ?_, ?_⟩ <;>
    simp [labelLines]

/-- The label-line conditions of `GenSpec`, as a predicate on a code
fragment together with the label-counter bounds of the span that
produced it. -/
def SpanOK (funcs : List String) (lo hi : Nat) (Δ : List CodeLine) : Prop :=
  (∀ l ∈ labelLines Δ,
    (∃ i, l = lNm i ∧ lo < i ∧ i ≤ hi) ∨ (∃ f, f ∈ funcs ∧ l = fNm f)) ∧
  (∀ i, (labelLines Δ).count (lNm i) ≤ 1) ∧
  (∀ f, (labelLines Δ).count (fNm f) ≤ funcs.count f)

theorem GenSpec.ofSpan {funcs : List String} {s s' : CGSt} {Δ : List CodeLine}
    (ht : s.tempCounter ≤ s'.tempCounter) (hl : s.labelCounter ≤ s'.labelCounter)
    (hc : s'.code = s.code ++ Δ)
    (hs : SpanOK funcs s.labelCounter s'.labelCounter Δ) :
    GenSpec funcs s s' :=
  ⟨ht, hl, Δ, hc, hs.1, hs.2.1, hs.2.2⟩

theorem GenSpec.span {funcs : List String} {s s' : CGSt} (h : GenSpec funcs s s') :
    ∃ Δ, s'.code = s.code ++ Δ ∧ SpanOK funcs s.labelCounter s'.labelCounter Δ := by
  obtain ⟨ht, hl, Δ, hc, hm, hcl, hcf⟩ := h
  exact ⟨Δ, hc, hm, hcl, hcf⟩

theorem SpanOK.nolabel {funcs : List String} {lo hi : Nat} {Δ : List CodeLine}
    (h : labelLines Δ = []) : SpanOK funcs lo hi Δ := by
  refine ⟨?_, ?_, ?_⟩ <;> simp [h]

theorem SpanOK.mono {funcs : List String} {lo hi lo' hi' : Nat} {Δ : List CodeLine}
    (h : SpanOK funcs lo hi Δ) (h1 : lo' ≤ lo) (h2 : hi ≤ hi') :
    SpanOK funcs lo' hi' Δ := by
  obtain ⟨hm, hcl, hcf⟩ := h
  refine ⟨?_, hcl, hcf⟩
  intro l hl
  rcases hm l hl with ⟨i, he, hlo, hhi⟩ | hf
  · exact Or.inl ⟨i, he, by omega, by omega⟩
  · exact Or.inr hf

theorem SpanOK.weakenSpan {f1 f2 : List String} {lo hi : Nat} {Δ : List CodeLine}
    (h : SpanOK f1 lo hi Δ) (hc : ∀ f, f1.count f ≤ f2.count f) :
    SpanOK f2 lo hi Δ := by
  obtain ⟨hm, hcl, hcf⟩ := h
  refine ⟨?_, hcl, ?_⟩
  · intro l hl
    rcases hm l hl with hL | ⟨f, hf, hfe⟩
    · exact Or.inl hL
    · refine Or.inr ⟨f, ?_, hfe⟩
      have h1 : 0 < f1.count f := List.count_pos_iff.mpr hf
      have := hc f
      exact List.count_pos_iff.mp (by omega)
  · intro f
    exact le_trans (hcf f) (hc f)

/-- Concatenating two fragments whose fresh-label ranges are adjacent:
the ranges are disjoint, so per-label counts stay at most one. -/
theorem SpanOK.append {f1 f2 : List String} {lo mid hi : Nat} {Δ1 Δ2 : List CodeLine}
    (h1 : SpanOK f1 lo mid Δ1) (h2 : SpanOK f2 mid hi Δ2)
    (hlm : lo ≤ mid) (hmh : mid ≤ hi) :
    SpanOK (f1 ++ f2) lo hi (Δ1 ++ Δ2) := by
  obtain ⟨hm1, hcl1, hcf1⟩ := h1
  obtain ⟨hm2, hcl2, hcf2⟩ := h2
  refine ⟨?_, ?_, ?_⟩
  · intro l hm
    rw [labelLines_append, List.mem_append] at hm
    rcases hm with hm | hm
    · rcases hm1 l hm with ⟨i, he, hlo, hhi⟩ | ⟨f, hf, hfe⟩
      · exact Or.inl ⟨i, he, hlo, le_trans hhi hmh⟩
      · exact Or.inr ⟨f, List.mem_append_left _ hf, hfe⟩
    · rcases hm2 l hm with ⟨i, he, hlo, hhi⟩ | ⟨f, hf, hfe⟩
      · exact Or.inl ⟨i, he, by omega, hhi⟩
      · exact Or.inr ⟨f, List.mem_append_right _ hf, hfe⟩
  · intro i
    rw [labelLines_append, List.count_append]
    have hone : (labelLines Δ1).count (lNm i) ≤ 1 := hcl1 i
    have htwo : (labelLines Δ2).count (lNm i) ≤ 1 := hcl2 i
    by_cases hin1 : 1 ≤ (labelLines Δ1).count (lNm i)
    · have hm : lNm i ∈ labelLines Δ1 := List.count_pos_iff.mp (by omega)
      rcases hm1 _ hm with ⟨i', he, hlo, hhi⟩ | ⟨f, _, hfe⟩
      · have : i = i' := lNm_inj he
        subst this
        by_cases hin2 : 1 ≤ (labelLines Δ2).count (lNm i)
        · have hm2' : lNm i ∈ labelLines Δ2 := List.count_pos_iff.mp (by omega)
          rcases hm2 _ hm2' with ⟨i'', he2, hlo2, _⟩ | ⟨f, _, hfe⟩
          · have : i = i'' := lNm_inj he2
            omega
          · exact absurd hfe (lNm_ne_fNm _ _)
        · omega
      · exact absurd hfe (lNm_ne_fNm _ _)
    · omega
  · intro f
    rw [labelLines_append, List.count_append, List.count_append]
    have := hcf1 f
    have := hcf2 f
    omega

/-- `SpanOK` only inspects the label lines of the fragment. -/
theorem SpanOK.congr {funcs : List String} {lo hi : Nat} {Δ Δ' : List CodeLine}
    (h : SpanOK funcs lo hi Δ) (he : labelLines Δ' = labelLines Δ) :
    SpanOK funcs lo hi Δ' := by
  obtain ⟨hm, hcl, hcf⟩ := h
  refine ⟨?_, ?_, ?_⟩
  · intro l hl
    rw [he] at hl
    exact hm l hl
  · intro i
    rw [he]
    exact hcl i
  · intro f
    rw [he]
    exact hcf f

/-- A fragment's label lines never include an `L<i>` at or below the
span's lower counter bound. -/
theorem SpanOK.fresh_of_le {funcs : List String} {lo hi i : Nat} {Δ : List CodeLine}
    (h : SpanOK funcs lo hi Δ) (hle : i ≤ lo) : lNm i ∉ labelLines Δ := by
  intro hm
  rcases h.1 _ hm with ⟨j, he, hlo, _⟩ | ⟨f, _, hfe⟩
  · have := lNm_inj he
    omega
  · exact lNm_ne_fNm _ _ hfe

theorem SpanOK.label_lo (funcs : List String) {lo hi : Nat} (i : Nat)
    (h1 : lo < i) (h2 : i ≤ hi) :
    SpanOK funcs lo hi [.label (lNm i)] := by
  refine ⟨?_, ?_, ?_⟩
  · intro l hl
    rw [labelLines_label, List.mem_singleton] at hl
    subst hl
    exact Or.inl ⟨i, rfl, h1, h2⟩
  · intro j
    rw [labelLines_label]
    simp only [List.count_cons, List.count_nil]
    split <;> omega
  · intro f
    rw [labelLines_label]
    simp [List.count_cons, lNm_ne_fNm i f]

theorem SpanOK.func_label {funcs : List String} {lo hi : Nat} {f : String}
    (hf : f ∈ funcs) :
    SpanOK funcs lo hi [.label (fNm f)] := by
  refine ⟨?_, ?_, ?_⟩
  · intro l hl
    rw [labelLines_label, List.mem_singleton] at hl
    subst hl
    exact Or.inr ⟨f, hf, rfl⟩
  · intro i
    have hne : fNm f ≠ lNm i := fun h => lNm_ne_fNm i f h.symm
    rw [labelLines_label]
    simp [List.count_cons, hne]
  · intro g
    by_cases hg : g = f
    · subst hg
      have hpos : 0 < funcs.count g := List.count_pos_iff.mpr hf
      have hone : (labelLines [CodeLine.label (fNm g)]).count (fNm g) = 1 := by
        rw [labelLines_label]
        simp
      omega
    · have hne : fNm f ≠ fNm g := fun h => hg (fNm_inj h).symm
      rw [labelLines_label]
      simp [List.count_cons, hne]

/-- Appending one fresh `L<i>` label line at the end of a fragment that
does not already contain it. -/
theorem SpanOK.append_label {funcs : List String} {lo hi i : Nat} {Δ : List CodeLine}
    (h : SpanOK funcs lo hi Δ) (h1 : lo < i) (h2 : i ≤ hi)
    (hfresh : lNm i ∉ labelLines Δ) :
    SpanOK funcs lo hi (Δ ++ [.label (lNm i)]) := by
  obtain ⟨hm, hcl, hcf⟩ := h
  refine ⟨?_, ?_, ?_⟩
  · intro l hl
    rw [labelLines_append] at hl
    rcases List.mem_append.mp hl with hl | hl
    · exact hm l hl
    · rw [labelLines_label, List.mem_singleton] at hl
      subst hl
      exact Or.inl ⟨i, rfl, h1, h2⟩
  · intro j
    rw [labelLines_append, List.count_append]
    by_cases hj : j = i
    · subst hj
      have h0 : (labelLines Δ).count (lNm j) = 0 := List.count_eq_zero.mpr hfresh
      have hone : (labelLines [CodeLine.label (lNm j)]).count (lNm j) = 1 := by
        rw [labelLines_label]
        simp
      omega
    · have hne : lNm i ≠ lNm j := fun h => hj (lNm_inj h).symm
      have h0 : (labelLines [CodeLine.label (lNm i)]).count (lNm j) = 0 := by
        rw [labelLines_label]
        simp [List.count_cons, hne]
      have := hcl j
      omega
  · intro f
    rw [labelLines_append, List.count_append]
    have h0 : (labelLines [CodeLine.label (lNm i)]).count (fNm f) = 0 := by
      rw [labelLines_label]
      simp [List.count_cons, lNm_ne_fNm i f]
    have := hcf f
    omega

/-- Expression generation never emits a label line and never touches the
label counter. -/
def ExprSpec (s s' : CGSt) : Prop :=
  s.tempCounter ≤ s'.tempCounter ∧ s'.labelCounter = s.labelCounter ∧
  ∃ Δ : List CodeLine, s'.code = s.code ++ Δ ∧ labelLines Δ = []

theorem ExprSpec.reflExpr (s : CGSt) : ExprSpec s s :=
  ⟨le_refl _, rfl, [], by simp, rfl⟩

theorem ExprSpec.compExpr {s s1 s2 : CGSt} (h1 : ExprSpec s s1) (h2 : ExprSpec s1 s2) :
    ExprSpec s s2 := by
  obtain ⟨ht1, hl1, Δ1, hc1, he1⟩ := h1
  obtain ⟨ht2, hl2, Δ2, hc2, he2⟩ := h2
  refine ⟨le_trans ht1 ht2, by omega, Δ1 ++ Δ2, ?_, ?_⟩
  · rw [hc2, hc1, List.append_assoc]
  · rw [labelLines_append, he1, he2]
    rfl

theorem ExprSpec.emitExpr (s : CGSt) (op a1 a2 res : String) :
    ExprSpec s (s.emit op a1 a2 res) :=
  ⟨le_refl _, rfl, [.instr op a1 a2 res], rfl, rfl⟩

theorem ExprSpec.newTempStep (s : CGSt) : ExprSpec s (newTemp s).2 :=
  ⟨by simp [newTemp], rfl, [], by simp [newTemp], rfl⟩

theorem emitParams_spec : ∀ (ts : List String) (s : CGSt),
    ExprSpec s (emitParams ts s) := by
  intro ts
  induction ts with
  | nil => intro s; exact ExprSpec.reflExpr s
  | cons t rest ih =>
    intro s
    unfold emitParams
    exact ExprSpec.compExpr (ExprSpec.emitExpr s "PARAM" t "" "") (ih _)

mutual

theorem genExpr_spec : ∀ (n : Node) (s : CGSt), ExprSpec s (genExpr n s).2
  | .mk kind cs leaf, s => by
    cases hk : nKind kind <;>
      simp only [genExpr, hk] <;>
      first
        | exact ExprSpec.reflExpr s
        | exact genExprArr_spec cs leaf s
        | exact genExprBin_spec cs leaf s
        | exact genExprUnary_spec cs leaf s
        | exact genExprCall_spec cs leaf s

theorem genExprArr_spec : ∀ (cs : List Node) (leaf : Option String) (s : CGSt),
    ExprSpec s (genExprArr cs leaf s).2
  | [], _, s => ExprSpec.reflExpr s
  | idx :: rest, leaf, s => by
    simp only [genExprArr]
    cases hg : genExpr idx s with
    | mk t s1 =>
      have ih := genExpr_spec idx s
      rw [hg] at ih
      cases hnt : newTemp s1 with
      | mk res s2 =>
        simp only
        have hnts : ExprSpec s1 s2 := by
          have := ExprSpec.newTempStep s1
          rw [hnt] at this
          exact this
        exact ExprSpec.compExpr ih (ExprSpec.compExpr hnts (ExprSpec.emitExpr s2 _ _ _ _))

theorem genExprBin_spec : ∀ (cs : List Node) (leaf : Option String) (s : CGSt),
    ExprSpec s (genExprBin cs leaf s).2
  | [], _, s => ExprSpec.reflExpr s
  | [_], _, s => ExprSpec.reflExpr s
  | a :: b :: rest, leaf, s => by
    simp only [genExprBin]
    cases hg1 : genExpr a s with
    | mk t1 s1 =>
      have ih1 := genExpr_spec a s
      rw [hg1] at ih1
      cases hg2 : genExpr b s1 with
      | mk t2 s2 =>
        have ih2 := genExpr_spec b s1
        rw [hg2] at ih2
        cases hnt : newTemp s2 with
        | mk res s3 =>
          simp only
          have hnts : ExprSpec s2 s3 := by
            have := ExprSpec.newTempStep s2
            rw [hnt] at this
            exact this
          exact ExprSpec.compExpr ih1 (ExprSpec.compExpr ih2
            (ExprSpec.compExpr hnts (ExprSpec.emitExpr s3 _ _ _ _)))

theorem genExprUnary_spec : ∀ (cs : List Node) (leaf : Option String) (s : CGSt),
    ExprSpec s (genExprUnary cs leaf s).2
  | [], _, s => ExprSpec.reflExpr s
  | a :: rest, leaf, s => by
    simp only [genExprUnary]
    cases hg : genExpr a s with
    | mk t1 s1 =>
      have ih := genExpr_spec a s
      rw [hg] at ih
      cases hnt : newTemp s1 with
      | mk res s2 =>
        simp only
        have hnts : ExprSpec s1 s2 := by
          have := ExprSpec.newTempStep s1
          rw [hnt] at this
          exact this
        by_cases hm : leaf.getD "" = "-"
        · simp only [hm, if_true]
          exact ExprSpec.compExpr ih (ExprSpec.compExpr hnts (ExprSpec.emitExpr s2 _ _ _ _))
        · by_cases hn : leaf.getD "" = "!"
          · simp only [hm, hn, if_false, if_true]
            exact ExprSpec.compExpr ih (ExprSpec.compExpr hnts (ExprSpec.emitExpr s2 _ _ _ _))
          · simp only [hm, hn, if_false]
            exact ExprSpec.compExpr ih hnts

theorem genExprCall_spec : ∀ (cs : List Node) (leaf : Option String) (s : CGSt),
    ExprSpec s (genExprCall cs leaf s).2
  | [], leaf, s => by
    simp only [genExprCall]
    cases hnt : newTemp s with
    | mk res s1 =>
      simp only
      have hnts : ExprSpec s s1 := by
        have := ExprSpec.newTempStep s
        rw [hnt] at this
        exact this
      exact ExprSpec.compExpr hnts (ExprSpec.emitExpr s1 _ _ _ _)
  | .mk ak argCs aleaf :: rest, leaf, s => by
    simp only [genExprCall]
    cases hg : genExprList argCs s with
    | mk ts s1 =>
      have ih := genExprList_spec argCs s
      rw [hg] at ih
      cases hnt : newTemp (emitParams ts s1) with
      | mk res s3 =>
        simp only
        have hnts : ExprSpec (emitParams ts s1) s3 := by
          have := ExprSpec.newTempStep (emitParams ts s1)
          rw [hnt] at this
          exact this
        exact ExprSpec.compExpr ih (ExprSpec.compExpr (emitParams_spec ts s1)
          (ExprSpec.compExpr hnts (ExprSpec.emitExpr s3 _ _ _ _)))

theorem genExprList_spec : ∀ (ns : List Node) (s : CGSt), ExprSpec s (genExprList ns s).2
  | [], s => ExprSpec.reflExpr s
  | a :: rest, s => by
    simp only [genExprList]
    cases hg : genExpr a s with
    | mk t s1 =>
      have ih1 := genExpr_spec a s
      rw [hg] at ih1
      cases hg2 : genExprList rest s1 with
      | mk ts s2 =>
        have ih2 := genExprList_spec rest s1
        rw [hg2] at ih2
        simp only
        exact ExprSpec.compExpr ih1 ih2
end

theorem genAStore_spec : ∀ (tcs : List Node) (tleaf : Option String) (r : String)
    (s : CGSt), ExprSpec s (genAStore tcs tleaf r s)
  | [], _, _, s => ExprSpec.reflExpr s
  | idx :: rest, tleaf, r, s => by
    simp only [genAStore]
    cases hg : genExpr idx s with
    | mk v s2 =>
      have ih := genExpr_spec idx s
      rw [hg] at ih
      exact ExprSpec.compExpr ih (ExprSpec.emitExpr s2 _ _ _ _)

theorem genAssignTarget_spec (target : Node) (r : String) (s : CGSt) :
    ExprSpec s (genAssignTarget target r s) := by
  match target with
  | .mk tkind tcs tleaf =>
    simp only [genAssignTarget]
    by_cases ht : nKind tkind = .array_access
    · simp only [ht, if_true]
      exact genAStore_spec tcs tleaf r s
    · simp only [ht, if_false]
      exact ExprSpec.emitExpr s _ _ _ _

theorem genAssign_spec : ∀ (cs : List Node) (s : CGSt), ExprSpec s (genAssign cs s)
  | [], s => ExprSpec.reflExpr s
  | [_], s => ExprSpec.reflExpr s
  | target :: expr :: rest, s => by
    simp only [genAssign]
    cases hg : genExpr expr s with
    | mk r s1 =>
      have ih := genExpr_spec expr s
      rw [hg] at ih
      exact ExprSpec.compExpr ih (genAssignTarget_spec target r s1)

theorem genPrint_spec : ∀ (cs : List Node) (s : CGSt), ExprSpec s (genPrint cs s)
  | [], s => ExprSpec.reflExpr s
  | e :: rest, s => by
    simp only [genPrint]
    cases hg : genExpr e s with
    | mk v s1 =>
      have ih := genExpr_spec e s
      rw [hg] at ih
      exact ExprSpec.compExpr ih (ExprSpec.emitExpr s1 _ _ _ _)

theorem ExprSpec.toGenSpec {s s' : CGSt} (h : ExprSpec s s') (funcs : List String) :
    GenSpec funcs s s' := by
  obtain ⟨ht, hl, Δ, hc, he⟩ := h
  refine ⟨ht, by omega, Δ, hc, ?_, ?_, ?_⟩ <;> simp [he]


/-! ### `GenSpec` for the statement-level generators

The four handlers that emit label lines (`gen_if` / elif arms, `gen_while`,
`gen_for`, `gen_func_decl`) allocate their labels at the start of the span
and emit them at its end, so their spans are assembled by hand from the
`SpanOK` lemmas; the equation lemmas below expose the intermediate states. -/

theorem genWhile_eq (cond body : Node) (rest : List Node) (s : CGSt) :
    genWhile (cond :: body :: rest) s =
      CGSt.emitLabel
        (CGSt.emit
          (genNode body
            (CGSt.emit
              (genExpr cond (CGSt.emitLabel ⟨s.tempCounter, s.labelCounter + 2, s.data, s.code⟩ (lNm (s.labelCounter + 1)))).2
              "JPF"
              (genExpr cond (CGSt.emitLabel ⟨s.tempCounter, s.labelCounter + 2, s.data, s.code⟩ (lNm (s.labelCounter + 1)))).1
              (lNm (s.labelCounter + 2)) ""))
          "JMP" (lNm (s.labelCounter + 1)) "" "")
        (lNm (s.labelCounter + 2)) := rfl

theorem genElifArm_eq (econd ebody : Node) (rest : List Node) (le : String) (s : CGSt) :
    genElifArm (econd :: ebody :: rest) le s =
      CGSt.emitLabel
        (CGSt.emit
          (genNode ebody
            (CGSt.emit
              (genExpr econd ⟨s.tempCounter, s.labelCounter + 1, s.data, s.code⟩).2
              "JPF"
              (genExpr econd ⟨s.tempCounter, s.labelCounter + 1, s.data, s.code⟩).1
              (lNm (s.labelCounter + 1)) ""))
          "JMP" le "" "")
        (lNm (s.labelCounter + 1)) := rfl

theorem genIf_eq (cond tb : Node) (rest : List Node) (s : CGSt) :
    genIf (cond :: tb :: rest) s =
      CGSt.emitLabel
        (genIfRest rest (lNm (s.labelCounter + 2))
          (CGSt.emitLabel
            (CGSt.emit
              (genNode tb
                (CGSt.emit
                  (genExpr cond ⟨s.tempCounter, s.labelCounter + 2, s.data, s.code⟩).2
                  "JPF"
                  (genExpr cond ⟨s.tempCounter, s.labelCounter + 2, s.data, s.code⟩).1
                  (lNm (s.labelCounter + 1)) ""))
              "JMP" (lNm (s.labelCounter + 2)) "" "")
            (lNm (s.labelCounter + 1))))
        (lNm (s.labelCounter + 2)) := rfl

theorem genFor_eq (a1 cond a2 body : Node) (rest : List Node) (s : CGSt) :
    genFor (a1 :: cond :: a2 :: body :: rest) s =
      CGSt.emitLabel
        (CGSt.emit
          (genNode a2
            (genNode body
              (CGSt.emit
                (genExpr cond (CGSt.emitLabel (genNode a1 ⟨s.tempCounter, s.labelCounter + 2, s.data, s.code⟩) (lNm (s.labelCounter + 1)))).2
                "JPF"
                (genExpr cond (CGSt.emitLabel (genNode a1 ⟨s.tempCounter, s.labelCounter + 2, s.data, s.code⟩) (lNm (s.labelCounter + 1)))).1
                (lNm (s.labelCounter + 2)) "")))
          "JMP" (lNm (s.labelCounter + 1)) "" "")
        (lNm (s.labelCounter + 2)) := rfl

mutual

/-- Every generator call satisfies its `GenSpec`: the fresh labels of the
span are the `L<i>` with `i` in the counter range, each at most once, and
the only other label lines are `FUNC_<f>` for declared functions. -/
theorem genNode_spec : ∀ (n : Node) (s : CGSt), GenSpec (funcLeaves n) s (genNode n s)
  | .mk kind cs leaf, s => by
    cases hk : nKind kind <;>
      simp [genNode, funcLeaves, hk] <;>
      first
        | exact genList_spec cs s
        | exact GenSpec.addVarDecl _ s _ _
        | exact genFuncDecl_spec cs leaf s
        | exact ExprSpec.toGenSpec (genAssign_spec cs s) _
        | exact genIf_spec cs s
        | exact genWhile_spec cs s
        | exact genFor_spec cs s
        | exact ExprSpec.toGenSpec (genPrint_spec cs s) _
        | exact GenSpec.emitGen _ s _ _ _ _

theorem genList_spec : ∀ (ns : List Node) (s : CGSt),
    GenSpec (funcLeavesList ns) s (genList ns s)
  | [], s => GenSpec.reflGen _ s
  | n :: rest, s => by
    have h1 := genNode_spec n s
    have h2 := genList_spec rest (genNode n s)
    have h3 := GenSpec.compGen h1 h2
    show GenSpec (funcLeavesList (n :: rest)) s (genList rest (genNode n s))
    have hfl : funcLeavesList (n :: rest) = funcLeaves n ++ funcLeavesList rest := by
      simp [funcLeavesList]
    rw [hfl]
    exact h3

theorem genFuncDecl_spec : ∀ (cs : List Node) (leaf : Option String) (s : CGSt),
    GenSpec (leaf.getD "" :: funcLeavesList cs) s (genFuncDecl cs leaf s)
  | [], leaf, s => by
    show GenSpec (leaf.getD "" :: funcLeavesList ([] : List Node)) s
      (CGSt.emit (CGSt.emitLabel s (fNm (leaf.getD ""))) "RET" "" "" "")
    have hlab : SpanOK (leaf.getD "" :: funcLeavesList ([] : List Node))
        s.labelCounter s.labelCounter [CodeLine.label (fNm (leaf.getD ""))] :=
      SpanOK.func_label (List.mem_cons_self _ _)
    have hll : labelLines ([CodeLine.label (fNm (leaf.getD ""))] ++ [CodeLine.instr "RET" "" "" ""])
        = labelLines [CodeLine.label (fNm (leaf.getD ""))] := rfl
    refine GenSpec.ofSpan (le_refl _) (le_refl _) ?_ (SpanOK.congr hlab hll)
    show (s.code ++ [CodeLine.label (fNm (leaf.getD ""))]) ++ [CodeLine.instr "RET" "" "" ""] = _
    simp [List.append_assoc]
  | [p], leaf, s => by
    show GenSpec (leaf.getD "" :: funcLeavesList [p]) s
      (CGSt.emit (CGSt.emitLabel s (fNm (leaf.getD ""))) "RET" "" "" "")
    have hlab : SpanOK (leaf.getD "" :: funcLeavesList [p])
        s.labelCounter s.labelCounter [CodeLine.label (fNm (leaf.getD ""))] :=
      SpanOK.func_label (List.mem_cons_self _ _)
    have hll : labelLines ([CodeLine.label (fNm (leaf.getD ""))] ++ [CodeLine.instr "RET" "" "" ""])
        = labelLines [CodeLine.label (fNm (leaf.getD ""))] := rfl
    refine GenSpec.ofSpan (le_refl _) (le_refl _) ?_ (SpanOK.congr hlab hll)
    show (s.code ++ [CodeLine.label (fNm (leaf.getD ""))]) ++ [CodeLine.instr "RET" "" "" ""] = _
    simp [List.append_assoc]
  | p :: body :: rest, leaf, s => by
    show GenSpec (leaf.getD "" :: funcLeavesList (p :: body :: rest)) s
      (CGSt.emit (genNode body (CGSt.emitLabel s (fNm (leaf.getD "")))) "RET" "" "" "")
    have hB : GenSpec (funcLeaves body) (CGSt.emitLabel s (fNm (leaf.getD "")))
        (genNode body (CGSt.emitLabel s (fNm (leaf.getD "")))) := genNode_spec body _
    have htB := hB.1
    have hlB := hB.2.1
    obtain ⟨ΔB, hcB, hsB⟩ := GenSpec.span hB
    have h1l : (CGSt.emitLabel s (fNm (leaf.getD ""))).labelCounter = s.labelCounter := rfl
    have h1t : (CGSt.emitLabel s (fNm (leaf.getD ""))).tempCounter = s.tempCounter := rfl
    have h1c : (CGSt.emitLabel s (fNm (leaf.getD ""))).code
        = s.code ++ [CodeLine.label (fNm (leaf.getD ""))] := rfl
    rw [h1l] at hsB
    have hlab : SpanOK [leaf.getD ""] s.labelCounter s.labelCounter
        [CodeLine.label (fNm (leaf.getD ""))] :=
      SpanOK.func_label (List.mem_singleton_self _)
    have happ := SpanOK.append hlab hsB (le_refl _) (by rw [h1l] at hlB; exact hlB)
    have hw : ∀ g, ([leaf.getD ""] ++ funcLeaves body).count g
        ≤ (leaf.getD "" :: funcLeavesList (p :: body :: rest)).count g := by
      have e1 : funcLeavesList (p :: body :: rest)
          = funcLeaves p ++ (funcLeaves body ++ funcLeavesList rest) := by
        simp [funcLeavesList]
      intro g
      rw [e1]
      have hsub : List.Sublist (leaf.getD "" :: funcLeaves body)
          (leaf.getD "" :: (funcLeaves p ++ (funcLeaves body ++ funcLeavesList rest))) :=
        List.Sublist.cons₂ _ (List.Sublist.trans (List.sublist_append_left _ _)
          (List.sublist_append_right _ _))
      exact hsub.count_le g
    have hll : labelLines ([CodeLine.label (fNm (leaf.getD ""))] ++ (ΔB ++ [CodeLine.instr "RET" "" "" ""]))
        = labelLines ([CodeLine.label (fNm (leaf.getD ""))] ++ ΔB) := by
      simp [labelLines_append, labelLines_instr, labelLines_label, labelLines_cons_label,
        labelLines_cons_instr, labelLines_nil]
    have hspan := SpanOK.congr (happ.weakenSpan hw) hll
    refine GenSpec.ofSpan ?_ ?_ ?_ hspan
    · show s.tempCounter ≤ (genNode body (CGSt.emitLabel s (fNm (leaf.getD "")))).tempCounter
      omega
    · show s.labelCounter ≤ (genNode body (CGSt.emitLabel s (fNm (leaf.getD "")))).labelCounter
      omega
    · show (genNode body (CGSt.emitLabel s (fNm (leaf.getD "")))).code ++ [CodeLine.instr "RET" "" "" ""] = _
      rw [hcB, h1c]
      simp [List.append_assoc]

theorem genIf_spec : ∀ (cs : List Node) (s : CGSt),
    GenSpec (funcLeavesList cs) s (genIf cs s)
  | [], s => GenSpec.reflGen _ s
  | [x], s => GenSpec.reflGen _ s
  | cond :: tb :: rest, s => by
    rw [genIf_eq]
    set s2 : CGSt := (⟨s.tempCounter, s.labelCounter + 2, s.data, s.code⟩ : CGSt) with hs2
    set p := genExpr cond s2 with hp
    set s4 : CGSt := CGSt.emit p.2 "JPF" p.1 (lNm (s.labelCounter + 1)) "" with hs4
    set s5 := genNode tb s4 with hs5
    set s6 : CGSt := CGSt.emit s5 "JMP" (lNm (s.labelCounter + 2)) "" "" with hs6
    set s7 : CGSt := CGSt.emitLabel s6 (lNm (s.labelCounter + 1)) with hs7
    set s8 := genIfRest rest (lNm (s.labelCounter + 2)) s7 with hs8
    have hE : ExprSpec s2 p.2 := by rw [hp]; exact genExpr_spec cond s2
    obtain ⟨htE, hlE, Δe, hcE, hnE⟩ := hE
    have hT : GenSpec (funcLeaves tb) s4 s5 := by rw [hs5]; exact genNode_spec tb s4
    have htT := hT.1
    have hlT := hT.2.1
    obtain ⟨ΔT, hcT, hsT⟩ := GenSpec.span hT
    have hR : GenSpec (funcLeavesList rest) s7 s8 := by
      rw [hs8]; exact genIfRest_spec rest (lNm (s.labelCounter + 2)) s7
    have htR := hR.1
    have hlR := hR.2.1
    obtain ⟨ΔR, hcR, hsR⟩ := GenSpec.span hR
    have h2t : s2.tempCounter = s.tempCounter := rfl
    have h2l : s2.labelCounter = s.labelCounter + 2 := rfl
    have h2c : s2.code = s.code := rfl
    have h4t : s4.tempCounter = p.2.tempCounter := rfl
    have h4l : s4.labelCounter = p.2.labelCounter := rfl
    have h4c : s4.code = p.2.code ++ [CodeLine.instr "JPF" p.1 (lNm (s.labelCounter + 1)) ""] := rfl
    have h7t : s7.tempCounter = s5.tempCounter := rfl
    have h7l : s7.labelCounter = s5.labelCounter := rfl
    have h7c : s7.code = (s5.code ++ [CodeLine.instr "JMP" (lNm (s.labelCounter + 2)) "" ""])
        ++ [CodeLine.label (lNm (s.labelCounter + 1))] := rfl
    have hpl : p.2.labelCounter = s.labelCounter + 2 := by rw [hlE, h2l]
    rw [h4l, hpl] at hsT
    rw [h7l] at hsR
    have hl5 : s.labelCounter + 2 ≤ s5.labelCounter := by
      rw [← hpl, ← h4l]; exact hlT
    have hl8 : s5.labelCounter ≤ s8.labelCounter := by rw [← h7l]; exact hlR
    have hbT := SpanOK.append_label
      (hsT.mono (show s.labelCounter ≤ s.labelCounter + 2 by omega) (le_refl _))
      (show s.labelCounter < s.labelCounter + 1 by omega)
      (show s.labelCounter + 1 ≤ s5.labelCounter by omega)
      (hsT.fresh_of_le (show s.labelCounter + 1 ≤ s.labelCounter + 2 by omega))
    have hbR := SpanOK.append hbT hsR (show s.labelCounter ≤ s5.labelCounter by omega) hl8
    have hfr : lNm (s.labelCounter + 2)
        ∉ labelLines ((ΔT ++ [CodeLine.label (lNm (s.labelCounter + 1))]) ++ ΔR) := by
      rw [labelLines_append, labelLines_append, labelLines_label]
      intro hm
      rcases List.mem_append.mp hm with hm | hm
      · rcases List.mem_append.mp hm with hm | hm
        · exact hsT.fresh_of_le (le_refl _) hm
        · rw [List.mem_singleton] at hm
          have := lNm_inj hm
          omega
      · exact hsR.fresh_of_le hl5 hm
    have hbig := SpanOK.append_label hbR
      (show s.labelCounter < s.labelCounter + 2 by omega)
      (show s.labelCounter + 2 ≤ s8.labelCounter by omega) hfr
    have hw : ∀ g, ((funcLeaves tb ++ funcLeavesList rest)).count g
        ≤ (funcLeavesList (cond :: tb :: rest)).count g := by
      have e1 : funcLeavesList (cond :: tb :: rest)
          = funcLeaves cond ++ (funcLeaves tb ++ funcLeavesList rest) := by
        simp [funcLeavesList]
      intro g
      rw [e1]
      exact (List.sublist_append_right _ _).count_le g
    have hll : labelLines (Δe ++ ([CodeLine.instr "JPF" p.1 (lNm (s.labelCounter + 1)) ""]
          ++ (ΔT ++ ([CodeLine.instr "JMP" (lNm (s.labelCounter + 2)) "" ""]
          ++ ([CodeLine.label (lNm (s.labelCounter + 1))]
          ++ (ΔR ++ [CodeLine.label (lNm (s.labelCounter + 2))]))))))
        = labelLines (((ΔT ++ [CodeLine.label (lNm (s.labelCounter + 1))]) ++ ΔR)
          ++ [CodeLine.label (lNm (s.labelCounter + 2))]) := by
      simp [labelLines_append, labelLines_instr, labelLines_label, labelLines_cons_label, labelLines_cons_instr, labelLines_nil, hnE]
    have hspan := SpanOK.congr (hbig.weakenSpan hw) hll
    refine GenSpec.ofSpan ?_ ?_ ?_ hspan
    · show s.tempCounter ≤ s8.tempCounter
      omega
    · show s.labelCounter ≤ s8.labelCounter
      omega
    · show s8.code ++ [CodeLine.label (lNm (s.labelCounter + 2))] = _
      rw [hcR, h7c, hcT, h4c, hcE, h2c]
      simp [List.append_assoc]

theorem genIfRest_spec : ∀ (rest : List Node) (le : String) (s : CGSt),
    GenSpec (funcLeavesList rest) s (genIfRest rest le s)
  | [], _, s => GenSpec.reflGen _ s
  | child :: rest, le, s => by
    have h1 := genIfChild_spec child le s
    have h2 := genIfRest_spec rest le (genIfChild child le s)
    have h3 := GenSpec.compGen h1 h2
    show GenSpec (funcLeavesList (child :: rest)) s (genIfRest rest le (genIfChild child le s))
    have hfl : funcLeavesList (child :: rest) = funcLeaves child ++ funcLeavesList rest := by
      simp [funcLeavesList]
    rw [hfl]
    exact h3

theorem genIfChild_spec : ∀ (child : Node) (le : String) (s : CGSt),
    GenSpec (funcLeaves child) s (genIfChild child le s)
  | .mk ckind ccs cleaf, le, s => by
    cases hk : nKind ckind <;>
      simp [genIfChild, funcLeaves, hk] <;>
      first
        | exact GenSpec.reflGen _ s
        | exact genElifArm_spec ccs le s
        | exact genElseArm_spec ccs s

theorem genElseArm_spec : ∀ (ccs : List Node) (s : CGSt),
    GenSpec (funcLeavesList ccs) s (genElseArm ccs s)
  | [], s => GenSpec.reflGen _ s
  | ebody :: rest, s => by
    have h1 := genNode_spec ebody s
    have hw : ∀ g, (funcLeaves ebody).count g ≤ (funcLeavesList (ebody :: rest)).count g := by
      have e1 : funcLeavesList (ebody :: rest) = funcLeaves ebody ++ funcLeavesList rest := by
        simp [funcLeavesList]
      intro g
      rw [e1]
      exact (List.sublist_append_left _ _).count_le g
    show GenSpec (funcLeavesList (ebody :: rest)) s (genNode ebody s)
    exact GenSpec.weakenGen h1 hw

theorem genElifArm_spec : ∀ (ccs : List Node) (le : String) (s : CGSt),
    GenSpec (funcLeavesList ccs) s (genElifArm ccs le s)
  | [], _, s => GenSpec.reflGen _ s
  | [e], _, s => GenSpec.reflGen _ s
  | econd :: ebody :: rest, le, s => by
    rw [genElifArm_eq]
    set s1 : CGSt := (⟨s.tempCounter, s.labelCounter + 1, s.data, s.code⟩ : CGSt) with hs1
    set p := genExpr econd s1 with hp
    set s3 : CGSt := CGSt.emit p.2 "JPF" p.1 (lNm (s.labelCounter + 1)) "" with hs3
    set s4 := genNode ebody s3 with hs4
    have hE : ExprSpec s1 p.2 := by rw [hp]; exact genExpr_spec econd s1
    obtain ⟨htE, hlE, Δe, hcE, hnE⟩ := hE
    have hB : GenSpec (funcLeaves ebody) s3 s4 := by rw [hs4]; exact genNode_spec ebody s3
    have htB := hB.1
    have hlB := hB.2.1
    obtain ⟨ΔB, hcB, hsB⟩ := GenSpec.span hB
    have h1t : s1.tempCounter = s.tempCounter := rfl
    have h1l : s1.labelCounter = s.labelCounter + 1 := rfl
    have h1c : s1.code = s.code := rfl
    have h3t : s3.tempCounter = p.2.tempCounter := rfl
    have h3l : s3.labelCounter = p.2.labelCounter := rfl
    have h3c : s3.code = p.2.code ++ [CodeLine.instr "JPF" p.1 (lNm (s.labelCounter + 1)) ""] := rfl
    have hpl : p.2.labelCounter = s.labelCounter + 1 := by rw [hlE, h1l]
    rw [h3l, hpl] at hsB
    have hs4l : s.labelCounter + 1 ≤ s4.labelCounter := by
      rw [← hpl, ← h3l]; exact hlB
    have hfresh : lNm (s.labelCounter + 1) ∉ labelLines ΔB := hsB.fresh_of_le (le_refl _)
    have hlab := SpanOK.append_label
      (hsB.mono (show s.labelCounter ≤ s.labelCounter + 1 by omega) (le_refl _))
      (show s.labelCounter < s.labelCounter + 1 by omega) hs4l hfresh
    have hw : ∀ g, (funcLeaves ebody).count g
        ≤ (funcLeavesList (econd :: ebody :: rest)).count g := by
      have e1 : funcLeavesList (econd :: ebody :: rest)
          = funcLeaves econd ++ (funcLeaves ebody ++ funcLeavesList rest) := by
        simp [funcLeavesList]
      intro g
      rw [e1]
      exact (List.Sublist.trans (List.sublist_append_left _ _)
        (List.sublist_append_right _ _)).count_le g
    have hll : labelLines (Δe ++ ([CodeLine.instr "JPF" p.1 (lNm (s.labelCounter + 1)) ""]
          ++ (ΔB ++ ([CodeLine.instr "JMP" le "" ""]
          ++ [CodeLine.label (lNm (s.labelCounter + 1))]))))
        = labelLines (ΔB ++ [CodeLine.label (lNm (s.labelCounter + 1))]) := by
      simp [labelLines_append, labelLines_instr, labelLines_label, labelLines_cons_label, labelLines_cons_instr, labelLines_nil, hnE]
    have hspan := SpanOK.congr (hlab.weakenSpan hw) hll
    refine GenSpec.ofSpan ?_ ?_ ?_ hspan
    · show s.tempCounter ≤ s4.tempCounter
      omega
    · show s.labelCounter ≤ s4.labelCounter
      omega
    · show (s4.code ++ [CodeLine.instr "JMP" le "" ""])
        ++ [CodeLine.label (lNm (s.labelCounter + 1))] = _
      rw [hcB, h3c, hcE, h1c]
      simp [List.append_assoc]

theorem genWhile_spec : ∀ (cs : List Node) (s : CGSt),
    GenSpec (funcLeavesList cs) s (genWhile cs s)
  | [], s => GenSpec.reflGen _ s
  | [x], s => GenSpec.reflGen _ s
  | cond :: body :: rest, s => by
    rw [genWhile_eq]
    set s3 : CGSt := CGSt.emitLabel (⟨s.tempCounter, s.labelCounter + 2, s.data, s.code⟩ : CGSt)
      (lNm (s.labelCounter + 1)) with hs3
    set p := genExpr cond s3 with hp
    set s5 : CGSt := CGSt.emit p.2 "JPF" p.1 (lNm (s.labelCounter + 2)) "" with hs5
    set s6 := genNode body s5 with hs6
    have hE : ExprSpec s3 p.2 := by rw [hp]; exact genExpr_spec cond s3
    obtain ⟨htE, hlE, Δe, hcE, hnE⟩ := hE
    have hB : GenSpec (funcLeaves body) s5 s6 := by rw [hs6]; exact genNode_spec body s5
    have htB := hB.1
    have hlB := hB.2.1
    obtain ⟨ΔB, hcB, hsB⟩ := GenSpec.span hB
    have h3t : s3.tempCounter = s.tempCounter := rfl
    have h3l : s3.labelCounter = s.labelCounter + 2 := rfl
    have h3c : s3.code = s.code ++ [CodeLine.label (lNm (s.labelCounter + 1))] := rfl
    have h5t : s5.tempCounter = p.2.tempCounter := rfl
    have h5l : s5.labelCounter = p.2.labelCounter := rfl
    have h5c : s5.code = p.2.code ++ [CodeLine.instr "JPF" p.1 (lNm (s.labelCounter + 2)) ""] := rfl
    have hpl : p.2.labelCounter = s.labelCounter + 2 := by rw [hlE, h3l]
    rw [h5l, hpl] at hsB
    have hs6l : s.labelCounter + 2 ≤ s6.labelCounter := by
      rw [← hpl, ← h5l]; exact hlB
    have hstep1 : SpanOK ([] : List String) s.labelCounter (s.labelCounter + 1)
        [CodeLine.label (lNm (s.labelCounter + 1))] :=
      SpanOK.label_lo [] _ (Nat.lt_succ_self _) (le_refl _)
    have hstep2 := hsB.mono (show s.labelCounter + 1 ≤ s.labelCounter + 2 by omega) (le_refl _)
    have hstep12 := SpanOK.append hstep1 hstep2 (Nat.le_succ _)
      (show s.labelCounter + 1 ≤ s6.labelCounter by omega)
    have hfr : lNm (s.labelCounter + 2)
        ∉ labelLines ([CodeLine.label (lNm (s.labelCounter + 1))] ++ ΔB) := by
      rw [labelLines_append, labelLines_label]
      intro hm
      rcases List.mem_append.mp hm with hm | hm
      · rw [List.mem_singleton] at hm
        have := lNm_inj hm
        omega
      · exact hsB.fresh_of_le (le_refl _) hm
    have hbig := SpanOK.append_label hstep12
      (show s.labelCounter < s.labelCounter + 2 by omega)
      (show s.labelCounter + 2 ≤ s6.labelCounter by omega) hfr
    have hw : ∀ g, (([] : List String) ++ funcLeaves body).count g
        ≤ (funcLeavesList (cond :: body :: rest)).count g := by
      have e1 : funcLeavesList (cond :: body :: rest)
          = funcLeaves cond ++ (funcLeaves body ++ funcLeavesList rest) := by
        simp [funcLeavesList]
      intro g
      rw [e1]
      exact (List.Sublist.trans (List.sublist_append_left _ _)
        (List.sublist_append_right _ _)).count_le g
    have hll : labelLines ([CodeLine.label (lNm (s.labelCounter + 1))]
          ++ (Δe ++ ([CodeLine.instr "JPF" p.1 (lNm (s.labelCounter + 2)) ""]
          ++ (ΔB ++ ([CodeLine.instr "JMP" (lNm (s.labelCounter + 1)) "" ""]
          ++ [CodeLine.label (lNm (s.labelCounter + 2))])))))
        = labelLines (([CodeLine.label (lNm (s.labelCounter + 1))] ++ ΔB)
          ++ [CodeLine.label (lNm (s.labelCounter + 2))]) := by
      simp [labelLines_append, labelLines_instr, labelLines_label, labelLines_cons_label, labelLines_cons_instr, labelLines_nil, hnE]
    have hspan := SpanOK.congr (hbig.weakenSpan hw) hll
    refine GenSpec.ofSpan ?_ ?_ ?_ hspan
    · show s.tempCounter ≤ s6.tempCounter
      omega
    · show s.labelCounter ≤ s6.labelCounter
      omega
    · show (s6.code ++ [CodeLine.instr "JMP" (lNm (s.labelCounter + 1)) "" ""])
        ++ [CodeLine.label (lNm (s.labelCounter + 2))] = _
      rw [hcB, h5c, hcE, h3c]
      simp [List.append_assoc]

theorem genFor_spec : ∀ (cs : List Node) (s : CGSt),
    GenSpec (funcLeavesList cs) s (genFor cs s)
  | [], s => GenSpec.reflGen _ s
  | [x], s => GenSpec.reflGen _ s
  | [x, y], s => GenSpec.reflGen _ s
  | [x, y, z], s => GenSpec.reflGen _ s
  | a1 :: cond :: a2 :: body :: rest, s => by
    rw [genFor_eq]
    set s2 : CGSt := (⟨s.tempCounter, s.labelCounter + 2, s.data, s.code⟩ : CGSt) with hs2
    set s3 := genNode a1 s2 with hs3
    set s4 : CGSt := CGSt.emitLabel s3 (lNm (s.labelCounter + 1)) with hs4
    set p := genExpr cond s4 with hp
    set s6 : CGSt := CGSt.emit p.2 "JPF" p.1 (lNm (s.labelCounter + 2)) "" with hs6
    set s7 := genNode body s6 with hs7
    set s8 := genNode a2 s7 with hs8
    have hA : GenSpec (funcLeaves a1) s2 s3 := by rw [hs3]; exact genNode_spec a1 s2
    have htA := hA.1
    have hlA := hA.2.1
    obtain ⟨ΔA, hcA, hsA⟩ := GenSpec.span hA
    have hE : ExprSpec s4 p.2 := by rw [hp]; exact genExpr_spec cond s4
    obtain ⟨htE, hlE, Δe, hcE, hnE⟩ := hE
    have hB : GenSpec (funcLeaves body) s6 s7 := by rw [hs7]; exact genNode_spec body s6
    have htB := hB.1
    have hlB := hB.2.1
    obtain ⟨ΔB, hcB, hsB⟩ := GenSpec.span hB
    have hC : GenSpec (funcLeaves a2) s7 s8 := by rw [hs8]; exact genNode_spec a2 s7
    have htC := hC.1
    have hlC := hC.2.1
    obtain ⟨ΔC, hcC, hsC⟩ := GenSpec.span hC
    have h2t : s2.tempCounter = s.tempCounter := rfl
    have h2l : s2.labelCounter = s.labelCounter + 2 := rfl
    have h2c : s2.code = s.code := rfl
    have h4t : s4.tempCounter = s3.tempCounter := rfl
    have h4l : s4.labelCounter = s3.labelCounter := rfl
    have h4c : s4.code = s3.code ++ [CodeLine.label (lNm (s.labelCounter + 1))] := rfl
    have h6t : s6.tempCounter = p.2.tempCounter := rfl
    have h6l : s6.labelCounter = p.2.labelCounter := rfl
    have h6c : s6.code = p.2.code ++ [CodeLine.instr "JPF" p.1 (lNm (s.labelCounter + 2)) ""] := rfl
    rw [h2l] at hsA
    have hpl : p.2.labelCounter = s3.labelCounter := by rw [hlE, h4l]
    rw [h6l, hpl] at hsB
    have hl3 : s.labelCounter + 2 ≤ s3.labelCounter := by rw [← h2l]; exact hlA
    have hl7 : s3.labelCounter ≤ s7.labelCounter := by rw [← hpl, ← h6l]; exact hlB
    have hl8 : s7.labelCounter ≤ s8.labelCounter := hlC
    have hbA := SpanOK.append_label
      (hsA.mono (show s.labelCounter ≤ s.labelCounter + 2 by omega) (le_refl _))
      (show s.labelCounter < s.labelCounter + 1 by omega)
      (show s.labelCounter + 1 ≤ s3.labelCounter by omega)
      (hsA.fresh_of_le (show s.labelCounter + 1 ≤ s.labelCounter + 2 by omega))
    have hbAB := SpanOK.append hbA hsB (show s.labelCounter ≤ s3.labelCounter by omega) hl7
    have hbABC := SpanOK.append hbAB hsC (show s.labelCounter ≤ s7.labelCounter by omega) hl8
    have hfr : lNm (s.labelCounter + 2)
        ∉ labelLines (((ΔA ++ [CodeLine.label (lNm (s.labelCounter + 1))]) ++ ΔB) ++ ΔC) := by
      rw [labelLines_append, labelLines_append, labelLines_append, labelLines_label]
      intro hm
      rcases List.mem_append.mp hm with hm | hm
      · rcases List.mem_append.mp hm with hm | hm
        · rcases List.mem_append.mp hm with hm | hm
          · exact hsA.fresh_of_le (le_refl _) hm
          · rw [List.mem_singleton] at hm
            have := lNm_inj hm
            omega
        · exact hsB.fresh_of_le hl3 hm
      · exact hsC.fresh_of_le (by omega) hm
    have hbig := SpanOK.append_label hbABC
      (show s.labelCounter < s.labelCounter + 2 by omega)
      (show s.labelCounter + 2 ≤ s8.labelCounter by omega) hfr
    have hw : ∀ g, (((funcLeaves a1 ++ funcLeaves body) ++ funcLeaves a2)).count g
        ≤ (funcLeavesList (a1 :: cond :: a2 :: body :: rest)).count g := by
      have e1 : funcLeavesList (a1 :: cond :: a2 :: body :: rest)
          = funcLeaves a1 ++ (funcLeaves cond ++ (funcLeaves a2
            ++ (funcLeaves body ++ funcLeavesList rest))) := by
        simp [funcLeavesList]
      intro g
      rw [e1]
      simp only [List.count_append]
      omega
    have hll : labelLines (ΔA ++ ([CodeLine.label (lNm (s.labelCounter + 1))]
          ++ (Δe ++ ([CodeLine.instr "JPF" p.1 (lNm (s.labelCounter + 2)) ""]
          ++ (ΔB ++ (ΔC ++ ([CodeLine.instr "JMP" (lNm (s.labelCounter + 1)) "" ""]
          ++ [CodeLine.label (lNm (s.labelCounter + 2))])))))))
        = labelLines ((((ΔA ++ [CodeLine.label (lNm (s.labelCounter + 1))]) ++ ΔB) ++ ΔC)
          ++ [CodeLine.label (lNm (s.labelCounter + 2))]) := by
      simp [labelLines_append, labelLines_instr, labelLines_label, labelLines_cons_label, labelLines_cons_instr, labelLines_nil, hnE]
    have hspan := SpanOK.congr (hbig.weakenSpan hw) hll
    refine GenSpec.ofSpan ?_ ?_ ?_ hspan
    · show s.tempCounter ≤ s8.tempCounter
      omega
    · show s.labelCounter ≤ s8.labelCounter
      omega
    · show (s8.code ++ [CodeLine.instr "JMP" (lNm (s.labelCounter + 1)) "" ""])
        ++ [CodeLine.label (lNm (s.labelCounter + 2))] = _
      rw [hcC, hcB, h6c, hcE, h4c, hcA, h2c]
      simp [List.append_assoc]

end


/-! ### Semantic side of C9: a program that passes semantic analysis has
pairwise-distinct function names

`wfProgram` captures the shape the yacc grammar gives every AST: a
`program` node whose children are declarations, and declarations appear
nowhere else (`p_statement` has no declaration production). -/

def isDeclKind (k : NKind) : Bool :=
  k == .var_decl || k == .var_decl_array || k == .func_decl

mutual

/-- No declaration node anywhere in the subtree. -/
def noDecls : Node → Bool
  | .mk kind cs _ => !(isDeclKind (nKind kind)) && noDeclsList cs

def noDeclsList : List Node → Bool
  | [] => true
  | n :: rest => noDecls n && noDeclsList rest

end

/-- A top-level declaration: one of the three declaration kinds, with no
further declarations below it. -/
def wfDecl : Node → Bool
  | .mk kind cs _ => isDeclKind (nKind kind) && noDeclsList cs

def wfDeclList : List Node → Bool
  | [] => true
  | d :: rest => wfDecl d && wfDeclList rest

/-- The AST shape produced by the grammar: declarations exactly at the
top level under the `program` node. -/
def wfProgram : Node → Bool
  | .mk kind cs _ => (nKind kind == NKind.program) && wfDeclList cs

mutual

theorem funcLeaves_eq_nil : ∀ (n : Node), noDecls n = true → funcLeaves n = []
  | .mk kind cs leaf, h => by
    have h1 : isDeclKind (nKind kind) = false ∧ noDeclsList cs = true := by
      simpa [noDecls, Bool.and_eq_true, Bool.not_eq_true'] using h
    have h2 : nKind kind ≠ .func_decl := by
      intro he
      rw [he] at h1
      simp [isDeclKind] at h1
    have h3 := funcLeavesList_eq_nil cs h1.2
    simp [funcLeaves, h2, h3]

theorem funcLeavesList_eq_nil : ∀ (ns : List Node),
    noDeclsList ns = true → funcLeavesList ns = []
  | [], _ => rfl
  | n :: rest, h => by
    have h1 : noDecls n = true ∧ noDeclsList rest = true := by
      simpa [noDeclsList, Bool.and_eq_true] using h
    have h2 := funcLeaves_eq_nil n h1.1
    have h3 := funcLeavesList_eq_nil rest h1.2
    simp [funcLeavesList, h2, h3]

end

/-- One semantic step that leaves the scope stack and the current return
type unchanged and only appends to the error list. -/
def PresE (s s' : SemSt) : Prop :=
  s'.scopes = s.scopes ∧ s'.curRet = s.curRet ∧ ∃ e, s'.errors = s.errors ++ e

theorem PresE.reflPres (s : SemSt) : PresE s s := ⟨rfl, rfl, [], by simp⟩

theorem PresE.compPres {s s1 s2 : SemSt} (h1 : PresE s s1) (h2 : PresE s1 s2) : PresE s s2 := by
  obtain ⟨a1, b1, e1, c1⟩ := h1
  obtain ⟨a2, b2, e2, c2⟩ := h2
  exact ⟨by rw [a2, a1], by rw [b2, b1], e1 ++ e2, by rw [c2, c1, List.append_assoc]⟩

theorem PresE.addErr (s : SemSt) (d : Diag) : PresE s (s.addErr d) :=
  ⟨rfl, rfl, [d], rfl⟩

theorem PresE.run {s s' : SemSt} (h : PresE s s') :
    ∃ e, s' = ⟨s.scopes, s.errors ++ e, s.curRet⟩ := by
  obtain ⟨h1, h2, e, h3⟩ := h
  exact ⟨e, by rw [← h1, ← h2, ← h3]⟩

theorem exprIdType_pres (name : String) (s : SemSt) : PresE s (exprIdType name s).2 := by
  unfold exprIdType
  cases SemSt.lookup s name
  · exact PresE.addErr s _
  · exact PresE.reflPres s

theorem exprArrType_pres (name : String) (s : SemSt) : PresE s (exprArrType name s).2 := by
  unfold exprArrType
  cases SemSt.lookup s name
  · exact PresE.reflPres s
  · exact PresE.reflPres s

theorem exprCallType_pres (name : String) (s : SemSt) : PresE s (exprCallType name s).2 := by
  unfold exprCallType
  cases SemSt.lookup s name
  · exact PresE.reflPres s
  · exact PresE.reflPres s

mutual

theorem getExprType_pres : ∀ (n : Node) (s : SemSt), PresE s (getExprType n s).2
  | .mk kind cs leaf, s => by
    cases hk : nKind kind <;>
      simp only [getExprType, hk] <;>
      first
        | exact PresE.reflPres s
        | exact exprIdType_pres _ s
        | exact exprArrType_pres _ s
        | exact exprBinType_pres cs leaf s
        | exact exprUnaryType_pres cs leaf s
        | exact exprCallType_pres _ s

theorem exprBinType_pres : ∀ (cs : List Node) (leaf : Option String) (s : SemSt),
    PresE s (exprBinType cs leaf s).2
  | [], _, s => PresE.reflPres s
  | [a], _, s => PresE.reflPres s
  | a :: b :: rest, leaf, s => by
    simp only [exprBinType]
    cases hg1 : getExprType a s with
    | mk l s1 =>
      have ih1 := getExprType_pres a s
      rw [hg1] at ih1
      cases hg2 : getExprType b s1 with
      | mk r s2 =>
        have ih2 := getExprType_pres b s1
        rw [hg2] at ih2
        cases hbr : binOpResult (leaf.getD "") l r with
        | mk ty od =>
          cases od with
          | none => exact PresE.compPres ih1 ih2
          | some d => exact PresE.compPres ih1 (PresE.compPres ih2 (PresE.addErr s2 d))

theorem exprUnaryType_pres : ∀ (cs : List Node) (leaf : Option String) (s : SemSt),
    PresE s (exprUnaryType cs leaf s).2
  | [], _, s => PresE.reflPres s
  | a :: rest, leaf, s => by
    simp only [exprUnaryType]
    cases hg : getExprType a s with
    | mk c s1 =>
      have ih := getExprType_pres a s
      rw [hg] at ih
      exact ih

end

theorem checkArrayIndex_pres (loc : Node) (s : SemSt) : PresE s (checkArrayIndex loc s) := by
  unfold checkArrayIndex
  by_cases ha : nKind loc.kind = .array_access
  · rw [if_pos ha]
    cases hlc : loc.children with
    | nil => exact PresE.reflPres s
    | cons idx rest =>
      show PresE s (match getExprType idx s with
        | (idxTy, s2) => if idxTy ≠ "int" then s2.addErr (Diag.indexNotInt idxTy) else s2)
      cases hg : getExprType idx s with
      | mk ty s1 =>
        have ih := getExprType_pres idx s
        rw [hg] at ih
        show PresE s (if ty ≠ "int" then s1.addErr (Diag.indexNotInt ty) else s1)
        by_cases hne : ty ≠ "int"
        · rw [if_pos hne]
          exact PresE.compPres ih (PresE.addErr s1 _)
        · rw [if_neg hne]
          exact ih
  · rw [if_neg ha]
    exact PresE.reflPres s

theorem handleAssignment_pres : ∀ (cs : List Node) (s : SemSt), PresE s (handleAssignment cs s)
  | [], s => PresE.reflPres s
  | [x], s => PresE.reflPres s
  | loc :: expr :: rest, s => by
    simp only [handleAssignment]
    cases hl : SemSt.lookup s (loc.leaf.getD "") with
    | none => exact PresE.addErr s _
    | some lhsSym =>
      show PresE s (match getExprType expr (checkArrayIndex loc s) with
        | (rhsType, s2) =>
          if ¬ checkTypeCompatibility lhsSym.type rhsType then
            s2.addErr (Diag.assignMismatch lhsSym.type rhsType)
          else s2)
      cases hg : getExprType expr (checkArrayIndex loc s) with
      | mk rhsType s2 =>
        have ih1 := checkArrayIndex_pres loc s
        have ih2 := getExprType_pres expr (checkArrayIndex loc s)
        rw [hg] at ih2
        have base := PresE.compPres ih1 ih2
        show PresE s (if ¬ checkTypeCompatibility lhsSym.type rhsType then
          s2.addErr (Diag.assignMismatch lhsSym.type rhsType) else s2)
        by_cases hc : ¬ checkTypeCompatibility lhsSym.type rhsType
        · rw [if_pos hc]
          exact PresE.compPres base (PresE.addErr s2 _)
        · rw [if_neg hc]
          exact base

theorem handleReturn_pres (cs : List Node) (s : SemSt) : PresE s (handleReturn cs s) := by
  unfold handleReturn
  cases hr : s.curRet with
  | none => exact PresE.addErr s _
  | some retTy =>
    cases cs with
    | nil =>
      show PresE s (if retTy ≠ "void" then s.addErr (Diag.returnMismatch retTy "void") else s)
      by_cases hv : retTy ≠ "void"
      · rw [if_pos hv]
        exact PresE.addErr s _
      · rw [if_neg hv]
        exact PresE.reflPres s
    | cons e rest =>
      show PresE s (match getExprType e s with
        | (eTy, s1) =>
          if ¬ checkTypeCompatibility retTy eTy then
            s1.addErr (Diag.returnMismatch retTy eTy)
          else s1)
      cases hg : getExprType e s with
      | mk eTy s1 =>
        have ih := getExprType_pres e s
        rw [hg] at ih
        show PresE s (if ¬ checkTypeCompatibility retTy eTy then
          s1.addErr (Diag.returnMismatch retTy eTy) else s1)
        by_cases hc : ¬ checkTypeCompatibility retTy eTy
        · rw [if_pos hc]
          exact PresE.compPres ih (PresE.addErr s1 _)
        · rw [if_neg hc]
          exact ih

theorem checkArgs_pres : ∀ (defTypes : List String) (args : List Node) (i : Nat) (s : SemSt),
    PresE s (checkArgs defTypes args i s)
  | [], [], _, s => PresE.reflPres s
  | dt :: dts, [], _, s => PresE.reflPres s
  | [], a :: as2, _, s => PresE.reflPres s
  | dt :: dts, a :: as2, i, s => by
    simp only [checkArgs]
    show PresE s (match getExprType a s with
      | (argTy, s1) =>
        checkArgs dts as2 (i + 1)
          (if ¬ checkTypeCompatibility dt argTy then s1.addErr (Diag.argMismatch i dt argTy)
           else s1))
    cases hg : getExprType a s with
    | mk ty s1 =>
      have ih := getExprType_pres a s
      rw [hg] at ih
      show PresE s (checkArgs dts as2 (i + 1)
        (if ¬ checkTypeCompatibility dt ty then s1.addErr (Diag.argMismatch i dt ty) else s1))
      have ih2 := checkArgs_pres dts as2 (i + 1)
        (if ¬ checkTypeCompatibility dt ty then s1.addErr (Diag.argMismatch i dt ty) else s1)
      refine PresE.compPres ih (PresE.compPres ?_ ih2)
      by_cases hc : ¬ checkTypeCompatibility dt ty
      · rw [if_pos hc]
        exact PresE.addErr s1 _
      · rw [if_neg hc]
        exact PresE.reflPres s1

theorem handleFuncCall_pres (cs : List Node) (leaf : Option String) (s : SemSt) :
    PresE s (handleFuncCall cs leaf s) := by
  simp only [handleFuncCall]
  cases hl : SemSt.lookup s (leaf.getD "") with
  | none => exact PresE.addErr s _
  | some sym =>
    show PresE s (if sym.category ≠ "func" then s.addErr (Diag.notAFunc (leaf.getD ""))
      else match cs with
      | args :: _ =>
        if sym.paramTypes.length ≠ args.children.length then
          s.addErr (Diag.argCount (leaf.getD "") sym.paramTypes.length args.children.length)
        else checkArgs sym.paramTypes args.children 1 s
      | [] =>
        if sym.paramTypes.length ≠ 0 then
          s.addErr (Diag.argCount (leaf.getD "") sym.paramTypes.length 0)
        else s)
    by_cases hcat : sym.category ≠ "func"
    · rw [if_pos hcat]
      exact PresE.addErr s _
    · rw [if_neg hcat]
      cases cs with
      | nil =>
        show PresE s (if sym.paramTypes.length ≠ 0 then
          s.addErr (Diag.argCount (leaf.getD "") sym.paramTypes.length 0) else s)
        by_cases hn : sym.paramTypes.length ≠ 0
        · rw [if_pos hn]
          exact PresE.addErr s _
        · rw [if_neg hn]
          exact PresE.reflPres s
      | cons args rest =>
        show PresE s (if sym.paramTypes.length ≠ args.children.length then
          s.addErr (Diag.argCount (leaf.getD "") sym.paramTypes.length args.children.length)
          else checkArgs sym.paramTypes args.children 1 s)
        by_cases hn : sym.paramTypes.length ≠ args.children.length
        · rw [if_pos hn]
          exact PresE.addErr s _
        · rw [if_neg hn]
          exact checkArgs_pres _ _ _ s

mutual

theorem iterate_pres : ∀ (n : Node) (s : SemSt), noDecls n = true → PresE s (iterate n s)
  | .mk kind cs leaf, s, h => by
    have hnd : isDeclKind (nKind kind) = false ∧ noDeclsList cs = true := by
      simpa [noDecls, Bool.and_eq_true, Bool.not_eq_true'] using h
    cases hk : nKind kind <;>
      simp only [iterate, hk] <;>
      first
        | (rw [hk] at hnd; exact absurd hnd.1 (by decide))
        | exact iterList_pres cs s hnd.2
        | exact PresE.compPres (handleAssignment_pres cs s) (iterList_pres cs _ hnd.2)
        | exact PresE.compPres (handleIf_pres cs s hnd.2) (iterList_pres cs _ hnd.2)
        | exact PresE.compPres (handleWhile_pres cs s hnd.2) (iterList_pres cs _ hnd.2)
        | exact PresE.compPres (handleFor_pres cs s hnd.2) (iterList_pres cs _ hnd.2)
        | exact PresE.compPres (handleReturn_pres cs s) (iterList_pres cs _ hnd.2)
        | exact PresE.compPres (handleFuncCall_pres cs leaf s) (iterList_pres cs _ hnd.2)
        | (obtain ⟨ha, hb, e, hc⟩ := iterList_pres cs (SemSt.enterScope s) hnd.2
           refine ⟨?_, ?_, e, ?_⟩
           · show (iterList cs (SemSt.enterScope s)).scopes.tail = s.scopes
             rw [ha]
             rfl
           · show (iterList cs (SemSt.enterScope s)).curRet = s.curRet
             rw [hb]
             rfl
           · show (iterList cs (SemSt.enterScope s)).errors = s.errors ++ e
             rw [hc]
             rfl)

theorem iterList_pres : ∀ (ns : List Node) (s : SemSt),
    noDeclsList ns = true → PresE s (iterList ns s)
  | [], s, _ => PresE.reflPres s
  | n :: rest, s, h => by
    have h1 : noDecls n = true ∧ noDeclsList rest = true := by
      simpa [noDeclsList, Bool.and_eq_true] using h
    show PresE s (iterList rest (iterate n s))
    exact PresE.compPres (iterate_pres n s h1.1) (iterList_pres rest (iterate n s) h1.2)

theorem handleIf_pres : ∀ (cs : List Node) (s : SemSt),
    noDeclsList cs = true → PresE s (handleIf cs s)
  | [], s, _ => PresE.reflPres s
  | cond :: rest, s, h => by
    have h1 : noDecls cond = true ∧ noDeclsList rest = true := by
      simpa [noDeclsList, Bool.and_eq_true] using h
    simp only [handleIf]
    cases hg : getExprType cond s with
    | mk condTy s1 =>
      have ih := getExprType_pres cond s
      rw [hg] at ih
      by_cases hb : condTy ≠ "bool"
      · rw [if_pos hb]
        exact PresE.compPres ih (PresE.compPres (PresE.addErr s1 _) (iterList_pres rest _ h1.2))
      · rw [if_neg hb]
        exact PresE.compPres ih (iterList_pres rest _ h1.2)

theorem handleWhile_pres : ∀ (cs : List Node) (s : SemSt),
    noDeclsList cs = true → PresE s (handleWhile cs s)
  | [], s, _ => PresE.reflPres s
  | [c], s, _ => PresE.reflPres s
  | cond :: blk :: rest, s, h => by
    have h1 : noDecls cond = true ∧ noDecls blk = true ∧ noDeclsList rest = true := by
      simpa [noDeclsList, Bool.and_eq_true, and_assoc] using h
    simp only [handleWhile]
    cases hg : getExprType cond s with
    | mk condTy s1 =>
      have ih := getExprType_pres cond s
      rw [hg] at ih
      by_cases hb : condTy ≠ "bool"
      · rw [if_pos hb]
        exact PresE.compPres ih (PresE.compPres (PresE.addErr s1 _) (iterate_pres blk _ h1.2.1))
      · rw [if_neg hb]
        exact PresE.compPres ih (iterate_pres blk _ h1.2.1)

theorem handleFor_pres : ∀ (cs : List Node) (s : SemSt),
    noDeclsList cs = true → PresE s (handleFor cs s)
  | [], s, _ => PresE.reflPres s
  | [x], s, _ => PresE.reflPres s
  | [x, y], s, _ => PresE.reflPres s
  | [x, y, z], s, _ => PresE.reflPres s
  | a1 :: cond :: a2 :: blk :: rest, s, h => by
    have h1 : noDecls a1 = true ∧ noDecls cond = true ∧ noDecls a2 = true
        ∧ noDecls blk = true ∧ noDeclsList rest = true := by
      simpa [noDeclsList, Bool.and_eq_true, and_assoc] using h
    simp only [handleFor]
    cases hg : getExprType cond (iterate a1 s) with
    | mk condTy s2 =>
      have ih0 := iterate_pres a1 s h1.1
      have ih1 := getExprType_pres cond (iterate a1 s)
      rw [hg] at ih1
      by_cases hb : condTy ≠ "bool"
      · rw [if_pos hb]
        exact PresE.compPres ih0 (PresE.compPres ih1 (PresE.compPres (PresE.addErr s2 _)
          (PresE.compPres (iterate_pres a2 _ h1.2.2.1) (iterate_pres blk _ h1.2.2.2.1))))
      · rw [if_neg hb]
        exact PresE.compPres ih0 (PresE.compPres ih1
          (PresE.compPres (iterate_pres a2 _ h1.2.2.1) (iterate_pres blk _ h1.2.2.2.1)))

end


def keyIn (g : Scope) (x : String) : Bool := (scopeFind g x).isSome

theorem scopeFind_cons (q : String × Entry) (rest : Scope) (x : String) :
    scopeFind (q :: rest) x = if q.1 = x then some q.2 else scopeFind rest x := by
  by_cases hq : q.1 = x
  · simp [scopeFind, List.find?_cons, hq]
  · simp [scopeFind, List.find?_cons, hq]

theorem keyIn_cons (q : String × Entry) (rest : Scope) (x : String) :
    keyIn (q :: rest) x = if q.1 = x then true else keyIn rest x := by
  unfold keyIn
  rw [scopeFind_cons]
  by_cases hq : q.1 = x
  · rw [if_pos hq, if_pos hq]
    rfl
  · rw [if_neg hq, if_neg hq]

theorem keyIn_append_left : ∀ {g : Scope} (l : Scope) {x : String},
    keyIn g x = true → keyIn (g ++ l) x = true
  | [], l, x, h => by
    rw [show keyIn ([] : Scope) x = false from rfl] at h
    exact Bool.noConfusion h
  | q :: rest, l, x, h => by
    rw [List.cons_append, keyIn_cons]
    rw [keyIn_cons] at h
    by_cases hq : q.1 = x
    · rw [if_pos hq]
    · rw [if_neg hq] at h ⊢
      exact keyIn_append_left l h

theorem keyIn_append_key : ∀ (g : Scope) (name : String) (ent : Entry),
    keyIn (g ++ [(name, ent)]) name = true
  | [], name, ent => by
    rw [List.nil_append, keyIn_cons]
    rw [if_pos rfl]
  | q :: rest, name, ent => by
    rw [List.cons_append, keyIn_cons]
    by_cases hq : q.1 = name
    · rw [if_pos hq]
    · rw [if_neg hq]
      exact keyIn_append_key rest name ent

/-- The per-entry rewrite `set_param_types` maps over the enclosing
scope (definitionally equal to the inline lambda in `setParamTypes`). -/
def ptsUpdate (name : String) (pts : List String) (p : String × Entry) : String × Entry :=
  if p.1 = name then (p.1, { p.2 with paramTypes := pts }) else p

theorem ptsUpdate_fst (name : String) (pts : List String) (p : String × Entry) :
    (ptsUpdate name pts p).1 = p.1 := by
  unfold ptsUpdate
  by_cases hq : p.1 = name
  · rw [if_pos hq]
  · rw [if_neg hq]

/-- `set_param_types` only rewrites entries in place: the key set of the
mapped scope is unchanged. -/
theorem keyIn_map_pts (sc : Scope) (name : String) (pts : List String) (x : String) :
    keyIn (sc.map (ptsUpdate name pts)) x = keyIn sc x := by
  induction sc with
  | nil => rfl
  | cons q rest ih =>
    rw [List.map_cons, keyIn_cons, keyIn_cons, ptsUpdate_fst, ih]

/-- `defineOrReport` on a singleton scope stack. -/
theorem defineOrReport_glob (g : Scope) (er : List Diag) (cr : Option String)
    (name ty cat : String) (d : Diag) :
    ∃ g2 e, defineOrReport ⟨[g], er, cr⟩ name ty cat d = ⟨[g2], er ++ e, cr⟩ ∧
      (∀ x, keyIn g x = true → keyIn g2 x = true) ∧
      keyIn g2 name = true ∧
      (keyIn g name = true → e ≠ []) := by
  unfold defineOrReport
  by_cases hf : (scopeFind g name).isSome
  · have he : SemSt.define ⟨[g], er, cr⟩ name ty cat = (⟨[g], er, cr⟩, false) := by
      simp [SemSt.define, hf]
    rw [he]
    refine ⟨g, [d], ?_, fun x h => h, hf, fun _ => by simp⟩
    show ((⟨[g], er, cr⟩ : SemSt).addErr d) = ⟨[g], er ++ [d], cr⟩
    rfl
  · have he : SemSt.define ⟨[g], er, cr⟩ name ty cat
        = (⟨[g ++ [(name, ⟨ty, cat, []⟩)]], er, cr⟩, true) := by
      simp [SemSt.define, hf]
    rw [he]
    refine ⟨g ++ [(name, ⟨ty, cat, []⟩)], [], ?_, ?_, ?_, ?_⟩
    · show (⟨[g ++ [(name, ⟨ty, cat, []⟩)]], er, cr⟩ : SemSt) = _
      rw [List.append_nil]
    · exact fun x h => keyIn_append_left _ h
    · exact keyIn_append_key g name _
    · intro hcontra
      exact absurd hcontra hf

theorem handleVarDecl_glob (cs : List Node) (leaf : Option String) (g : Scope)
    (er : List Diag) (cr : Option String) :
    ∃ g2 e, handleVarDecl cs leaf ⟨[g], er, cr⟩ = ⟨[g2], er ++ e, cr⟩ ∧
      (∀ x, keyIn g x = true → keyIn g2 x = true) := by
  obtain ⟨g2, e, h1, h2, h3, h4⟩ := defineOrReport_glob g er cr (leaf.getD "")
    (match cs with | ty :: _ => ty.leaf.getD "" | [] => "") "var"
    (Diag.varRedecl (leaf.getD ""))
  exact ⟨g2, e, h1, h2⟩

theorem handleArrayDecl_glob (cs : List Node) (leaf : Option String) (g : Scope)
    (er : List Diag) (cr : Option String) :
    ∃ g2 e, handleArrayDecl cs leaf ⟨[g], er, cr⟩ = ⟨[g2], er ++ e, cr⟩ ∧
      (∀ x, keyIn g x = true → keyIn g2 x = true) := by
  obtain ⟨g2, e, h1, h2, h3, h4⟩ := defineOrReport_glob g er cr (leaf.getD "")
    (match cs with | ty :: _ => ty.leaf.getD "" | [] => "") "array"
    (Diag.arrayRedecl (leaf.getD ""))
  exact ⟨g2, e, h1, h2⟩

/-- `define` for each parameter only rewrites the innermost scope. -/
theorem defineParams_scopes : ∀ (ps : List Node) (h : Scope) (t : List Scope)
    (er : List Diag) (cr : Option String),
    ∃ h2, defineParams ps ⟨h :: t, er, cr⟩ = ⟨h2 :: t, er, cr⟩
  | [], h, t, er, cr => ⟨h, rfl⟩
  | p :: rest, h, t, er, cr => by
    show ∃ h2, defineParams rest
      (SemSt.define ⟨h :: t, er, cr⟩ (paramInfo p).2 (paramInfo p).1 "var").1 = ⟨h2 :: t, er, cr⟩
    by_cases hf : (scopeFind h (paramInfo p).2).isSome
    · have he : (SemSt.define ⟨h :: t, er, cr⟩ (paramInfo p).2 (paramInfo p).1 "var").1
          = ⟨h :: t, er, cr⟩ := by
        simp [SemSt.define, hf]
      rw [he]
      exact defineParams_scopes rest h t er cr
    · have he : (SemSt.define ⟨h :: t, er, cr⟩ (paramInfo p).2 (paramInfo p).1 "var").1
          = ⟨(h ++ [((paramInfo p).2, ⟨(paramInfo p).1, "var", []⟩)]) :: t, er, cr⟩ := by
        simp [SemSt.define, hf]
      rw [he]
      exact defineParams_scopes rest _ t er cr

/-- `handle_func_decl` on a singleton scope stack: the function name ends
up in the global scope, existing keys survive, the error list only grows,
and it grows strictly when the name was already taken. -/
theorem handleFuncDecl_glob : ∀ (cs : List Node) (leaf : Option String) (g : Scope)
    (er : List Diag) (cr : Option String), noDeclsList cs = true →
    ∃ g2 e, handleFuncDecl cs leaf ⟨[g], er, cr⟩ = ⟨[g2], er ++ e, none⟩ ∧
      (∀ x, keyIn g x = true → keyIn g2 x = true) ∧
      keyIn g2 (leaf.getD "") = true ∧
      (keyIn g (leaf.getD "") = true → e ≠ [])
  | params :: .mk bk bodyCs bl :: rest2, leaf, g, er, cr, hnd => by
    have hbody : noDeclsList bodyCs = true := by
      have h' := hnd
      simp only [noDeclsList, noDecls, Bool.and_eq_true] at h'
      exact h'.2.1.2
    have tail : ∀ (g1 : Scope) (er2 : List Diag),
        ∃ g2 e1, ({ SemSt.exitScope (iterList bodyCs (SemSt.setParamTypes
            (defineParams params.children (⟨[] :: [g1], er2, some "void"⟩ : SemSt))
            (leaf.getD "") (params.children.map (fun p => (paramInfo p).1))))
            with curRet := none } : SemSt)
          = ⟨[g2], er2 ++ e1, none⟩ ∧
          (∀ x, keyIn g1 x = true → keyIn g2 x = true) := by
      intro g1 er2
      obtain ⟨h2, hdp⟩ := defineParams_scopes params.children [] [g1] er2 (some "void")
      rw [hdp]
      have hsp : SemSt.setParamTypes ⟨h2 :: [g1], er2, some "void"⟩ (leaf.getD "")
          (params.children.map (fun p => (paramInfo p).1))
          = ⟨h2 :: [g1.map (ptsUpdate (leaf.getD "")
              (params.children.map (fun p => (paramInfo p).1)))], er2, some "void"⟩ := rfl
      rw [hsp]
      obtain ⟨e1, hrun⟩ := (iterList_pres bodyCs
        (⟨h2 :: [g1.map (ptsUpdate (leaf.getD "")
            (params.children.map (fun p => (paramInfo p).1)))], er2, some "void"⟩ : SemSt)
        hbody).run
      rw [hrun]
      refine ⟨g1.map (ptsUpdate (leaf.getD "")
        (params.children.map (fun p => (paramInfo p).1))), e1, rfl, ?_⟩
      intro x hx
      rw [keyIn_map_pts]
      exact hx
    show ∃ g2 e, ({ SemSt.exitScope (iterList bodyCs (SemSt.setParamTypes
        (defineParams params.children ({ SemSt.enterScope
            (defineOrReport ⟨[g], er, cr⟩ (leaf.getD "") "void" "func"
              (Diag.funcRedecl (leaf.getD ""))) with curRet := some "void" } : SemSt))
        (leaf.getD "") (params.children.map (fun p => (paramInfo p).1))))
        with curRet := none } : SemSt) = ⟨[g2], er ++ e, none⟩ ∧
      (∀ x, keyIn g x = true → keyIn g2 x = true) ∧
      keyIn g2 (leaf.getD "") = true ∧
      (keyIn g (leaf.getD "") = true → e ≠ [])
    obtain ⟨g1, e0, hdef, hmono0, hkey0, hne0⟩ := defineOrReport_glob g er cr
      (leaf.getD "") "void" "func" (Diag.funcRedecl (leaf.getD ""))
    rw [hdef]
    obtain ⟨g2, e1, htail, hmono1⟩ := tail g1 (er ++ e0)
    refine ⟨g2, e0 ++ e1, ?_, ?_, ?_, ?_⟩
    · exact htail.trans (by rw [List.append_assoc])
    · exact fun x hx => hmono1 x (hmono0 x hx)
    · exact hmono1 _ hkey0
    · intro hkg hee
      exact hne0 hkg (List.append_eq_nil.mp hee).1
  | [], leaf, g, er, cr, hnd => by
    show ∃ g2 e, ({ SemSt.exitScope ({ SemSt.enterScope
        (defineOrReport ⟨[g], er, cr⟩ (leaf.getD "") "void" "func"
          (Diag.funcRedecl (leaf.getD ""))) with curRet := some "void" } : SemSt)
        with curRet := none } : SemSt) = ⟨[g2], er ++ e, none⟩ ∧
      (∀ x, keyIn g x = true → keyIn g2 x = true) ∧
      keyIn g2 (leaf.getD "") = true ∧
      (keyIn g (leaf.getD "") = true → e ≠ [])
    obtain ⟨g1, e0, hdef, hmono0, hkey0, hne0⟩ := defineOrReport_glob g er cr
      (leaf.getD "") "void" "func" (Diag.funcRedecl (leaf.getD ""))
    rw [hdef]
    exact ⟨g1, e0, rfl, hmono0, hkey0, hne0⟩
  | [p], leaf, g, er, cr, hnd => by
    show ∃ g2 e, ({ SemSt.exitScope ({ SemSt.enterScope
        (defineOrReport ⟨[g], er, cr⟩ (leaf.getD "") "void" "func"
          (Diag.funcRedecl (leaf.getD ""))) with curRet := some "void" } : SemSt)
        with curRet := none } : SemSt) = ⟨[g2], er ++ e, none⟩ ∧
      (∀ x, keyIn g x = true → keyIn g2 x = true) ∧
      keyIn g2 (leaf.getD "") = true ∧
      (keyIn g (leaf.getD "") = true → e ≠ [])
    obtain ⟨g1, e0, hdef, hmono0, hkey0, hne0⟩ := defineOrReport_glob g er cr
      (leaf.getD "") "void" "func" (Diag.funcRedecl (leaf.getD ""))
    rw [hdef]
    exact ⟨g1, e0, rfl, hmono0, hkey0, hne0⟩


/-- Effect of one well-formed top-level declaration on a singleton scope
stack, including the children re-traversal `iterate` falls through to. -/
theorem declStep : ∀ (kind : String) (cs : List Node) (leaf : Option String) (g : Scope)
    (er : List Diag) (cr : Option String), wfDecl (.mk kind cs leaf) = true →
    ∃ g2 e cr2, iterate (.mk kind cs leaf) ⟨[g], er, cr⟩ = ⟨[g2], er ++ e, cr2⟩ ∧
      (∀ x, keyIn g x = true → keyIn g2 x = true) ∧
      (∀ f ∈ funcLeaves (.mk kind cs leaf), keyIn g2 f = true) ∧
      (funcLeaves (.mk kind cs leaf)).Nodup ∧
      (e = [] → ∀ f ∈ funcLeaves (.mk kind cs leaf), keyIn g f = false) := by
  intro kind cs leaf g er cr hwf
  have hw2 : isDeclKind (nKind kind) = true ∧ noDeclsList cs = true := by
    simpa [wfDecl, Bool.and_eq_true] using hwf
  have hnil := funcLeavesList_eq_nil cs hw2.2
  cases hk : nKind kind
  case var_decl =>
    have hfl : funcLeaves (.mk kind cs leaf) = [] := by
      simp [funcLeaves, hk, hnil]
    have hit : iterate (.mk kind cs leaf) ⟨[g], er, cr⟩
        = iterList cs (handleVarDecl cs leaf ⟨[g], er, cr⟩) := by
      simp [iterate, hk]
    obtain ⟨g1, e0, hvd, hm1⟩ := handleVarDecl_glob cs leaf g er cr
    obtain ⟨e1, hrun⟩ := (iterList_pres cs (⟨[g1], er ++ e0, cr⟩ : SemSt) hw2.2).run
    refine ⟨g1, e0 ++ e1, cr, ?_, hm1, ?_, ?_, ?_⟩
    · rw [hit, hvd, hrun]
      show (⟨[g1], (er ++ e0) ++ e1, cr⟩ : SemSt) = _
      rw [List.append_assoc]
    · intro f hff
      rw [hfl] at hff
      exact absurd hff (List.not_mem_nil f)
    · rw [hfl]
      exact List.nodup_nil
    · intro _ f hff
      rw [hfl] at hff
      exact absurd hff (List.not_mem_nil f)
  case var_decl_array =>
    have hfl : funcLeaves (.mk kind cs leaf) = [] := by
      simp [funcLeaves, hk, hnil]
    have hit : iterate (.mk kind cs leaf) ⟨[g], er, cr⟩
        = iterList cs (handleArrayDecl cs leaf ⟨[g], er, cr⟩) := by
      simp [iterate, hk]
    obtain ⟨g1, e0, hvd, hm1⟩ := handleArrayDecl_glob cs leaf g er cr
    obtain ⟨e1, hrun⟩ := (iterList_pres cs (⟨[g1], er ++ e0, cr⟩ : SemSt) hw2.2).run
    refine ⟨g1, e0 ++ e1, cr, ?_, hm1, ?_, ?_, ?_⟩
    · rw [hit, hvd, hrun]
      show (⟨[g1], (er ++ e0) ++ e1, cr⟩ : SemSt) = _
      rw [List.append_assoc]
    · intro f hff
      rw [hfl] at hff
      exact absurd hff (List.not_mem_nil f)
    · rw [hfl]
      exact List.nodup_nil
    · intro _ f hff
      rw [hfl] at hff
      exact absurd hff (List.not_mem_nil f)
  case func_decl =>
    have hfl : funcLeaves (.mk kind cs leaf) = [leaf.getD ""] := by
      simp [funcLeaves, hk, hnil]
    have hit : iterate (.mk kind cs leaf) ⟨[g], er, cr⟩
        = iterList cs (handleFuncDecl cs leaf ⟨[g], er, cr⟩) := by
      simp [iterate, hk]
    obtain ⟨g1, e0, hfd, hm1, hkey, hne⟩ := handleFuncDecl_glob cs leaf g er cr hw2.2
    obtain ⟨e1, hrun⟩ := (iterList_pres cs (⟨[g1], er ++ e0, none⟩ : SemSt) hw2.2).run
    refine ⟨g1, e0 ++ e1, none, ?_, hm1, ?_, ?_, ?_⟩
    · rw [hit, hfd, hrun]
      show (⟨[g1], (er ++ e0) ++ e1, none⟩ : SemSt) = _
      rw [List.append_assoc]
    · intro f hff
      rw [hfl, List.mem_singleton] at hff
      subst hff
      exact hkey
    · rw [hfl]
      exact List.nodup_singleton _
    · intro hee f hff
      rw [hfl, List.mem_singleton] at hff
      subst hff
      have he0 : e0 = [] := (List.append_eq_nil.mp hee).1
      cases hb : keyIn g (leaf.getD "")
      · rfl
      · exact absurd he0 (hne hb)
  all_goals (rw [hk] at hw2; exact absurd hw2.1 (by decide))

/-- The whole top-level pass: existing global keys survive, every
declared function name ends up in the global scope, and if no diagnostic
was appended then the declared function names are pairwise distinct and
were all fresh. -/
theorem topPass : ∀ (decls : List Node) (g : Scope) (er : List Diag) (cr : Option String),
    wfDeclList decls = true →
    ∃ g2 e cr2, iterList decls ⟨[g], er, cr⟩ = ⟨[g2], er ++ e, cr2⟩ ∧
      (∀ x, keyIn g x = true → keyIn g2 x = true) ∧
      (∀ f ∈ funcLeavesList decls, keyIn g2 f = true) ∧
      (e = [] → (funcLeavesList decls).Nodup ∧
        ∀ f ∈ funcLeavesList decls, keyIn g f = false)
  | [], g, er, cr, _ => by
    refine ⟨g, [], cr, ?_, fun x h => h, ?_, ?_⟩
    · show (⟨[g], er, cr⟩ : SemSt) = _
      rw [List.append_nil]
    · intro f hf
      simp [funcLeavesList] at hf
    · intro _
      refine ⟨by simp [funcLeavesList], ?_⟩
      intro f hf
      simp [funcLeavesList] at hf
  | .mk kind cs leaf :: rest, g, er, cr, h => by
    have h1 : wfDecl (.mk kind cs leaf) = true ∧ wfDeclList rest = true := by
      simpa [wfDeclList, Bool.and_eq_true] using h
    obtain ⟨g1, e1, cr1, hit, hmono1, hkeys1, hnd1, hna1⟩ := declStep kind cs leaf g er cr h1.1
    obtain ⟨g2, e2, cr2, hit2, hmono2, hkeys2, hna2⟩ := topPass rest g1 (er ++ e1) cr1 h1.2
    have hflc : funcLeavesList ((Node.mk kind cs leaf) :: rest)
        = funcLeaves (.mk kind cs leaf) ++ funcLeavesList rest := by
      simp [funcLeavesList]
    refine ⟨g2, e1 ++ e2, cr2, ?_, fun x hx => hmono2 x (hmono1 x hx), ?_, ?_⟩
    · show iterList rest (iterate (.mk kind cs leaf) ⟨[g], er, cr⟩) = _
      rw [hit, hit2, List.append_assoc]
    · intro f hf
      rw [hflc] at hf
      rcases List.mem_append.mp hf with hf | hf
      · exact hmono2 f (hkeys1 f hf)
      · exact hkeys2 f hf
    · intro hee
      have he1 : e1 = [] := (List.append_eq_nil.mp hee).1
      have he2 : e2 = [] := (List.append_eq_nil.mp hee).2
      obtain ⟨hndrest, hfresh⟩ := hna2 he2
      constructor
      · rw [hflc, List.nodup_append]
        refine ⟨hnd1, hndrest, ?_⟩
        intro f hf1 hf2
        have hk1 : keyIn g1 f = true := hkeys1 f hf1
        have hk2 : keyIn g1 f = false := hfresh f hf2
        rw [hk1] at hk2
        exact Bool.noConfusion hk2
      · rw [hflc]
        intro f hf
        rcases List.mem_append.mp hf with hf | hf
        · exact hna1 he1 f hf
        · have h2 := hfresh f hf
          cases hb : keyIn g f
          · rfl
          · rw [hmono1 f hb] at h2
            exact Bool.noConfusion h2

/-- A grammar-shaped program whose semantic analysis reports no
diagnostic declares pairwise-distinct function names. -/
theorem semNodup : ∀ (ast : Node), wfProgram ast = true →
    (analyze ast).errors = [] → (funcLeaves ast).Nodup
  | .mk kind cs leaf, hwf, hsem => by
    have h1 : nKind kind = NKind.program ∧ wfDeclList cs = true := by
      simpa [wfProgram, Bool.and_eq_true, beq_iff_eq] using hwf
    have hit : analyze (.mk kind cs leaf) = iterList cs ⟨[[]], [], none⟩ := by
      simp [analyze, iterate, h1.1]
    obtain ⟨g2, e, cr2, hrun, _, _, hlast⟩ := topPass cs [] [] none h1.2
    rw [hit, hrun] at hsem
    have he : e = [] := by simpa using hsem
    obtain ⟨hnd, _⟩ := hlast he
    have hne : nKind kind ≠ .func_decl := by
      rw [h1.1]
      decide
    have e2 : funcLeaves (.mk kind cs leaf) = funcLeavesList cs := by
      simp [funcLeaves, hne]
    rw [e2]
    exact hnd

/-- Temporary names `t<N>`. -/
def tNm (i : Nat) : String := "t" ++ natStr i

theorem tNm_inj {i j : Nat} (h : tNm i = tNm j) : i = j := by
  unfold tNm at h
  have hd := congrArg String.data h
  rw [string_append_data, string_append_data] at hd
  simp only [List.cons_append, List.nil_append] at hd
  apply natStr_inj
  apply string_data_inj
  simpa using hd


/-! ## Claim C9 -/

/-- C9: Within one Code Generator run on an AST (grammar-shaped, as all
parser outputs are) that passed semantic analysis, the temporary and
label counters are strictly increasing — each allocation returns a fresh
name `t<N>` / `L<N>` never returned before in that run (the counter
bumps by one at every allocation, names are injective in the counter,
and every generator call is counter-monotone, including across function
bodies) — and no label line is emitted into the code section twice. -/
theorem C9_fresh_names (ast : Node) (hwf : wfProgram ast = true)
    (hsem : semanticAnalysis ast = true) :
    (∀ s : CGSt, newTemp s
      = (tNm (s.tempCounter + 1), { s with tempCounter := s.tempCounter + 1 })) ∧
    (∀ s : CGSt, newLabel s
      = (lNm (s.labelCounter + 1), { s with labelCounter := s.labelCounter + 1 })) ∧
    (∀ i j : Nat, tNm i = tNm j → i = j) ∧
    (∀ i j : Nat, lNm i = lNm j → i = j) ∧
    (∀ (n : Node) (s : CGSt), s.tempCounter ≤ (genNode n s).tempCounter ∧
      s.labelCounter ≤ (genNode n s).labelCounter) ∧
    (labelLines (codeGen ast).code).Nodup := by
  refine ⟨fun s => rfl, fun s => rfl, fun i j h => tNm_inj h, fun i j h => lNm_inj h, ?_, ?_⟩
  · intro n s
    have h := genNode_spec n s
    exact ⟨h.1, h.2.1⟩
  · have hsem2 : (analyze ast).errors = [] := by
      have h2 : (analyze ast).errors.isEmpty = true := hsem
      cases he : (analyze ast).errors with
      | nil => rfl
      | cons a l =>
        rw [he] at h2
        simp [List.isEmpty] at h2
    have hnd := semNodup ast hwf hsem2
    have h := genNode_spec ast CGSt.init
    obtain ⟨Δ, hc, hm, hcl, hcf⟩ := GenSpec.span h
    have hcode : (codeGen ast).code = Δ := by
      show (genNode ast CGSt.init).code = Δ
      rw [hc]
      rfl
    rw [hcode, List.nodup_iff_count_le_one]
    intro a
    by_cases ha : a ∈ labelLines Δ
    · rcases hm a ha with ⟨i, heq, _, _⟩ | ⟨f, hf, heq⟩
      · subst heq
        exact hcl i
      · subst heq
        have h1 := hcf f
        have h2 : (funcLeaves ast).count f ≤ 1 := List.nodup_iff_count_le_one.mp hnd f
        omega
    · rw [List.count_eq_zero.mpr ha]
      omega

/-- A concrete two-function program with a global variable and a loop
(so both `FUNC_` and `L<i>` labels are exercised). -/
def c9Ast : Node :=
  .mk "program" [
    .mk "var_decl" [.mk "type" [] (some "int")] (some "x"),
    .mk "func_decl" [
      .mk "params" [] none,
      .mk "block" [
        .mk "while" [
          .mk "literal" [] (some "true"),
          .mk "block" [.mk "print" [.mk "literal" [] (some "1")] none] none] none] none]
      (some "f"),
    .mk "func_decl" [.mk "params" [] none, .mk "block" [] none] (some "g")] none

theorem C9_fresh_names_witness :
    wfProgram c9Ast = true ∧ semanticAnalysis c9Ast = true ∧
    ((∀ s : CGSt, newTemp s
        = (tNm (s.tempCounter + 1), { s with tempCounter := s.tempCounter + 1 })) ∧
     (∀ s : CGSt, newLabel s
        = (lNm (s.labelCounter + 1), { s with labelCounter := s.labelCounter + 1 })) ∧
     (∀ i j : Nat, tNm i = tNm j → i = j) ∧
     (∀ i j : Nat, lNm i = lNm j → i = j) ∧
     (∀ (n : Node) (s : CGSt), s.tempCounter ≤ (genNode n s).tempCounter ∧
       s.labelCounter ≤ (genNode n s).labelCounter) ∧
     (labelLines (codeGen c9Ast).code).Nodup) :=
  ⟨by decide, by decide, C9_fresh_names c9Ast (by decide) (by decide)⟩

end Aqua
